import Mathlib

/-!
Shallow embedding of the tree/fiber utilities of `src/index.ts`
(`treeToFiber`, `getNextFiber`, `walkThroughFiber`, `useSearchTree`).

The TypeScript code builds a mutable linked structure of fiber objects and
keys a `Set` and a `Map` by object identity.  We model the object store as a
list of fiber records; an object is identified by its index (its allocation
order).  `null` pointers become `none`, a pointer to an object becomes
`some` of its index.  The unbounded `while` loops of the source walk strictly
decreasing parent indices on every heap the code ever builds; they are given
explicit fuel, always called with fuel larger than any such chain.
-/

namespace SodaHooks

/-- `TreeNode<T>`: payload plus an ordered list of children. -/
inductive TreeNode (T : Type) where
  | mk (data : T) (children : List (TreeNode T))

def TreeNode.data {T : Type} : TreeNode T → T
  | .mk d _ => d

def TreeNode.children {T : Type} : TreeNode T → List (TreeNode T)
  | .mk _ cs => cs

/-- `TreeFiber<T>`: payload plus `parent` / `child` / `sibling` links. -/
structure Fiber (T : Type) where
  data : T
  parent : Option Nat
  child : Option Nat
  sibling : Option Nat
deriving DecidableEq, Repr

mutual

/-- Number of nodes of a tree (the node itself plus all descendants). -/
def sizeT {T : Type} : TreeNode T → Nat
  | .mk _ cs => 1 + sizeF cs

/-- Number of nodes of a forest. -/
def sizeF {T : Type} : List (TreeNode T) → Nat
  | [] => 0
  | t :: ts => sizeT t + sizeF ts

end

mutual

/-- Pre-order listing of the payloads of a tree. -/
def preT {T : Type} : TreeNode T → List T
  | .mk d cs => d :: preF cs

/-- Pre-order listing of the payloads of a forest. -/
def preF {T : Type} : List (TreeNode T) → List T
  | [] => []
  | t :: ts => preT t ++ preF ts

end

/-- `if (parent && !parent.child) parent.child = fiber`: set the `child`
field of the fiber at index `p` to `some c`, but only when it is `none`. -/
def linkChild {T : Type} (heap : List (Fiber T)) (p c : Nat) : List (Fiber T) :=
  match heap[p]? with
  | some fb => if fb.child = none then heap.set p { fb with child := some c } else heap
  | none => heap

/-- `prev.sibling = fiber`: set the `sibling` field of the fiber at `q`. -/
def setSibling {T : Type} (heap : List (Fiber T)) (q s : Nat) : List (Fiber T) :=
  match heap[q]? with
  | some fb => heap.set q { fb with sibling := some s }
  | none => heap

/-- `if (parent && ...)`: apply `linkChild` when a parent index is present. -/
def linkChildOpt {T : Type} (heap : List (Fiber T)) (parent : Option Nat) (c : Nat) :
    List (Fiber T) :=
  match parent with
  | some p => linkChild heap p c
  | none => heap

/-- `if (prev) ...`: apply `setSibling` when a previous-sibling index is present. -/
def setSiblingOpt {T : Type} (heap : List (Fiber T)) (prev : Option Nat) (s : Nat) :
    List (Fiber T) :=
  match prev with
  | some q => setSibling heap q s
  | none => heap

/-- The inner `createFiber` of `treeToFiber`: allocate a fiber for each node
of `items` (depth-first, children before later siblings), linking it as the
parent's first `child` or the previous sibling's `sibling`.  The heap is the
object store; allocation appends.  `first` of the source is index 0, the
first fiber ever allocated. -/
def createFiber {T : Type} (heap : List (Fiber T)) :
    List (TreeNode T) → Option Nat → Option Nat → List (Fiber T)
  | [], _, _ => heap
  | .mk d cs :: rest, parent, prev =>
    let idx := heap.length
    let h1 := heap ++ [⟨d, parent, none, none⟩]
    let h2 := linkChildOpt h1 parent idx
    let h3 := setSiblingOpt h2 prev idx
    let h4 := createFiber h3 cs (some idx) none
    createFiber h4 rest parent (some idx)
termination_by items _ _ => sizeF items
decreasing_by
  all_goals simp [sizeF, sizeT]
  all_goals omega

/-- `treeToFiber`: throws (`Except.error`) on the empty forest, otherwise
returns the heap together with the index of the first fiber. -/
def treeToFiber {T : Type} (tree : List (TreeNode T)) :
    Except String (List (Fiber T) × Nat) :=
  if tree.isEmpty then .error "树不能为空"
  else .ok (createFiber [] tree none none, 0)

/-- The `while (parent)` loop of `getNextFiber`: climb `parent` links until a
fiber with a `sibling` is found.  Parent indices strictly decrease on every
heap `treeToFiber` builds, so fuel `heap.length` never runs out there. -/
def getNextFiberUp {T : Type} (heap : List (Fiber T)) : Nat → Option Nat → Option Nat
  | _, none => none
  | 0, some _ => none
  | fuel + 1, some p =>
    match heap[p]? with
    | none => none
    | some fb =>
      match fb.sibling with
      | some s => some s
      | none => getNextFiberUp heap fuel fb.parent

/-- `getNextFiber`: first child if any, else next sibling, else the sibling
of the nearest ancestor that has one. -/
def getNextFiber {T : Type} (heap : List (Fiber T)) (i : Nat) : Option Nat :=
  match heap[i]? with
  | none => none
  | some fb =>
    match fb.child with
    | some c => some c
    | none =>
      match fb.sibling with
      | some s => some s
      | none => getNextFiberUp heap heap.length fb.parent

/-- The visiting loop of `walkThroughFiber`: the list of indices visited,
starting at `i`, following `getNextFiber`.  On the heaps `treeToFiber`
builds the walk visits each fiber at most once, so fuel `heap.length`
never runs out there. -/
def walkList {T : Type} (heap : List (Fiber T)) : Nat → Nat → List Nat
  | 0, _ => []
  | fuel + 1, i =>
    i :: (match getNextFiber heap i with
          | none => []
          | some j => walkList heap fuel j)

/-- `walkThroughFiber`: throws (`Except.error`) when the given fiber has a
parent, otherwise returns the list of visited indices in visit order. -/
def walkThroughFiber {T : Type} (heap : List (Fiber T)) (i : Nat) :
    Except String (List Nat) :=
  match heap[i]? with
  | some fb =>
    match fb.parent with
    | some _ => .error "根节点的 parent 必须为空"
    | none => .ok (walkList heap heap.length i)
  | none => .ok (walkList heap heap.length i)

/-! ### Specification-side description of the heap `createFiber` builds

`flattenForest base parent items` is the block of fibers that `createFiber`
appends for `items` when the heap already holds `base` fibers: node `k` of
the forest in pre-order becomes the fiber at index `base + k`, its `child`
points to its first child (allocated right after it), its `sibling` to the
next sibling (allocated right after its whole subtree). -/
def flattenForest {T : Type} : Nat → Option Nat → List (TreeNode T) → List (Fiber T)
  | _, _, [] => []
  | base, parent, .mk d cs :: rest =>
    ⟨d, parent,
      if cs.isEmpty then none else some (base + 1),
      if rest.isEmpty then none else some (base + sizeT (.mk d cs))⟩
    :: (flattenForest (base + 1) (some base) cs ++
        flattenForest (base + sizeT (.mk d cs)) parent rest)
termination_by _ _ items => sizeF items
decreasing_by
  all_goals simp [sizeF, sizeT]
  all_goals omega

/-- The mutations `createFiber` applies to the part of the heap that existed
before the call: link the new block's first fiber as the parent's `child`
(when still unset) and as the previous sibling's `sibling`. -/
def applyLinks {T : Type} (heap : List (Fiber T)) (items : List (TreeNode T))
    (parent prev : Option Nat) : List (Fiber T) :=
  match items with
  | [] => heap
  | _ :: _ => setSiblingOpt (linkChildOpt heap parent heap.length) prev heap.length

/-! ### Basic lemmas about the heap operations -/

theorem length_linkChild {T : Type} (heap : List (Fiber T)) (p c : Nat) :
    (linkChild heap p c).length = heap.length := by
  unfold linkChild
  cases h : heap[p]? with
  | none => rfl
  | some fb => dsimp only; split <;> simp

theorem length_setSibling {T : Type} (heap : List (Fiber T)) (q s : Nat) :
    (setSibling heap q s).length = heap.length := by
  unfold setSibling
  cases h : heap[q]? with
  | none => rfl
  | some fb => simp

theorem linkChild_append {T : Type} (heap l : List (Fiber T)) {p : Nat} (c : Nat)
    (hp : p < heap.length) :
    linkChild (heap ++ l) p c = linkChild heap p c ++ l := by
  unfold linkChild
  rw [List.getElem?_append_left hp]
  cases h : heap[p]? with
  | none => rfl
  | some fb =>
    dsimp only
    split
    · rw [List.set_append_left _ _ hp]
    · rfl

theorem setSibling_append {T : Type} (heap l : List (Fiber T)) {q : Nat} (s : Nat)
    (hq : q < heap.length) :
    setSibling (heap ++ l) q s = setSibling heap q s ++ l := by
  unfold setSibling
  rw [List.getElem?_append_left hq]
  cases h : heap[q]? with
  | none => rfl
  | some fb =>
    dsimp only
    rw [List.set_append_left _ _ hq]

theorem setSibling_child {T : Type} (heap : List (Fiber T)) (q s i : Nat) :
    ((setSibling heap q s)[i]?).map Fiber.child = (heap[i]?).map Fiber.child := by
  unfold setSibling
  cases h : heap[q]? with
  | none => rfl
  | some fb =>
    dsimp only
    by_cases hiq : q = i
    · subst hiq
      have hlt : q < heap.length := (List.getElem?_eq_some.mp h).1
      rw [List.getElem?_set_self', h]
      rfl
    · rw [List.getElem?_set_ne hiq]

theorem getElem?_set_lt {α : Type} (l : List α) (i : Nat) (x : α) (h : i < l.length) :
    (l.set i x)[i]? = some x := by
  rw [List.getElem?_set_self', List.getElem?_eq_getElem h]
  rfl

theorem linkChild_child_isSome {T : Type} (heap : List (Fiber T)) {p : Nat} (c : Nat)
    (hp : p < heap.length) :
    ∃ fb, (linkChild heap p c)[p]? = some fb ∧ fb.child ≠ none := by
  unfold linkChild
  rw [List.getElem?_eq_getElem hp]
  dsimp only
  split
  · exact ⟨_, getElem?_set_lt heap p _ hp, by simp⟩
  · exact ⟨heap[p], List.getElem?_eq_getElem hp, by assumption⟩

theorem length_linkChildOpt {T : Type} (heap : List (Fiber T)) (parent : Option Nat)
    (c : Nat) : (linkChildOpt heap parent c).length = heap.length := by
  unfold linkChildOpt
  cases parent with
  | none => rfl
  | some p => exact length_linkChild ..

theorem length_setSiblingOpt {T : Type} (heap : List (Fiber T)) (prev : Option Nat)
    (s : Nat) : (setSiblingOpt heap prev s).length = heap.length := by
  unfold setSiblingOpt
  cases prev with
  | none => rfl
  | some q => exact length_setSibling ..

theorem linkChildOpt_append {T : Type} (heap l : List (Fiber T)) (parent : Option Nat)
    (c : Nat) (hp : ∀ p, parent = some p → p < heap.length) :
    linkChildOpt (heap ++ l) parent c = linkChildOpt heap parent c ++ l := by
  unfold linkChildOpt
  cases parent with
  | none => rfl
  | some p => exact linkChild_append heap l c (hp p rfl)

theorem setSiblingOpt_append {T : Type} (heap l : List (Fiber T)) (prev : Option Nat)
    (s : Nat) (hq : ∀ q, prev = some q → q < heap.length) :
    setSiblingOpt (heap ++ l) prev s = setSiblingOpt heap prev s ++ l := by
  unfold setSiblingOpt
  cases prev with
  | none => rfl
  | some q => exact setSibling_append heap l s (hq q rfl)

theorem setSiblingOpt_child {T : Type} (heap : List (Fiber T)) (prev : Option Nat)
    (s i : Nat) :
    ((setSiblingOpt heap prev s)[i]?).map Fiber.child = (heap[i]?).map Fiber.child := by
  unfold setSiblingOpt
  cases prev with
  | none => rfl
  | some q => exact setSibling_child heap q s i

theorem length_applyLinks {T : Type} (heap : List (Fiber T)) (items : List (TreeNode T))
    (parent prev : Option Nat) :
    (applyLinks heap items parent prev).length = heap.length := by
  unfold applyLinks
  cases items with
  | nil => rfl
  | cons x xs =>
    dsimp only
    rw [length_setSiblingOpt, length_linkChildOpt]

/-- When `items` is non-empty and a parent index is supplied, the parent's
`child` field is non-`null` after the links are applied. -/
theorem applyLinks_child_isSome {T : Type} (heap : List (Fiber T))
    (x : TreeNode T) (xs : List (TreeNode T)) {p : Nat} (prev : Option Nat)
    (hp : p < heap.length) :
    ∃ fb, (applyLinks heap (x :: xs) (some p) prev)[p]? = some fb ∧ fb.child ≠ none := by
  unfold applyLinks
  dsimp only
  obtain ⟨fb, hfb, hchild⟩ := linkChild_child_isSome heap heap.length hp
  have hmap := setSiblingOpt_child (linkChild heap p heap.length) prev heap.length p
  rw [show linkChildOpt heap (some p) heap.length = linkChild heap p heap.length from rfl]
  rw [hfb] at hmap
  cases hq : (setSiblingOpt (linkChild heap p heap.length) prev heap.length)[p]? with
  | none => rw [hq] at hmap; simp at hmap
  | some fb' =>
    rw [hq] at hmap
    simp only [Option.map_some'] at hmap
    refine ⟨fb', rfl, ?_⟩
    intro hnone
    apply hchild
    have h2 : fb'.child = fb.child := by injection hmap
    rw [← h2, hnone]

theorem flattenForest_length {T : Type} (items : List (TreeNode T)) :
    ∀ (base : Nat) (parent : Option Nat),
      (flattenForest base parent items).length = sizeF items := by
  match items with
  | [] => intro base parent; simp [flattenForest, sizeF]
  | .mk d cs :: rest =>
    intro base parent
    rw [flattenForest]
    have h1 := flattenForest_length cs (base + 1) (some base)
    have h2 := flattenForest_length rest (base + sizeT (.mk d cs)) parent
    simp only [List.length_cons, List.length_append]
    rw [h1, h2]
    simp only [sizeF, sizeT]
    omega
termination_by sizeF items
decreasing_by
  all_goals simp [sizeF, sizeT]
  all_goals omega

/-- The central characterization of `createFiber`: it applies the two link
mutations to the existing part of the heap and appends the `flattenForest`
block for `items`. -/
theorem createFiber_spec {T : Type} (items : List (TreeNode T)) :
    ∀ (heap : List (Fiber T)) (parent prev : Option Nat),
      (∀ p, parent = some p → p < heap.length) →
      (∀ q, prev = some q → q < heap.length) →
      createFiber heap items parent prev =
        applyLinks heap items parent prev ++ flattenForest heap.length parent items := by
  match items with
  | [] => intro heap parent prev _ _; simp [createFiber, applyLinks, flattenForest]
  | .mk d cs :: rest =>
    intro heap parent prev hp hq
    rw [createFiber.eq_def]
    dsimp only
    set idx := heap.length with hidx
    set f0 : Fiber T := ⟨d, parent, none, none⟩ with hf0
    -- the heap after the two link mutations on the pre-existing part
    set L := applyLinks heap (.mk d cs :: rest) parent prev with hL
    have hLlen : L.length = heap.length := length_applyLinks ..
    -- step 1: the heap after allocation and linking is `L ++ [f0]`
    have h3eq : setSiblingOpt (linkChildOpt (heap ++ [f0]) parent idx) prev idx
        = L ++ [f0] := by
      rw [hL]
      unfold applyLinks
      dsimp only
      rw [linkChildOpt_append heap [f0] parent idx hp]
      exact setSiblingOpt_append _ [f0] prev idx
        (by intro q hq'; rw [length_linkChildOpt]; exact hq q hq')
    rw [h3eq]
    -- step 2: the recursive call on the children
    have ih1 := createFiber_spec cs (L ++ [f0]) (some idx) none
      (by intro p hp'; injection hp' with hp'; subst hp'; simp [hLlen, hidx])
      (by intro q hq'; cases hq')
    rw [ih1]
    have hlen1 : (L ++ [f0]).length = idx + 1 := by simp [hLlen, hidx]
    rw [hlen1]
    set f1 : Fiber T :=
      ⟨d, parent, if cs.isEmpty then none else some (idx + 1), none⟩ with hf1
    have h4eq : applyLinks (L ++ [f0]) cs (some idx) none = L ++ [f1] := by
      unfold applyLinks
      cases cs with
      | nil => simp [hf1, hf0]
      | cons c cs' =>
        dsimp only
        simp only [setSiblingOpt, linkChildOpt]
        unfold linkChild
        rw [hlen1]
        have hupat : (L ++ [f0])[idx]? = some f0 := by
          rw [List.getElem?_append_right (by omega)]
          have h0 : idx - L.length = 0 := by omega
          rw [h0]
          rfl
        rw [hupat]
        dsimp only
        rw [if_pos rfl]
        rw [show idx = L.length from by rw [hLlen, hidx]]
        rw [List.set_append_right _ _ (Nat.le_refl _)]
        simp only [Nat.sub_self, List.set]
        rw [hf1]
        simp [hLlen, hidx]
    rw [h4eq]
    set Fc := flattenForest (idx + 1) (some idx) cs with hFc
    have hFclen : Fc.length = sizeF cs := flattenForest_length ..
    -- step 3: the recursive call on the remaining siblings
    have hlen4 : (L ++ [f1] ++ Fc).length = idx + sizeT (.mk d cs) := by
      simp only [List.length_append, List.length_cons, List.length_nil, hLlen, hFclen,
        sizeT, hidx]
      omega
    have ih2 := createFiber_spec rest (L ++ [f1] ++ Fc) parent (some idx)
      (by intro p hp'
          have h := hp p hp'
          simp only [List.length_append, List.length_cons, List.length_nil, hLlen]
          omega)
      (by intro q hq'
          injection hq' with hq'
          subst hq'
          simp only [List.length_append, List.length_cons, List.length_nil, hLlen, hidx]
          omega)
    rw [ih2, hlen4]
    set f2 : Fiber T :=
      ⟨d, parent, if cs.isEmpty then none else some (idx + 1),
        if rest.isEmpty then none else some (idx + sizeT (.mk d cs))⟩ with hf2
    have h5eq : applyLinks (L ++ [f1] ++ Fc) rest parent (some idx) = L ++ [f2] ++ Fc := by
      cases rest with
      | nil =>
        simp only [applyLinks]
        rw [hf2]
        simp
      | cons r rs =>
        unfold applyLinks
        dsimp only
        have hparent : linkChildOpt (L ++ [f1] ++ Fc) parent (L ++ [f1] ++ Fc).length
            = L ++ [f1] ++ Fc := by
          cases parent with
          | none => rfl
          | some p =>
            have hp' : p < heap.length := hp p rfl
            obtain ⟨fb, hfb, hchild⟩ :=
              applyLinks_child_isSome heap (.mk d cs) (r :: rs) prev hp'
            rw [← hL] at hfb
            simp only [linkChildOpt]
            unfold linkChild
            have hlook : (L ++ [f1] ++ Fc)[p]? = some fb := by
              rw [List.getElem?_append_left (by simp [hLlen]; omega),
                List.getElem?_append_left (by rw [hLlen]; omega)]
              exact hfb
            rw [hlook]
            dsimp only
            rw [if_neg hchild]
        rw [hparent]
        simp only [setSiblingOpt]
        unfold setSibling
        have hlook1 : (L ++ [f1] ++ Fc)[idx]? = some f1 := by
          rw [List.getElem?_append_left
            (by simp only [List.length_append, List.length_cons, List.length_nil]; omega)]
          rw [List.getElem?_append_right (by omega)]
          have h0 : idx - L.length = 0 := by omega
          rw [h0]
          rfl
        rw [hlook1]
        dsimp only
        rw [hlen4]
        rw [List.set_append_left _ _
          (by simp only [List.length_append, List.length_cons, List.length_nil]; omega)]
        rw [show idx = L.length from by rw [hLlen, hidx]]
        rw [List.set_append_right _ _ (Nat.le_refl _)]
        simp only [Nat.sub_self, List.set]
        rw [hf2]
        simp [hLlen, hidx]
    rw [h5eq]
    -- assemble: the produced heap equals the links plus the flattened block
    have hR : flattenForest idx parent (TreeNode.mk d cs :: rest)
        = f2 :: (Fc ++ flattenForest (idx + sizeT (TreeNode.mk d cs)) parent rest) := by
      rw [flattenForest, hf2, hFc]
    rw [hR]
    simp [List.append_assoc]
termination_by sizeF items
decreasing_by
  all_goals simp [sizeF, sizeT]
  all_goals omega

/-- `treeToFiber` on a non-empty forest produces exactly the flattened heap,
rooted at index 0. -/
theorem treeToFiber_eq_flatten {T : Type} (tree : List (TreeNode T)) (h : tree ≠ []) :
    treeToFiber tree = .ok (flattenForest 0 none tree, 0) := by
  unfold treeToFiber
  rw [if_neg (by simpa using h)]
  rw [createFiber_spec tree [] none none (by intro p hp; cases hp) (by intro q hq; cases hq)]
  cases tree with
  | nil => exact absurd rfl h
  | cons t ts => simp [applyLinks, setSiblingOpt, linkChildOpt]

/-! ### The walk over a flattened heap visits indices in increasing order -/

theorem sizeT_pos {T : Type} (t : TreeNode T) : 1 ≤ sizeT t := by
  cases t with
  | mk d cs => simp only [sizeT]; omega

/-- Parent indices strictly decrease along `parent` links. -/
abbrev WFparent {T : Type} (H : List (Fiber T)) : Prop :=
  ∀ j (fb : Fiber T), H[j]? = some fb → ∀ pp, fb.parent = some pp → pp < j

/-- `H` holds the flattened block of `items` starting at `base`. -/
abbrev Seg {T : Type} (H : List (Fiber T)) (base : Nat) (parent : Option Nat)
    (items : List (TreeNode T)) : Prop :=
  ∀ k, k < sizeF items → H[base + k]? = (flattenForest base parent items)[k]?

theorem flattenForest_getElem_head {T : Type} (base : Nat) (parent : Option Nat)
    (d : T) (cs rest : List (TreeNode T)) :
    (flattenForest base parent (.mk d cs :: rest))[0]? =
      some ⟨d, parent,
        if cs.isEmpty then none else some (base + 1),
        if rest.isEmpty then none else some (base + sizeT (.mk d cs))⟩ := by
  rw [flattenForest]
  exact List.getElem?_cons_zero

theorem flattenForest_getElem_children {T : Type} (base : Nat) (parent : Option Nat)
    (d : T) (cs rest : List (TreeNode T)) (k : Nat) (h1 : k < sizeF cs) :
    (flattenForest base parent (.mk d cs :: rest))[1 + k]? =
      (flattenForest (base + 1) (some base) cs)[k]? := by
  rw [flattenForest]
  rw [show 1 + k = k + 1 from by omega]
  rw [List.getElem?_cons_succ]
  exact List.getElem?_append_left (by rw [flattenForest_length]; exact h1)

theorem flattenForest_getElem_rest {T : Type} (base : Nat) (parent : Option Nat)
    (d : T) (cs rest : List (TreeNode T)) (k : Nat) :
    (flattenForest base parent (.mk d cs :: rest))[sizeT (.mk d cs) + k]? =
      (flattenForest (base + sizeT (.mk d cs)) parent rest)[k]? := by
  rw [flattenForest]
  have hsz : sizeT (TreeNode.mk d cs) = 1 + sizeF cs := by simp [sizeT]
  rw [hsz, show 1 + sizeF cs + k = (sizeF cs + k) + 1 from by omega,
    List.getElem?_cons_succ]
  rw [List.getElem?_append_right (by rw [flattenForest_length]; omega)]
  congr 1
  rw [flattenForest_length]
  omega

theorem flattenForest_parent_lt {T : Type} (items : List (TreeNode T)) :
    ∀ (base : Nat) (parent : Option Nat),
      (∀ p0, parent = some p0 → p0 < base) →
      ∀ k fb, (flattenForest base parent items)[k]? = some fb →
        ∀ pp, fb.parent = some pp → pp < base + k := by
  match items with
  | [] =>
    intro base parent _ k fb hfb
    rw [flattenForest] at hfb
    simp at hfb
  | .mk d cs :: rest =>
    intro base parent hb k fb hfb pp hpp
    by_cases hk0 : k = 0
    · subst hk0
      rw [flattenForest_getElem_head] at hfb
      injection hfb with hfb
      subst hfb
      simp only at hpp
      have := hb pp hpp
      omega
    · by_cases hkc : k < sizeT (.mk d cs)
      · have hk1 : k = 1 + (k - 1) := by omega
        have hklt : k - 1 < sizeF cs := by
          have : sizeT (TreeNode.mk d cs) = 1 + sizeF cs := by simp [sizeT]
          omega
        rw [hk1, flattenForest_getElem_children base parent d cs rest _ hklt] at hfb
        have := flattenForest_parent_lt cs (base + 1) (some base)
          (by intro p0 hp0; injection hp0 with hp0; omega) _ fb hfb pp hpp
        omega
      · have hk1 : k = sizeT (.mk d cs) + (k - sizeT (.mk d cs)) := by omega
        rw [hk1, flattenForest_getElem_rest] at hfb
        have := flattenForest_parent_lt rest (base + sizeT (.mk d cs)) parent
          (by intro p0 hp0; have := hb p0 hp0; have := sizeT_pos (TreeNode.mk d cs); omega)
          _ fb hfb pp hpp
        omega
termination_by sizeF items
decreasing_by
  all_goals simp [sizeF, sizeT]
  all_goals omega

theorem WFparent_flatten {T : Type} (F : List (TreeNode T)) :
    WFparent (flattenForest 0 none F) := by
  intro j fb hfb pp hpp
  have := flattenForest_parent_lt F 0 none (by intro p0 hp0; cases hp0) j fb hfb pp hpp
  omega

theorem getNextFiberUp_none {T : Type} (H : List (Fiber T)) (f : Nat) :
    getNextFiberUp H f none = none := by
  cases f <;> rfl

/-- On a parent-decreasing heap the climb is fuel-independent as long as the
fuel exceeds the starting index. -/
theorem getNextFiberUp_fuel {T : Type} (H : List (Fiber T)) (hwf : WFparent H) :
    ∀ p f₁ f₂, p < f₁ → p < f₂ →
      getNextFiberUp H f₁ (some p) = getNextFiberUp H f₂ (some p) := by
  intro p
  induction p using Nat.strong_induction_on with
  | _ p ih =>
    intro f₁ f₂ h₁ h₂
    obtain ⟨m₁, rfl⟩ : ∃ m, f₁ = m + 1 := ⟨f₁ - 1, by omega⟩
    obtain ⟨m₂, rfl⟩ : ∃ m, f₂ = m + 1 := ⟨f₂ - 1, by omega⟩
    rw [getNextFiberUp, getNextFiberUp]
    cases hfb : H[p]? with
    | none => rfl
    | some fb =>
      dsimp only
      cases hs : fb.sibling with
      | some s => rfl
      | none =>
        dsimp only
        cases hp : fb.parent with
        | none => rw [getNextFiberUp_none, getNextFiberUp_none]
        | some pp =>
          have hlt := hwf p fb hfb pp hp
          exact ih pp hlt m₁ m₂ (by omega) (by omega)

/-- On a heap containing the flattened block of `items` at `base`, the
successor of every block element but the last is the next index; the
successor of the last element is found by climbing from the block's
parent. -/
theorem seg_next {T : Type} (items : List (TreeNode T)) :
    ∀ (H : List (Fiber T)) (base : Nat) (parent : Option Nat),
      WFparent H → Seg H base parent items →
      ∀ k, k < sizeF items →
        getNextFiber H (base + k) =
          if k + 1 < sizeF items then some (base + k + 1)
          else getNextFiberUp H H.length parent := by
  match items with
  | [] =>
    intro H base parent _ _ k hk
    simp [sizeF] at hk
  | .mk d cs :: rest =>
    intro H base parent hwf hseg k hk
    have hsz : sizeT (TreeNode.mk d cs) = 1 + sizeF cs := by simp only [sizeT]
    have hszF : sizeF (TreeNode.mk d cs :: rest) = sizeT (TreeNode.mk d cs) + sizeF rest := by
      simp only [sizeF]
    have hhead : H[base]? = some ⟨d, parent,
        if cs.isEmpty then none else some (base + 1),
        if rest.isEmpty then none else some (base + sizeT (.mk d cs))⟩ := by
      have h0 := hseg 0 (by omega)
      rw [Nat.add_zero] at h0
      rw [h0, flattenForest_getElem_head]
    have hbase_lt : base < H.length := (List.getElem?_eq_some.mp hhead).1
    -- the climb from the last element of the block
    have hup : getNextFiberUp H H.length (some base) =
        if rest.isEmpty then getNextFiberUp H H.length parent
        else some (base + sizeT (.mk d cs)) := by
      obtain ⟨m, hm⟩ : ∃ m, H.length = m + 1 := ⟨H.length - 1, by omega⟩
      rw [hm, getNextFiberUp, hhead]
      dsimp only
      cases rest with
      | cons r rs => simp
      | nil =>
        simp only [List.isEmpty_nil, if_pos]
        cases hpar : parent with
        | none => rw [getNextFiberUp_none, getNextFiberUp_none]
        | some p0 =>
          have hp0 : p0 < base := by
            apply hwf base _ hhead
            rw [hpar]
          rw [← hm]
          exact getNextFiberUp_fuel H hwf p0 m H.length (by omega) (by omega)
    by_cases hk0 : k = 0
    · subst hk0
      rw [Nat.add_zero]
      unfold getNextFiber
      rw [hhead]
      dsimp only
      cases cs with
      | cons c cs' =>
        have hc1 : 1 ≤ sizeF (c :: cs') := by
          have := sizeT_pos c
          simp only [sizeF]
          omega
        simp only [List.isEmpty_cons, Bool.false_eq_true, if_false]
        rw [if_pos (by omega)]
      | nil =>
        simp only [List.isEmpty_nil, if_pos]
        cases rest with
        | cons r rs =>
          have hr1 : 1 ≤ sizeF (r :: rs) := by
            have := sizeT_pos r
            simp only [sizeF]
            omega
          simp only [List.isEmpty_cons, Bool.false_eq_true, if_false]
          rw [if_pos (by rw [hszF]; simp only [sizeF] at *; omega)]
          rw [hsz]
          simp only [sizeF]
        | nil =>
          simp only [List.isEmpty_nil, if_pos]
          rw [if_neg (by rw [hszF]; simp only [sizeF] at *; omega)]
    · by_cases hkc : k < sizeT (.mk d cs)
      · -- inside the subtree of the first root
        have hk1 : k - 1 < sizeF cs := by omega
        have hsegc : Seg H (base + 1) (some base) cs := by
          intro k'' hk''
          have h1 := hseg (1 + k'') (by omega)
          rw [flattenForest_getElem_children base parent d cs rest _ hk''] at h1
          rw [show base + (1 + k'') = base + 1 + k'' from by omega] at h1
          exact h1
        have ih := seg_next cs H (base + 1) (some base) hwf hsegc (k - 1) hk1
        rw [show base + k = base + 1 + (k - 1) from by omega, ih]
        by_cases hlast : k - 1 + 1 < sizeF cs
        · rw [if_pos hlast, if_pos (by omega)]
        · rw [if_neg hlast, hup]
          cases rest with
          | cons r rs =>
            have hr1 : 1 ≤ sizeF (r :: rs) := by
              have := sizeT_pos r
              simp only [sizeF]
              omega
            simp only [List.isEmpty_cons, Bool.false_eq_true, if_false]
            rw [if_pos (by omega)]
            congr 1
            omega
          | nil =>
            simp only [List.isEmpty_nil, if_pos]
            rw [if_neg (by simp only [sizeF] at *; omega)]
      · -- inside the remaining sibling trees
        have hk1 : k - sizeT (.mk d cs) < sizeF rest := by omega
        have hsegr : Seg H (base + sizeT (.mk d cs)) parent rest := by
          intro k'' hk''
          have h1 := hseg (sizeT (.mk d cs) + k'') (by omega)
          rw [flattenForest_getElem_rest base parent d cs rest k''] at h1
          rw [show base + (sizeT (.mk d cs) + k'') = base + sizeT (.mk d cs) + k''
            from by omega] at h1
          exact h1
        have ih := seg_next rest H (base + sizeT (.mk d cs)) parent hwf hsegr
          (k - sizeT (.mk d cs)) hk1
        rw [show base + k = base + sizeT (.mk d cs) + (k - sizeT (.mk d cs)) from by omega,
          ih]
        by_cases hlast : k - sizeT (.mk d cs) + 1 < sizeF rest
        · rw [if_pos hlast, if_pos (by omega)]
        · rw [if_neg hlast, if_neg (by omega)]
termination_by sizeF items
decreasing_by
  all_goals simp [sizeF, sizeT]
  all_goals omega

theorem Seg_head {T : Type} {H : List (Fiber T)} {base : Nat} {parent : Option Nat}
    {d : T} {cs rest : List (TreeNode T)} (hseg : Seg H base parent (.mk d cs :: rest)) :
    H[base]? = some ⟨d, parent,
      if cs.isEmpty then none else some (base + 1),
      if rest.isEmpty then none else some (base + sizeT (.mk d cs))⟩ := by
  have h0 := hseg 0 (by have := sizeT_pos (TreeNode.mk d cs); simp only [sizeF]; omega)
  rw [Nat.add_zero] at h0
  rw [h0, flattenForest_getElem_head]

theorem Seg_children {T : Type} {H : List (Fiber T)} {base : Nat} {parent : Option Nat}
    {d : T} {cs rest : List (TreeNode T)} (hseg : Seg H base parent (.mk d cs :: rest)) :
    Seg H (base + 1) (some base) cs := by
  intro k hk
  have h1 := hseg (1 + k) (by simp only [sizeF, sizeT]; omega)
  rw [flattenForest_getElem_children base parent d cs rest _ hk] at h1
  rw [show base + (1 + k) = base + 1 + k from by omega] at h1
  exact h1

theorem Seg_rest {T : Type} {H : List (Fiber T)} {base : Nat} {parent : Option Nat}
    {d : T} {cs rest : List (TreeNode T)} (hseg : Seg H base parent (.mk d cs :: rest)) :
    Seg H (base + sizeT (.mk d cs)) parent rest := by
  intro k hk
  have h1 := hseg (sizeT (.mk d cs) + k) (by simp only [sizeF]; omega)
  rw [flattenForest_getElem_rest base parent d cs rest k] at h1
  rw [show base + (sizeT (.mk d cs) + k) = base + sizeT (.mk d cs) + k from by omega] at h1
  exact h1

theorem flatten_seg {T : Type} (F : List (TreeNode T)) :
    Seg (flattenForest 0 none F) 0 none F := by
  intro k _
  rw [Nat.zero_add]

theorem flatten_getNext {T : Type} (F : List (TreeNode T)) (k : Nat) (hk : k < sizeF F) :
    getNextFiber (flattenForest 0 none F) k =
      if k + 1 < sizeF F then some (k + 1) else none := by
  have h := seg_next F (flattenForest 0 none F) 0 none (WFparent_flatten F)
    (flatten_seg F) k hk
  rw [Nat.zero_add] at h
  rw [h, getNextFiberUp_none]

theorem walkList_flatten {T : Type} (F : List (TreeNode T)) :
    ∀ (fuel k : Nat), k < sizeF F → sizeF F - k ≤ fuel →
      walkList (flattenForest 0 none F) fuel k = List.range' k (sizeF F - k) := by
  intro fuel
  induction fuel with
  | zero => intro k hk hf; omega
  | succ f ih =>
    intro k hk hf
    rw [walkList, flatten_getNext F k hk]
    by_cases h1 : k + 1 < sizeF F
    · rw [if_pos h1]
      dsimp only
      rw [ih (k + 1) h1 (by omega)]
      rw [show sizeF F - k = (sizeF F - (k + 1)) + 1 from by omega]
      rw [List.range'_succ]
    · rw [if_neg h1]
      dsimp only
      rw [show sizeF F - k = 1 from by omega]
      simp

/-- Walking the heap of a non-empty forest from the root fiber visits
exactly the indices `0, 1, …, n-1` in order. -/
theorem walk_flatten {T : Type} (F : List (TreeNode T)) (hF : F ≠ []) :
    walkThroughFiber (flattenForest 0 none F) 0 =
      .ok (List.range (flattenForest 0 none F).length) := by
  obtain ⟨t, ts, rfl⟩ : ∃ t ts, F = t :: ts := by
    cases F with
    | nil => exact absurd rfl hF
    | cons t ts => exact ⟨t, ts, rfl⟩
  obtain ⟨d, cs⟩ := t
  have hhead := Seg_head (flatten_seg (TreeNode.mk d cs :: ts))
  rw [Nat.zero_add] at hhead  -- no-op, kept for clarity of the head index
  unfold walkThroughFiber
  rw [hhead]
  dsimp only
  have hn : (flattenForest 0 none (TreeNode.mk d cs :: ts)).length
      = sizeF (TreeNode.mk d cs :: ts) := flattenForest_length ..
  have hpos : 0 < sizeF (TreeNode.mk d cs :: ts) := by
    have := sizeT_pos (TreeNode.mk d cs)
    simp only [sizeF]
    omega
  rw [hn, walkList_flatten _ _ 0 hpos (by omega)]
  rw [Nat.sub_zero, List.range_eq_range']

theorem preF_length {T : Type} (items : List (TreeNode T)) :
    ∀ (_ : Unit), (preF items).length = sizeF items := by
  match items with
  | [] => intro _; simp [preF, sizeF]
  | .mk d cs :: rest =>
    intro _
    have h1 := preF_length cs ()
    have h2 := preF_length rest ()
    simp only [preF, preT, List.length_append, List.length_cons]
    rw [h1, h2]
    simp only [sizeF, sizeT]
    omega
termination_by sizeF items
decreasing_by
  all_goals simp [sizeF, sizeT]
  all_goals omega

theorem flattenForest_map_data {T : Type} (items : List (TreeNode T)) :
    ∀ (base : Nat) (parent : Option Nat),
      (flattenForest base parent items).map Fiber.data = preF items := by
  match items with
  | [] => intro base parent; simp [flattenForest, preF]
  | .mk d cs :: rest =>
    intro base parent
    rw [flattenForest]
    simp only [List.map_cons, List.map_append]
    rw [flattenForest_map_data cs, flattenForest_map_data rest]
    simp [preF, preT]
termination_by sizeF items
decreasing_by
  all_goals simp [sizeF, sizeT]
  all_goals omega

/-- Specification-side structural invariant of the fiber heap: the fiber of
each node carries its payload, points to the surrounding parent, to its
first child right after it (iff it has children), and to its next sibling
right after its whole subtree (iff one exists). -/
def FiberRep {T : Type} (H : List (Fiber T)) : Nat → Option Nat → List (TreeNode T) → Prop
  | _, _, [] => True
  | base, parent, .mk d cs :: rest =>
    H[base]? = some ⟨d, parent,
        if cs.isEmpty then none else some (base + 1),
        if rest.isEmpty then none else some (base + sizeT (.mk d cs))⟩
    ∧ FiberRep H (base + 1) (some base) cs
    ∧ FiberRep H (base + sizeT (.mk d cs)) parent rest
termination_by base parent items => sizeF items
decreasing_by
  all_goals simp [sizeF, sizeT]
  all_goals omega

theorem seg_fiberRep {T : Type} (items : List (TreeNode T)) :
    ∀ (H : List (Fiber T)) (base : Nat) (parent : Option Nat),
      Seg H base parent items → FiberRep H base parent items := by
  match items with
  | [] => intro H base parent _; rw [FiberRep]; trivial
  | .mk d cs :: rest =>
    intro H base parent hseg
    rw [FiberRep]
    exact ⟨Seg_head hseg,
      seg_fiberRep cs H (base + 1) (some base) (Seg_children hseg),
      seg_fiberRep rest H (base + sizeT (.mk d cs)) parent (Seg_rest hseg)⟩
termination_by sizeF items
decreasing_by
  all_goals simp [sizeF, sizeT]
  all_goals omega

/-! ### The search (`useSearchTree`)

The reconstruction builds a second object graph of output nodes.  Output
nodes are likewise identified by allocation index, in a store `oheap`; a
node's `children` array holds the indices of the output nodes pushed into
it, in push order.  `addedFiberMap` is the `Map` from fiber (index) to
output node (index): `Map.set` prepends an entry, lookup returns the first
hit.  `trueFibers` is the `Set` of directly matching fibers. -/

/-- An output node of the reconstructed tree. -/
structure ONode (K : Type) where
  value : K
  children : List Nat
deriving DecidableEq, Repr

/-- The state of `useSearchTree`'s reconstruction (the heap and root of the
fiber structure are returned alongside by the wrappers). -/
structure SearchTreeResult (K : Type) where
  oheap : List (ONode K)
  searchTree : List Nat
  addedFiberMap : List (Nat × Nat)
  trueFibers : List Nat
deriving DecidableEq, Repr

/-- `Map.get`. -/
def mapGet (m : List (Nat × Nat)) (i : Nat) : Option Nat :=
  (m.find? (fun e => e.1 == i)).map (fun e => e.2)

/-- `Map.set`. -/
def mapSet (m : List (Nat × Nat)) (i o : Nat) : List (Nat × Nat) :=
  (i, o) :: m

/-- `Set.add`. -/
def setAdd (s : List Nat) (i : Nat) : List Nat :=
  if i ∈ s then s else s ++ [i]

/-- The `while (parent)` loop of `parentIsTrue`: climb `parent` links,
checking membership in `trueFibers`.  Fuel as for `getNextFiberUp`. -/
def parentIsTrueAux {T : Type} (H : List (Fiber T)) (tf : List Nat) :
    Nat → Option Nat → Bool
  | _, none => false
  | 0, some _ => false
  | fuel + 1, some p =>
    if p ∈ tf then true
    else
      match H[p]? with
      | none => false
      | some fb => parentIsTrueAux H tf fuel fb.parent

/-- `parentIsTrue`: does some strict ancestor of `i` lie in `trueFibers`? -/
def parentIsTrue {T : Type} (H : List (Fiber T)) (tf : List Nat) (i : Nat) : Bool :=
  match H[i]? with
  | some fb => parentIsTrueAux H tf H.length fb.parent
  | none => false

/-- `parentNode.children ??= []; parentNode.children.push(node)`. -/
def pushChild {K : Type} (oheap : List (ONode K)) (po o : Nat) : List (ONode K) :=
  match oheap[po]? with
  | some nd => oheap.set po ⟨nd.value, nd.children ++ [o]⟩
  | none => oheap

/-- `addFiberToTree`: materialize the output node of fiber `i` (applying the
transform), record it in the map, and attach it — directly to `searchTree`
for a root, otherwise under the parent's output node, materializing the
parent first when it is not in the map yet.  The recursion climbs `parent`
links, so the fuel argument as for `getNextFiberUp`. -/
def addFiberToTree {T K : Type} (H : List (Fiber T)) (transform : T → Bool → Bool → K) :
    Nat → Nat → SearchTreeResult K → SearchTreeResult K
  | 0, _, st => st
  | fuel + 1, i, st =>
    match H[i]? with
    | none => st
    | some fb =>
      let node : ONode K :=
        ⟨transform fb.data (i ∈ st.trueFibers) (parentIsTrue H st.trueFibers i), []⟩
      let o := st.oheap.length
      let st1 : SearchTreeResult K :=
        ⟨st.oheap ++ [node], st.searchTree, mapSet st.addedFiberMap i o, st.trueFibers⟩
      match fb.parent with
      | none => ⟨st1.oheap, st1.searchTree ++ [o], st1.addedFiberMap, st1.trueFibers⟩
      | some p =>
        let st2 :=
          if (mapGet st1.addedFiberMap p).isNone
          then addFiberToTree H transform fuel p st1
          else st1
        match mapGet st2.addedFiberMap p with
        | some po => ⟨pushChild st2.oheap po o, st2.searchTree, st2.addedFiberMap,
            st2.trueFibers⟩
        | none => st2

/-- The body of the callback `useSearchTree` passes to `walkThroughFiber`. -/
def searchStep {T K : Type} (H : List (Fiber T)) (callback : T → Bool)
    (transform : T → Bool → Bool → K) (st : SearchTreeResult K) (i : Nat) :
    SearchTreeResult K :=
  match H[i]? with
  | none => st
  | some fb =>
    let isTrue := callback fb.data
    let st1 := if isTrue then
        { st with trueFibers := setAdd st.trueFibers i }
      else st
    let hasParentIsTrue := parentIsTrue H st1.trueFibers i
    if isTrue || hasParentIsTrue then addFiberToTree H transform H.length i st1 else st1

/-- The search over a fiber heap: walk the fibers from `root`, folding
`searchStep` over the visit order (the error of `walkThroughFiber` is
propagated). -/
def useSearchTreeCore {T K : Type} (H : List (Fiber T)) (root : Nat)
    (callback : T → Bool) (transform : T → Bool → Bool → K) :
    Except String (SearchTreeResult K) :=
  (walkThroughFiber H root).map
    (fun visits => visits.foldl (searchStep H callback transform) ⟨[], [], [], []⟩)

/-- `useSearchTree(tree, callback)` (no transform): the output node of a
fiber carries the fiber's payload unchanged. -/
def useSearchTree {T : Type} (tree : List (TreeNode T)) (callback : T → Bool) :
    Except String (List (Fiber T) × SearchTreeResult T) :=
  (treeToFiber tree).bind fun fr =>
    (useSearchTreeCore fr.1 fr.2 callback (fun d _ _ => d)).map fun st => (fr.1, st)

/-- `useSearchTree(tree, callback, transform)`. -/
def useSearchTreeWith {T K : Type} (tree : List (TreeNode T)) (callback : T → Bool)
    (transform : T → Bool → Bool → K) :
    Except String (List (Fiber T) × SearchTreeResult K) :=
  (treeToFiber tree).bind fun fr =>
    (useSearchTreeCore fr.1 fr.2 callback transform).map fun st => (fr.1, st)

/-- Read the reconstructed tree of output nodes back as `TreeNode`s (the
output graph is acyclic and its paths are shorter than the store, so the
fuel suffices on every state the search produces). -/
def resolveNode {K : Type} (oheap : List (ONode K)) : Nat → Nat → Option (TreeNode K)
  | 0, _ => none
  | fuel + 1, o =>
    match oheap[o]? with
    | none => none
    | some nd => (nd.children.mapM (resolveNode oheap fuel)).map
        (fun cs => TreeNode.mk nd.value cs)

/-- The reconstructed `searchTree`, as a forest of `TreeNode`s. -/
def resolveRoots {K : Type} (st : SearchTreeResult K) : Option (List (TreeNode K)) :=
  st.searchTree.mapM (resolveNode st.oheap (st.oheap.length + 1))

/-! ### Ancestor chains -/

/-- The parent index of fiber `i`. -/
def fparent {T : Type} (H : List (Fiber T)) (i : Nat) : Option Nat :=
  (H[i]?).bind Fiber.parent

/-- The list of strict ancestors of a fiber, nearest first (the indices the
`while (parent)` loops of the source visit). -/
def ancChainAux {T : Type} (H : List (Fiber T)) : Nat → Option Nat → List Nat
  | _, none => []
  | 0, some _ => []
  | fuel + 1, some p => p :: ancChainAux H fuel (fparent H p)

def ancChain {T : Type} (H : List (Fiber T)) (i : Nat) : List Nat :=
  ancChainAux H H.length (fparent H i)

theorem ancChainAux_none {T : Type} (H : List (Fiber T)) (f : Nat) :
    ancChainAux H f none = [] := by
  cases f <;> rfl

theorem mapGet_cons (m : List (Nat × Nat)) (x o c : Nat) :
    mapGet ((x, o) :: m) c = if c = x then some o else mapGet m c := by
  unfold mapGet
  rw [List.find?]
  by_cases h : c = x
  · subst h
    simp
  · have : ((x, o).1 == c) = false := by
      simp only [beq_eq_false_iff_ne, ne_eq]
      omega
    rw [this]
    simp [h]

/-- `parentIsTrueAux` is the membership scan of the ancestor chain. -/
theorem parentIsTrueAux_eq_any {T : Type} (H : List (Fiber T)) (tf : List Nat) :
    ∀ (fuel : Nat) (par : Option Nat),
      parentIsTrueAux H tf fuel par =
        (ancChainAux H fuel par).any (fun a => a ∈ tf) := by
  intro fuel
  induction fuel with
  | zero =>
    intro par
    cases par <;> simp [parentIsTrueAux, ancChainAux]
  | succ f ih =>
    intro par
    cases par with
    | none => simp [parentIsTrueAux, ancChainAux]
    | some p =>
      rw [parentIsTrueAux, ancChainAux]
      simp only [List.any_cons, decide_eq_true_eq]
      by_cases hp : p ∈ tf
      · simp [hp]
      · simp only [hp, if_false, decide_False, Bool.false_or]
        cases hfb : H[p]? with
        | none =>
          dsimp only
          rw [show fparent H p = none from by unfold fparent; rw [hfb]; rfl]
          rw [ancChainAux_none]
          rfl
        | some fb =>
          dsimp only
          rw [ih, show fparent H p = fb.parent from by unfold fparent; rw [hfb]; rfl]

theorem parentIsTrue_eq_any {T : Type} (H : List (Fiber T)) (tf : List Nat) (i : Nat)
    (hi : i < H.length) :
    parentIsTrue H tf i = (ancChain H i).any (fun a => a ∈ tf) := by
  unfold parentIsTrue ancChain
  rw [List.getElem?_eq_getElem hi]
  dsimp only
  rw [parentIsTrueAux_eq_any]
  unfold fparent
  rw [List.getElem?_eq_getElem hi]
  rfl

/-- A present parent link points strictly downward in allocation order. -/
theorem fparent_lt {T : Type} (H : List (Fiber T)) (hwf : WFparent H) {i p : Nat}
    (h : fparent H i = some p) : p < i := by
  unfold fparent at h
  cases hfb : H[i]? with
  | none => rw [hfb] at h; cases h
  | some fb =>
    rw [hfb] at h
    exact hwf i fb hfb p h

/-- Fuel independence of the ancestor chain on parent-decreasing heaps. -/
theorem ancChainAux_fuel {T : Type} (H : List (Fiber T)) (hwf : WFparent H) :
    ∀ p f₁ f₂, p < f₁ → p < f₂ →
      ancChainAux H f₁ (some p) = ancChainAux H f₂ (some p) := by
  intro p
  induction p using Nat.strong_induction_on with
  | _ p ih =>
    intro f₁ f₂ h₁ h₂
    obtain ⟨m₁, rfl⟩ : ∃ m, f₁ = m + 1 := ⟨f₁ - 1, by omega⟩
    obtain ⟨m₂, rfl⟩ : ∃ m, f₂ = m + 1 := ⟨f₂ - 1, by omega⟩
    rw [ancChainAux, ancChainAux]
    cases hfp : fparent H p with
    | none => rw [ancChainAux_none, ancChainAux_none]
    | some pp =>
      have hlt : pp < p := fparent_lt H hwf hfp
      rw [ih pp hlt m₁ m₂ (by omega) (by omega)]

/-- Recursive characterization of the ancestor chain. -/
theorem ancChain_eq {T : Type} (H : List (Fiber T)) (hwf : WFparent H) (i : Nat) :
    ancChain H i = match fparent H i with
      | none => []
      | some p => p :: ancChain H p := by
  unfold ancChain
  cases hfp : fparent H i with
  | none => rw [ancChainAux_none]
  | some p =>
    have hp : p < i := fparent_lt H hwf hfp
    have hplen : p < H.length := by
      unfold fparent at hfp
      cases hfb : H[i]? with
      | none => rw [hfb] at hfp; cases hfp
      | some fb =>
        have hi : i < H.length := (List.getElem?_eq_some.mp hfb).1
        omega
    obtain ⟨m, hm⟩ : ∃ m, H.length = m + 1 := ⟨H.length - 1, by omega⟩
    rw [hm, ancChainAux]
    dsimp only
    congr 1
    cases hfp2 : fparent H p with
    | none => rw [ancChainAux_none, ancChainAux_none]
    | some q =>
      have hq : q < p := fparent_lt H hwf hfp2
      exact ancChainAux_fuel H hwf q m (m + 1) (by omega) (by omega)

theorem ancChain_mem_lt {T : Type} (H : List (Fiber T)) (hwf : WFparent H) :
    ∀ i a, a ∈ ancChain H i → a < i := by
  intro i
  induction i using Nat.strong_induction_on with
  | _ i ih =>
    intro a ha
    rw [ancChain_eq H hwf i] at ha
    cases hfp : fparent H i with
    | none =>
      rw [hfp] at ha
      cases ha
    | some p =>
      rw [hfp] at ha
      have hp : p < i := fparent_lt H hwf hfp
      rcases List.mem_cons.mp ha with h | h
      · omega
      · have := ih p hp a h
        omega

theorem ancChain_trans {T : Type} (H : List (Fiber T)) (hwf : WFparent H) :
    ∀ i j a, j ∈ ancChain H i → a ∈ ancChain H j → a ∈ ancChain H i := by
  intro i
  induction i using Nat.strong_induction_on with
  | _ i ih =>
    intro j a hj ha
    rw [ancChain_eq H hwf i] at hj ⊢
    cases hfp : fparent H i with
    | none =>
      rw [hfp] at hj
      simp at hj
    | some p =>
      rw [hfp] at hj
      dsimp only at hj ⊢
      have hp : p < i := fparent_lt H hwf hfp
      rcases List.mem_cons.mp hj with h | h
      · subst h
        exact List.mem_cons_of_mem _ ha
      · exact List.mem_cons_of_mem _ (ih p hp j a h ha)

/-- On the path from a node to the root, distinct elements have distinct
parents (the path is a chain of parent links). -/
theorem ancChain_parent_inj {T : Type} (H : List (Fiber T)) (hwf : WFparent H) :
    ∀ i x y q, (x = i ∨ x ∈ ancChain H i) → (y = i ∨ y ∈ ancChain H i) →
      fparent H x = some q → fparent H y = some q → x = y := by
  intro i
  induction i using Nat.strong_induction_on with
  | _ i ih =>
    intro x y q hx hy hqx hqy
    rw [ancChain_eq H hwf i] at hx hy
    cases hfp : fparent H i with
    | none =>
      rw [hfp] at hx hy
      dsimp only at hx hy
      rcases hx with rfl | hx
      · rcases hy with rfl | hy
        · rfl
        · cases hy
      · cases hx
    | some p =>
      rw [hfp] at hx hy
      dsimp only at hx hy
      have hp : p < i := fparent_lt H hwf hfp
      -- `z` on the path is either the node itself or on the path of `p`
      have split : ∀ z, (z = i ∨ z ∈ p :: ancChain H p) →
          z = i ∨ (z = p ∨ z ∈ ancChain H p) := by
        intro z hz
        rcases hz with rfl | hz
        · exact Or.inl rfl
        · exact Or.inr (List.mem_cons.mp hz)
      rcases split x hx with rfl | hx'
      · rcases split y hy with rfl | hy'
        · rfl
        · -- the parent of `x = i` is `p`; an element of `p`'s path with parent `p`
          -- would lie strictly below its own parent
          rw [hqx] at hfp
          injection hfp with hq
          subst hq
          have hylt : y ≤ q := by
            rcases hy' with rfl | hy'
            · omega
            · have := ancChain_mem_lt H hwf q y hy'
              omega
          have := fparent_lt H hwf hqy
          omega
      · rcases split y hy with rfl | hy'
        · rw [hqy] at hfp
          injection hfp with hq
          subst hq
          have hxlt : x ≤ q := by
            rcases hx' with rfl | hx'
            · omega
            · have := ancChain_mem_lt H hwf q x hx'
              omega
          have := fparent_lt H hwf hqx
          omega
        · exact ih p hp x y q hx' hy' hqx hqy

/-! ### Pre-order subtree intervals -/

mutual

/-- The subtree sizes of the nodes of a tree, in pre-order. -/
def sizesT {T : Type} : TreeNode T → List Nat
  | .mk d cs => sizeT (.mk d cs) :: sizesF cs

/-- The subtree sizes of the nodes of a forest, in pre-order. -/
def sizesF {T : Type} : List (TreeNode T) → List Nat
  | [] => []
  | t :: ts => sizesT t ++ sizesF ts

end

mutual

theorem sizesT_length {T : Type} : ∀ (t : TreeNode T), (sizesT t).length = sizeT t
  | .mk d cs => by
    rw [sizesT, List.length_cons, sizesF_length cs]
    simp only [sizeT]
    omega

theorem sizesF_length {T : Type} : ∀ (items : List (TreeNode T)),
    (sizesF items).length = sizeF items
  | [] => by rw [sizesF]; rfl
  | t :: ts => by
    rw [sizesF, List.length_append, sizesT_length t, sizesF_length ts]
    simp only [sizeF]

end

mutual

/-- A subtree recorded at pre-order position `j` lies within the tree. -/
theorem sizesT_bound {T : Type} : ∀ (t : TreeNode T) (j s : Nat),
    (sizesT t)[j]? = some s → j + s ≤ sizeT t
  | .mk d cs, j, s => by
    intro h
    rw [sizesT] at h
    cases j with
    | zero =>
      rw [List.getElem?_cons_zero] at h
      injection h with h
      omega
    | succ j' =>
      rw [List.getElem?_cons_succ] at h
      have := sizesF_bound cs j' s h
      simp only [sizeT]
      omega

theorem sizesF_bound {T : Type} : ∀ (items : List (TreeNode T)) (j s : Nat),
    (sizesF items)[j]? = some s → j + s ≤ sizeF items
  | [], j, s => by
    intro h
    rw [sizesF] at h
    simp at h
  | t :: ts, j, s => by
    intro h
    rw [sizesF] at h
    by_cases hj : j < (sizesT t).length
    · rw [List.getElem?_append_left hj] at h
      have := sizesT_bound t j s h
      simp only [sizeF]
      omega
    · rw [List.getElem?_append_right (by omega)] at h
      have := sizesF_bound ts (j - (sizesT t).length) s h
      have hl := sizesT_length t
      simp only [sizeF]
      omega

end

mutual

/-- The strict ancestors (nearest first) of the node at pre-order position
`k` of a tree, as pre-order positions. -/
def localAncT {T : Type} : TreeNode T → Nat → List Nat
  | .mk _ cs, k =>
    if k = 0 then [] else (localAncF cs (k - 1)).map (· + 1) ++ [0]

/-- The strict ancestors (nearest first) of the node at pre-order position
`k` of a forest, as pre-order positions. -/
def localAncF {T : Type} : List (TreeNode T) → Nat → List Nat
  | [], _ => []
  | t :: rest, k =>
    if k < sizeT t then localAncT t k
    else (localAncF rest (k - sizeT t)).map (· + sizeT t)

end

mutual

/-- Ancestry in a tree is exactly containment of pre-order intervals. -/
theorem localAncT_mem {T : Type} : ∀ (t : TreeNode T) (k j : Nat), k < sizeT t →
    (j ∈ localAncT t k ↔ ∃ s, (sizesT t)[j]? = some s ∧ j < k ∧ k < j + s)
  | .mk d cs, k, j => by
    intro hk
    rw [localAncT, sizesT]
    by_cases hk0 : k = 0
    · subst hk0
      simp
    · rw [if_neg hk0]
      simp only [List.mem_append, List.mem_map, List.mem_singleton]
      constructor
      · rintro (⟨j', hj', rfl⟩ | rfl)
        · have hk1 : k - 1 < sizeF cs := by
            simp only [sizeT] at hk
            omega
          obtain ⟨s, hs, h1, h2⟩ := (localAncF_mem cs (k - 1) j' hk1).mp hj'
          refine ⟨s, ?_, by omega, by omega⟩
          rw [List.getElem?_cons_succ]
          exact hs
        · exact ⟨sizeT (.mk d cs), List.getElem?_cons_zero, by omega, by omega⟩
      · rintro ⟨s, hs, h1, h2⟩
        cases j with
        | zero => exact Or.inr rfl
        | succ j' =>
          rw [List.getElem?_cons_succ] at hs
          have hk1 : k - 1 < sizeF cs := by
            simp only [sizeT] at hk
            omega
          exact Or.inl ⟨j', (localAncF_mem cs (k - 1) j' hk1).mpr
            ⟨s, hs, by omega, by omega⟩, rfl⟩

theorem localAncF_mem {T : Type} : ∀ (items : List (TreeNode T)) (k j : Nat),
    k < sizeF items →
    (j ∈ localAncF items k ↔ ∃ s, (sizesF items)[j]? = some s ∧ j < k ∧ k < j + s)
  | [], k, j => by
    intro hk
    simp only [sizeF] at hk
    omega
  | t :: rest, k, j => by
    intro hk
    rw [localAncF, sizesF]
    have hlT := sizesT_length t
    by_cases hkt : k < sizeT t
    · rw [if_pos hkt]
      by_cases hj : j < sizeT t
      · rw [localAncT_mem t k j hkt]
        constructor
        · rintro ⟨s, hs, h1, h2⟩
          refine ⟨s, ?_, h1, h2⟩
          rw [List.getElem?_append_left (by omega)]
          exact hs
        · rintro ⟨s, hs, h1, h2⟩
          rw [List.getElem?_append_left (by omega)] at hs
          exact ⟨s, hs, h1, h2⟩
      · constructor
        · intro hmem
          obtain ⟨s, _, h1, _⟩ := (localAncT_mem t k j hkt).mp hmem
          omega
        · rintro ⟨s, _, h1, _⟩
          omega
    · rw [if_neg hkt]
      have hk' : k - sizeT t < sizeF rest := by
        simp only [sizeF] at hk
        omega
      simp only [List.mem_map]
      constructor
      · rintro ⟨j', hj', rfl⟩
        obtain ⟨s, hs, h1, h2⟩ := (localAncF_mem rest (k - sizeT t) j' hk').mp hj'
        refine ⟨s, ?_, by omega, by omega⟩
        rw [List.getElem?_append_right (by omega)]
        rw [show j' + sizeT t - (sizesT t).length = j' from by omega]
        exact hs
      · rintro ⟨s, hs, h1, h2⟩
        by_cases hj : j < sizeT t
        · rw [List.getElem?_append_left (by omega)] at hs
          have := sizesT_bound t j s hs
          omega
        · rw [List.getElem?_append_right (by omega)] at hs
          refine ⟨j - sizeT t, (localAncF_mem rest (k - sizeT t) _ hk').mpr
            ⟨s, ?_, by omega, by omega⟩, by omega⟩
          rw [show j - (sizesT t).length = j - sizeT t from by omega] at hs
          exact hs

end

/-- On a heap containing the flattened block of `items` at `base`, the
ancestor chain of a block element consists of its in-block ancestors
followed by the chain of the block's parent. -/
theorem seg_ancChain {T : Type} (items : List (TreeNode T)) :
    ∀ (H : List (Fiber T)) (base : Nat) (parent : Option Nat) (PA : List Nat),
      WFparent H → Seg H base parent items →
      (parent = none → PA = []) →
      (∀ p, parent = some p → PA = p :: ancChain H p) →
      ∀ k, k < sizeF items →
        ancChain H (base + k) = (localAncF items k).map (· + base) ++ PA := by
  match items with
  | [] =>
    intro H base parent PA _ _ _ _ k hk
    simp [sizeF] at hk
  | .mk d cs :: rest =>
    intro H base parent PA hwf hseg hPAn hPAs k hk
    have hhead := Seg_head hseg
    have hfpb : fparent H base = parent := by
      unfold fparent
      rw [hhead]
      rfl
    have hbase : ancChain H base = PA := by
      rw [ancChain_eq H hwf base, hfpb]
      cases parent with
      | none => exact (hPAn rfl).symm
      | some p => exact (hPAs p rfl).symm
    by_cases hk0 : k = 0
    · subst hk0
      rw [Nat.add_zero, hbase]
      rw [localAncF, if_pos (by have := sizeT_pos (TreeNode.mk d cs); omega)]
      rw [localAncT, if_pos rfl]
      rfl
    · by_cases hkc : k < sizeT (.mk d cs)
      · -- inside the subtree of the first root
        have hk1 : k - 1 < sizeF cs := by
          simp only [sizeT] at hkc
          omega
        have ih := seg_ancChain cs H (base + 1) (some base) (base :: ancChain H base)
          hwf (Seg_children hseg) (by intro h; cases h)
          (by intro p hp; injection hp with hp; rw [hp]) (k - 1) hk1
        rw [show base + k = base + 1 + (k - 1) from by omega, ih, hbase]
        rw [localAncF, if_pos hkc, localAncT, if_neg hk0]
        rw [List.map_append, List.map_map, List.append_assoc]
        congr 1
        · apply List.map_congr_left
          intro x _
          simp only [Function.comp_apply]
          omega
        · simp
      · have hk1 : k - sizeT (.mk d cs) < sizeF rest := by
          simp only [sizeF] at hk
          omega
        have ih := seg_ancChain rest H (base + sizeT (.mk d cs)) parent PA hwf
          (Seg_rest hseg) hPAn hPAs (k - sizeT (.mk d cs)) hk1
        rw [show base + k = base + sizeT (.mk d cs) + (k - sizeT (.mk d cs)) from by omega,
          ih]
        rw [localAncF, if_neg hkc, List.map_map]
        congr 1
        apply List.map_congr_left
        intro x _
        simp only [Function.comp_apply]
        omega
termination_by sizeF items
decreasing_by
  all_goals simp [sizeF, sizeT]
  all_goals omega

theorem ancChain_flatten {T : Type} (F : List (TreeNode T)) (k : Nat)
    (hk : k < sizeF F) :
    ancChain (flattenForest 0 none F) k = localAncF F k := by
  have h := seg_ancChain F (flattenForest 0 none F) 0 none [] (WFparent_flatten F)
    (flatten_seg F) (fun _ => rfl) (fun p hp => by cases hp) k hk
  rw [Nat.zero_add] at h
  rw [h, List.append_nil]
  have h2 : (localAncF F k).map (· + 0) = (localAncF F k).map id := by
    apply List.map_congr_left
    intro x _
    simp
  rw [h2, List.map_id]

/-- Ancestry on the flattened heap is containment of pre-order intervals. -/
theorem anc_iff_interval {T : Type} (F : List (TreeNode T)) (j k : Nat)
    (hk : k < sizeF F) :
    j ∈ ancChain (flattenForest 0 none F) k ↔
      ∃ s, (sizesF F)[j]? = some s ∧ j < k ∧ k < j + s := by
  rw [ancChain_flatten F k hk]
  exact localAncF_mem F k j hk

/-! ### The materialization chain of `addFiberToTree` -/

/-- The fibers `addFiberToTree` materializes in one call: the start fiber
followed by its not-yet-added ancestors, up to (excluding) the first added
one. -/
def upChainF {T : Type} (H : List (Fiber T)) (m : List (Nat × Nat)) :
    Nat → Nat → List (Nat × Fiber T)
  | 0, _ => []
  | fuel + 1, i =>
    match H[i]? with
    | none => []
    | some fb =>
      (i, fb) :: (match fb.parent with
        | none => []
        | some p => if (mapGet m p).isNone then upChainF H m fuel p else [])

/-- The output nodes allocated for the non-initial part of a chain: the node
of each further element carries, as its only child, the node allocated just
before it. -/
def chainNodesTail {K : Type} : List K → Nat → List (ONode K)
  | [], _ => []
  | v :: vs, base => ⟨v, [base]⟩ :: chainNodesTail vs (base + 1)

/-- The output nodes allocated for a chain, in allocation order starting at
`base`: the first (deepest) node has no children yet. -/
def chainNodes {K : Type} (vals : List K) (base : Nat) : List (ONode K) :=
  match vals with
  | [] => []
  | v :: vs => ⟨v, []⟩ :: chainNodesTail vs base

/-- The map entries a chain contributes (`Map.set` prepends, and the chain
is materialized bottom-up, so the entry of the chain's last element ends up
first). -/
def chainPairs (base : Nat) : List Nat → List (Nat × Nat)
  | [] => []
  | c :: cs => chainPairs (base + 1) cs ++ [(c, base)]

/-- How the node of the chain's last element is attached: to `searchTree`
when it is a root, into the output node of its (already added) parent
otherwise. -/
def attachFinish {K : Type} (st : SearchTreeResult K) (lastp : Option Nat) (o : Nat) :
    List (ONode K) × List Nat :=
  match lastp with
  | none => (st.oheap, st.searchTree ++ [o])
  | some P =>
    match mapGet st.addedFiberMap P with
    | some oP => (pushChild st.oheap oP o, st.searchTree)
    | none => (st.oheap, st.searchTree)

theorem pushChild_length {K : Type} (oheap : List (ONode K)) (po o : Nat) :
    (pushChild oheap po o).length = oheap.length := by
  unfold pushChild
  cases h : oheap[po]? with
  | none => rfl
  | some nd => simp

theorem pushChild_append_left {K : Type} (A B : List (ONode K)) {po : Nat} (o : Nat)
    (hpo : po < A.length) :
    pushChild (A ++ B) po o = pushChild A po o ++ B := by
  unfold pushChild
  rw [List.getElem?_append_left hpo]
  cases h : A[po]? with
  | none => rfl
  | some nd =>
    dsimp only
    rw [List.set_append_left _ _ hpo]

theorem pushChild_append_right {K : Type} (A B : List (ONode K)) (o : Nat) :
    pushChild (A ++ B) A.length o = A ++ pushChild B 0 o := by
  unfold pushChild
  rw [List.getElem?_append_right (Nat.le_refl _), Nat.sub_self]
  cases B with
  | nil => simp
  | cons b bs =>
    rw [List.getElem?_cons_zero]
    dsimp only
    rw [List.set_append_right _ _ (Nat.le_refl _), Nat.sub_self]

theorem pushChild_chainNodes {K : Type} (v : K) (vs : List K) (b o : Nat) :
    pushChild (chainNodes (v :: vs) b) 0 o = ⟨v, [o]⟩ :: chainNodesTail vs b := by
  unfold chainNodes pushChild
  rw [List.getElem?_cons_zero]
  rfl

theorem mapGet_append (A B : List (Nat × Nat)) (c : Nat) :
    mapGet (A ++ B) c =
      match mapGet A c with
      | some o => some o
      | none => mapGet B c := by
  unfold mapGet
  rw [List.find?_append]
  cases h : A.find? (fun e => e.1 == c) with
  | none => simp [Option.orElse]
  | some e => simp [Option.orElse]

theorem mapGet_chainPairs_not_mem (b y : Nat) (C : List Nat) (hy : ∀ c ∈ C, c ≠ y) :
    mapGet (chainPairs b C) y = none := by
  induction C generalizing b with
  | nil => rfl
  | cons c cs ih =>
    rw [chainPairs, mapGet_append]
    rw [ih (b + 1) (fun c' hc' => hy c' (List.mem_cons_of_mem _ hc'))]
    dsimp only
    rw [mapGet_cons]
    rw [if_neg (fun h => (hy c (List.mem_cons_self ..)) h.symm)]
    rfl

theorem mapGet_chainPairs_head (b x : Nat) (cs : List Nat) (hx : ∀ c ∈ cs, c ≠ x) :
    mapGet (chainPairs b (x :: cs)) x = some b := by
  rw [chainPairs, mapGet_append]
  rw [mapGet_chainPairs_not_mem (b + 1) x cs hx]
  dsimp only
  rw [mapGet_cons, if_pos rfl]

/-- Every element of the chain lies at or below the start index. -/
theorem upChainF_le {T : Type} (H : List (Fiber T)) (hwf : WFparent H)
    (m : List (Nat × Nat)) :
    ∀ (fuel i : Nat) (e : Nat × Fiber T), e ∈ upChainF H m fuel i →
      e.1 ≤ i ∧ H[e.1]? = some e.2 := by
  intro fuel
  induction fuel with
  | zero => intro i e he; cases he
  | succ f ih =>
    intro i e he
    rw [upChainF] at he
    cases hfb : H[i]? with
    | none => rw [hfb] at he; cases he
    | some fb =>
      rw [hfb] at he
      dsimp only at he
      rcases List.mem_cons.mp he with rfl | he
      · exact ⟨Nat.le_refl _, hfb⟩
      · cases hp : fb.parent with
        | none => rw [hp] at he; cases he
        | some p =>
          rw [hp] at he
          dsimp only at he
          by_cases hadd : (mapGet m p).isNone
          · rw [if_pos hadd] at he
            have hpi : p < i := hwf i fb hfb p hp
            obtain ⟨h1, h2⟩ := ih p e he
            exact ⟨by omega, h2⟩
          · rw [if_neg hadd] at he
            cases he

/-- The parent recorded for the chain's last element is strictly below the
start index. -/
theorem upChainF_lastParent_lt {T : Type} (H : List (Fiber T)) (hwf : WFparent H)
    (m : List (Nat × Nat)) (fuel i P : Nat)
    (h : ((upChainF H m fuel i).map (fun e => e.2.parent)).getLastD none = some P) :
    P < i := by
  cases hch : upChainF H m fuel i with
  | nil =>
    rw [hch] at h
    cases h
  | cons e es =>
    have hne : upChainF H m fuel i ≠ [] := by rw [hch]; simp
    have hmem := List.getLast_mem hne
    obtain ⟨hle, hvalid⟩ := upChainF_le H hwf m fuel i _ hmem
    rw [List.getLastD_eq_getLast?, List.getLast?_map,
      List.getLast?_eq_getLast _ hne] at h
    simp only [Option.map_some', Option.getD_some] at h
    have := hwf _ _ hvalid P h
    omega

/-- Prepending a map entry for an index above the chain does not change the
chain. -/
theorem upChainF_cons_high {T : Type} (H : List (Fiber T)) (hwf : WFparent H)
    (m : List (Nat × Nat)) (x o : Nat) :
    ∀ (fuel i : Nat), i < x →
      upChainF H ((x, o) :: m) fuel i = upChainF H m fuel i := by
  intro fuel
  induction fuel with
  | zero => intro i _; rfl
  | succ f ih =>
    intro i hix
    rw [upChainF, upChainF]
    cases hfb : H[i]? with
    | none => rfl
    | some fb =>
      dsimp only
      congr 1
      cases hp : fb.parent with
      | none => rfl
      | some p =>
        have hpi : p < i := hwf i fb hfb p hp
        dsimp only
        rw [mapGet_cons]
        rw [if_neg (show ¬(p = x) from by omega)]
        by_cases hadd : (mapGet m p).isNone
        · rw [if_pos hadd, if_pos hadd, ih p (by omega)]
        · rw [if_neg hadd, if_neg hadd]

theorem getLastD_of_ne_nil {α : Type} (l : List α) (hne : l ≠ []) (d₁ d₂ : α) :
    l.getLastD d₁ = l.getLastD d₂ := by
  rw [List.getLastD_eq_getLast?, List.getLastD_eq_getLast?,
    List.getLast?_eq_getLast _ hne]
  rfl

/-- Elements after the head of a chain lie strictly below the start. -/
theorem upChainF_tail_lt {T : Type} (H : List (Fiber T)) (hwf : WFparent H)
    (m : List (Nat × Nat)) (fuel i : Nat) (e : Nat × Fiber T) (es : List (Nat × Fiber T))
    (hch : upChainF H m fuel i = e :: es) :
    ∀ x ∈ es, x.1 < i := by
  intro x hx
  cases fuel with
  | zero => cases hch
  | succ f =>
    rw [upChainF] at hch
    cases hfb : H[i]? with
    | none => rw [hfb] at hch; cases hch
    | some fb =>
      rw [hfb] at hch
      dsimp only at hch
      injection hch with h1 h2
      subst h2
      cases hp : fb.parent with
      | none => rw [hp] at hx; cases hx
      | some p =>
        rw [hp] at hx
        have hpi : p < i := hwf i fb hfb p hp
        dsimp only at hx
        by_cases hadd : (mapGet m p).isNone
        · rw [if_pos hadd] at hx
          have := (upChainF_le H hwf m f p x hx).1
          omega
        · rw [if_neg hadd] at hx
          cases hx

theorem attachFinish_fst_length {K : Type} (st : SearchTreeResult K)
    (lastp : Option Nat) (o : Nat) :
    (attachFinish st lastp o).1.length = st.oheap.length := by
  unfold attachFinish
  cases lastp with
  | none => rfl
  | some P =>
    dsimp only
    cases h : mapGet st.addedFiberMap P with
    | none => rfl
    | some oP => exact pushChild_length ..

/-- Attaching is unaffected by a freshly allocated (still unattached) node
on top of the store and a fresh map entry, provided the attach target is a
different fiber. -/
theorem attachFinish_fresh {K : Type} (st : SearchTreeResult K) (nd : ONode K)
    (i b : Nat) (lastp : Option Nat) (o : Nat)
    (hne : ∀ P, lastp = some P → P ≠ i)
    (hbound : ∀ e ∈ st.addedFiberMap, e.2 < st.oheap.length) :
    attachFinish ⟨st.oheap ++ [nd], st.searchTree, (i, b) :: st.addedFiberMap,
        st.trueFibers⟩ lastp o =
      ((attachFinish st lastp o).1 ++ [nd], (attachFinish st lastp o).2) := by
  unfold attachFinish
  cases lastp with
  | none => rfl
  | some P =>
    dsimp only
    rw [mapGet_cons, if_neg (hne P rfl)]
    cases h : mapGet st.addedFiberMap P with
    | none => rfl
    | some oP =>
      dsimp only
      have hoP : oP < st.oheap.length := by
        unfold mapGet at h
        cases hf : st.addedFiberMap.find? (fun e => e.1 == P) with
        | none => rw [hf] at h; cases h
        | some e =>
          rw [hf] at h
          have hmem := List.mem_of_find?_eq_some hf
          have := hbound e hmem
          simp only [Option.map_some'] at h
          injection h with h
          omega
      rw [pushChild_append_left _ _ _ hoP]

theorem pushChild_attach {K : Type} (A : List (ONode K)) (v : K) (vs : List K)
    (bb o : Nat) (hA : A.length = bb) :
    pushChild (A ++ chainNodes (v :: vs) bb) bb o = A ++ ⟨v, [o]⟩ :: chainNodesTail vs bb := by
  subst hA
  rw [pushChild_append_right, pushChild_chainNodes]

/-- The central characterization of `addFiberToTree`: it allocates one
output node per chain element (deepest first), links each chain node under
the next, records the chain in the map, and finally attaches the chain's
top either to `searchTree` or under its already-added parent. -/
theorem addFiberToTree_spec {T K : Type} (H : List (Fiber T))
    (tfm : T → Bool → Bool → K) (hwf : WFparent H) :
    ∀ (fuel i : Nat) (st : SearchTreeResult K),
      i < fuel → i < H.length →
      mapGet st.addedFiberMap i = none →
      (∀ e ∈ st.addedFiberMap, e.2 < st.oheap.length) →
      addFiberToTree H tfm fuel i st =
        ⟨(attachFinish st (((upChainF H st.addedFiberMap fuel i).map
              (fun e => e.2.parent)).getLastD none)
            (st.oheap.length + (upChainF H st.addedFiberMap fuel i).length - 1)).1
          ++ chainNodes ((upChainF H st.addedFiberMap fuel i).map (fun e =>
              tfm e.2.data (e.1 ∈ st.trueFibers) (parentIsTrue H st.trueFibers e.1)))
            st.oheap.length,
         (attachFinish st (((upChainF H st.addedFiberMap fuel i).map
              (fun e => e.2.parent)).getLastD none)
            (st.oheap.length + (upChainF H st.addedFiberMap fuel i).length - 1)).2,
         chainPairs st.oheap.length ((upChainF H st.addedFiberMap fuel i).map Prod.fst)
           ++ st.addedFiberMap,
         st.trueFibers⟩ := by
  intro fuel
  induction fuel with
  | zero =>
    intro i st hif
    omega
  | succ f ih =>
    intro i st hif hiH hun hbound
    obtain ⟨fb, hfb⟩ : ∃ fb, H[i]? = some fb := ⟨H[i], List.getElem?_eq_getElem hiH⟩
    have hCFeq : upChainF H st.addedFiberMap (f + 1) i =
        (i, fb) :: (match fb.parent with
          | none => []
          | some p => if (mapGet st.addedFiberMap p).isNone
              then upChainF H st.addedFiberMap f p else []) := by
      rw [upChainF, hfb]
    rw [addFiberToTree, hfb]
    dsimp only
    cases hp : fb.parent with
    | none =>
      rw [hp] at hCFeq
      dsimp only at hCFeq
      rw [hCFeq]
      simp only [List.map_cons, List.map_nil, List.getLastD_cons, List.getLastD_nil,
        List.length_cons, List.length_nil]
      rw [hp]
      simp only [attachFinish, chainNodes, chainNodesTail, chainPairs,
        List.nil_append, List.singleton_append]
      rw [show st.oheap.length + (0 + 1) - 1 = st.oheap.length from by omega]
      rfl
    | some p =>
      rw [hp] at hCFeq
      dsimp only at hCFeq
      have hpi : p < i := hwf i fb hfb p hp
      dsimp only
      simp only [mapSet]
      rw [mapGet_cons]
      rw [if_neg (show ¬(p = i) from by omega)]
      by_cases hadd : (mapGet st.addedFiberMap p).isNone
      · -- the parent is not in the map yet: it is materialized recursively
        rw [if_pos hadd] at hCFeq ⊢
        have hpf : p < f := by omega
        have hfadd : mapGet st.addedFiberMap p = none :=
          Option.isNone_iff_eq_none.mp hadd
        -- the recursive call, on the state extended with the fresh node of `i`
        set node : ONode K := ⟨tfm fb.data (i ∈ st.trueFibers)
          (parentIsTrue H st.trueFibers i), []⟩ with hnode
        set st1 : SearchTreeResult K := ⟨st.oheap ++ [node], st.searchTree,
          (i, st.oheap.length) :: st.addedFiberMap, st.trueFibers⟩ with hst1
        have hun1 : mapGet st1.addedFiberMap p = none := by
          rw [hst1]
          dsimp only
          rw [mapGet_cons, if_neg (by omega)]
          exact hfadd
        have hbound1 : ∀ e ∈ st1.addedFiberMap, e.2 < st1.oheap.length := by
          rw [hst1]
          intro e he
          simp only [List.mem_cons] at he
          rcases he with rfl | he
          · simp
          · have := hbound e he
            simp only [List.length_append, List.length_cons, List.length_nil]
            omega
        have hrec := ih p st1 hpf (by omega) hun1 hbound1
        have hCF1 : upChainF H st1.addedFiberMap f p =
            upChainF H st.addedFiberMap f p := by
          rw [hst1]
          exact upChainF_cons_high H hwf st.addedFiberMap i st.oheap.length f p hpi
        rw [hCF1] at hrec
        -- the chain of `p` is non-empty and starts with `p`
        have hplen : p < H.length := by omega
        obtain ⟨fbp, hfbp⟩ : ∃ fbp, H[p]? = some fbp :=
          ⟨H[p], List.getElem?_eq_getElem hplen⟩
        obtain ⟨fp, rfl⟩ : ∃ fp, f = fp + 1 := ⟨f - 1, by omega⟩
        have hCFcons : upChainF H st.addedFiberMap (fp + 1) p =
            (p, fbp) :: (match fbp.parent with
              | none => []
              | some q => if (mapGet st.addedFiberMap q).isNone
                  then upChainF H st.addedFiberMap fp q else []) := by
          rw [upChainF, hfbp]
        have hTL := upChainF_tail_lt H hwf st.addedFiberMap (fp + 1) p _ _ hCFcons
        -- rewrite the recursive result and look the parent up in the map
        rw [hrec]
        dsimp only
        rw [mapGet_append, hCFcons]
        simp only [List.map_cons]
        rw [mapGet_chainPairs_head _ _ _ (by
          intro c hc
          obtain ⟨x, hx, rfl⟩ := List.mem_map.mp hc
          have := hTL x hx
          omega)]
        dsimp only
        rw [hCFeq, hCFcons]
        set TL := (match fbp.parent with
          | none => ([] : List (Nat × Fiber T))
          | some q => if (mapGet st.addedFiberMap q).isNone = true
              then upChainF H st.addedFiberMap fp q else []) with hTLdef
        -- normalize the last-parent defaults and the lengths
        simp only [List.map_cons, List.getLastD_cons, List.length_cons]
        have hfreshP : ∀ P,
            ((TL.map (fun e => e.2.parent)).getLastD fbp.parent) = some P → P ≠ i := by
          intro P hP
          have := upChainF_lastParent_lt H hwf st.addedFiberMap (fp + 1) p P (by
            rw [hCFcons]
            simp only [List.map_cons, List.getLastD_cons]
            exact hP)
          omega
        rw [show st1 = ⟨st.oheap ++ [node], st.searchTree,
          (i, st.oheap.length) :: st.addedFiberMap, st.trueFibers⟩ from rfl]
        rw [attachFinish_fresh st node i st.oheap.length _ _ hfreshP hbound]
        dsimp only
        -- align the indices of the attached node
        have hlen1 : (st.oheap ++ [node]).length = st.oheap.length + 1 := by simp
        rw [hlen1]
        rw [show ∀ L : Nat, st.oheap.length + 1 + L - 1 = st.oheap.length + L from
          fun L => by omega]
        rw [show ∀ L : Nat, st.oheap.length + (L + 1 + 1) - 1 = st.oheap.length + (L + 1)
          from fun L => by omega]
        rw [pushChild_attach _ _ _ _ _ (by
          rw [List.length_append, attachFinish_fst_length]
          simp)]
        rw [hnode]
        simp only [chainNodes, chainNodesTail, chainPairs, List.append_assoc,
          List.cons_append, List.singleton_append, List.nil_append]
      · -- the parent is already in the map: attach directly under it
        rw [if_neg hadd] at hCFeq ⊢
        obtain ⟨oP, hoP⟩ : ∃ oP, mapGet st.addedFiberMap p = some oP := by
          cases hg : mapGet st.addedFiberMap p with
          | none => rw [hg] at hadd; simp at hadd
          | some oP => exact ⟨oP, rfl⟩
        dsimp only
        rw [mapGet_cons, if_neg (show ¬(p = i) from by omega), hoP]
        dsimp only
        rw [hCFeq]
        simp only [List.map_cons, List.map_nil, List.getLastD_cons, List.getLastD_nil,
          List.length_cons, List.length_nil, chainNodes, chainNodesTail, chainPairs,
          List.nil_append, List.singleton_append]
        rw [hp]
        simp only [attachFinish]
        rw [hoP]
        dsimp only
        have hoPlt : oP < st.oheap.length := by
          unfold mapGet at hoP
          cases hf : st.addedFiberMap.find? (fun e => e.1 == p) with
          | none => rw [hf] at hoP; cases hoP
          | some e =>
            rw [hf] at hoP
            have hmem := List.mem_of_find?_eq_some hf
            have := hbound e hmem
            simp only [Option.map_some'] at hoP
            injection hoP with hoP
            omega
        rw [show st.oheap.length + 1 - 1 = st.oheap.length from by omega]
        rw [pushChild_append_left _ _ _ hoPlt]

/-! ### Global predicates of the search -/

/-- Does the predicate accept fiber `i`? -/
def matB {T : Type} (H : List (Fiber T)) (cb : T → Bool) (i : Nat) : Bool :=
  match H[i]? with
  | some fb => cb fb.data
  | none => false

/-- Does the predicate accept a strict ancestor of fiber `i`? -/
def ancMatB {T : Type} (H : List (Fiber T)) (cb : T → Bool) (i : Nat) : Bool :=
  (ancChain H i).any (matB H cb)

/-- Is fiber `i` accepted directly or through an ancestor? -/
def qualB {T : Type} (H : List (Fiber T)) (cb : T → Bool) (i : Nat) : Bool :=
  matB H cb i || ancMatB H cb i

/-- Is `j` an ancestor of `i` or `i` itself? -/
def ancOrSelf {T : Type} (H : List (Fiber T)) (j i : Nat) : Bool :=
  decide (j = i) || decide (j ∈ ancChain H i)

/-- Is fiber `x` in the reconstruction after the first `k` fibers have been
visited: some already-visited fiber of its subtree qualifies. -/
def addedB {T : Type} (H : List (Fiber T)) (cb : T → Bool) (k x : Nat) : Bool :=
  (List.range k).any (fun d => qualB H cb d && ancOrSelf H x d)

theorem addedB_succ {T : Type} (H : List (Fiber T)) (cb : T → Bool) (k x : Nat) :
    addedB H cb (k + 1) x =
      (addedB H cb k x || (qualB H cb k && ancOrSelf H x k)) := by
  unfold addedB
  rw [List.range_succ, List.any_append]
  simp

theorem addedB_mem_lt {T : Type} (H : List (Fiber T)) (hwf : WFparent H)
    (cb : T → Bool) (k x : Nat) (h : addedB H cb k x = true) : x < k := by
  unfold addedB at h
  rw [List.any_eq_true] at h
  obtain ⟨d, hd, hq⟩ := h
  rw [List.mem_range] at hd
  rw [Bool.and_eq_true] at hq
  unfold ancOrSelf at hq
  rcases Bool.or_eq_true .. |>.mp hq.2 with h1 | h1
  · have := of_decide_eq_true h1
    omega
  · have := ancChain_mem_lt H hwf d x (of_decide_eq_true h1)
    omega

/-- Being added is inherited upward: ancestors of an added fiber are added. -/
theorem addedB_anc {T : Type} (H : List (Fiber T)) (hwf : WFparent H)
    (cb : T → Bool) (k x y : Nat) (hy : y ∈ ancChain H x)
    (h : addedB H cb k x = true) : addedB H cb k y = true := by
  unfold addedB at h ⊢
  rw [List.any_eq_true] at h ⊢
  obtain ⟨d, hd, hq⟩ := h
  rw [Bool.and_eq_true] at hq
  refine ⟨d, hd, ?_⟩
  rw [Bool.and_eq_true]
  refine ⟨hq.1, ?_⟩
  unfold ancOrSelf at hq ⊢
  rcases Bool.or_eq_true .. |>.mp hq.2 with h1 | h1
  · have := of_decide_eq_true h1
    subst this
    simp [hy]
  · have hxd := of_decide_eq_true h1
    have := ancChain_trans H hwf d x y hxd hy
    simp [this]

/-- A fiber is never added before it is visited in terms of itself: at stage
`x` the fiber `x` is still absent. -/
theorem addedB_self_false {T : Type} (H : List (Fiber T)) (hwf : WFparent H)
    (cb : T → Bool) (k x : Nat) (hk : k ≤ x) : addedB H cb k x = false := by
  cases h : addedB H cb k x with
  | false => rfl
  | true =>
    have := addedB_mem_lt H hwf cb k x h
    omega

theorem getLastD_cons_of_ne_nil {α : Type} (a : α) (l : List α) (hne : l ≠ [])
    (d : α) : (a :: l).getLastD d = l.getLastD d := by
  rw [List.getLastD_cons]
  exact getLastD_of_ne_nil l hne a d

theorem chainNodesTail_length {K : Type} (vs : List K) :
    ∀ b, (chainNodesTail vs b).length = vs.length := by
  induction vs with
  | nil => intro b; rfl
  | cons v vs ih =>
    intro b
    rw [chainNodesTail, List.length_cons, List.length_cons, ih]

theorem chainNodes_length {K : Type} (vals : List K) (b : Nat) :
    (chainNodes vals b).length = vals.length := by
  cases vals with
  | nil => rfl
  | cons v vs =>
    rw [chainNodes, List.length_cons, List.length_cons, chainNodesTail_length]

theorem chainNodesTail_getElem {K : Type} (vs : List K) :
    ∀ b j, (chainNodesTail vs b)[j]? =
      (vs[j]?).map (fun v => (⟨v, [b + j]⟩ : ONode K)) := by
  induction vs with
  | nil => intro b j; simp [chainNodesTail]
  | cons v vs ih =>
    intro b j
    rw [chainNodesTail]
    cases j with
    | zero => simp
    | succ j' =>
      rw [List.getElem?_cons_succ, List.getElem?_cons_succ, ih]
      congr 2
      funext v'
      congr 2
      omega

theorem chainNodes_getElem_zero {K : Type} (v : K) (vs : List K) (b : Nat) :
    (chainNodes (v :: vs) b)[0]? = some ⟨v, []⟩ := by
  rw [chainNodes]
  exact List.getElem?_cons_zero

theorem chainNodes_getElem_succ {K : Type} (v : K) (vs : List K) (b j : Nat) :
    (chainNodes (v :: vs) b)[j + 1]? = (chainNodesTail vs b)[j]? := by
  rw [chainNodes]
  exact List.getElem?_cons_succ

theorem chainPairs_mem (C : List Nat) :
    ∀ (b x o : Nat), ((x, o) ∈ chainPairs b C ↔ ∃ j, C[j]? = some x ∧ o = b + j) := by
  induction C with
  | nil =>
    intro b x o
    simp [chainPairs]
  | cons c cs ih =>
    intro b x o
    rw [chainPairs]
    rw [List.mem_append, ih (b + 1) x o, List.mem_singleton, Prod.mk.injEq]
    constructor
    · rintro (⟨j, hj, rfl⟩ | ⟨rfl, rfl⟩)
      · exact ⟨j + 1, by rw [List.getElem?_cons_succ]; exact hj, by omega⟩
      · exact ⟨0, List.getElem?_cons_zero, by omega⟩
    · rintro ⟨j, hj, rfl⟩
      cases j with
      | zero =>
        rw [List.getElem?_cons_zero] at hj
        injection hj with hj
        exact Or.inr ⟨hj.symm, by omega⟩
      | succ j' =>
        rw [List.getElem?_cons_succ] at hj
        exact Or.inl ⟨j', hj, by omega⟩

theorem chainPairs_snd (C : List Nat) :
    ∀ b, (chainPairs b C).map Prod.snd = (List.range' b C.length).reverse := by
  induction C with
  | nil => intro b; simp [chainPairs]
  | cons c cs ih =>
    intro b
    rw [chainPairs, List.map_append, ih (b + 1), List.length_cons, List.range'_succ,
      List.reverse_cons]
    rfl

theorem chainPairs_fst (C : List Nat) :
    ∀ b, (chainPairs b C).map Prod.fst = C.reverse := by
  induction C with
  | nil => intro b; simp [chainPairs]
  | cons c cs ih =>
    intro b
    rw [chainPairs, List.map_append, ih (b + 1), List.reverse_cons]
    rfl

theorem mapGet_chainPairs_pos (C : List Nat) :
    ∀ (b x j : Nat), C.Nodup → C[j]? = some x →
      mapGet (chainPairs b C) x = some (b + j) := by
  induction C with
  | nil => intro b x j _ hj; simp at hj
  | cons c cs ih =>
    intro b x j hnd hj
    cases j with
    | zero =>
      rw [List.getElem?_cons_zero] at hj
      injection hj with hj
      subst hj
      apply mapGet_chainPairs_head
      intro c' hc'
      intro hcc
      subst hcc
      exact (List.nodup_cons.mp hnd).1 hc'
    | succ j' =>
      rw [List.getElem?_cons_succ] at hj
      rw [chainPairs, mapGet_append, ih (b + 1) x j' (List.nodup_cons.mp hnd).2 hj]
      dsimp only
      congr 1
      omega

/-- Soundness of the chain membership: every chain element is the start or
one of its not-yet-added ancestors. -/
theorem upChainF_mem_sound {T : Type} (H : List (Fiber T)) (hwf : WFparent H)
    (m : List (Nat × Nat)) :
    ∀ (fuel i x : Nat), mapGet m i = none →
      x ∈ (upChainF H m fuel i).map Prod.fst →
      x = i ∨ (x ∈ ancChain H i ∧ mapGet m x = none) := by
  intro fuel
  induction fuel with
  | zero => intro i x _ hx; cases hx
  | succ f ih =>
    intro i x hun hx
    rw [upChainF] at hx
    cases hfb : H[i]? with
    | none => rw [hfb] at hx; cases hx
    | some fb =>
      rw [hfb] at hx
      simp only [List.map_cons, List.mem_cons] at hx
      rcases hx with rfl | hx
      · exact Or.inl rfl
      · cases hp : fb.parent with
        | none => rw [hp] at hx; cases hx
        | some p =>
          rw [hp] at hx
          dsimp only at hx
          by_cases hadd : (mapGet m p).isNone
          · rw [if_pos hadd] at hx
            have hpm : mapGet m p = none := Option.isNone_iff_eq_none.mp hadd
            have hanc : ancChain H i = p :: ancChain H p := by
              rw [ancChain_eq H hwf i]
              rw [show fparent H i = some p from by unfold fparent; rw [hfb]; exact hp]
            rcases ih p x hpm hx with rfl | ⟨hxa, hxm⟩
            · exact Or.inr ⟨by rw [hanc]; exact List.mem_cons_self .., hpm⟩
            · exact Or.inr ⟨by rw [hanc]; exact List.mem_cons_of_mem _ hxa, hxm⟩
          · rw [if_neg hadd] at hx
            cases hx

/-- Completeness of the chain membership: the start and each of its
not-yet-added ancestors occur in the chain, provided addedness is upward
closed. -/
theorem upChainF_mem_complete {T : Type} (H : List (Fiber T)) (hwf : WFparent H)
    (m : List (Nat × Nat))
    (HC : ∀ a b, a ∈ ancChain H b → mapGet m a = none → mapGet m b = none) :
    ∀ (fuel i x : Nat), i < fuel → i < H.length → mapGet m i = none →
      (x = i ∨ (x ∈ ancChain H i ∧ mapGet m x = none)) →
      x ∈ (upChainF H m fuel i).map Prod.fst := by
  intro fuel
  induction fuel with
  | zero => intro i x hf; omega
  | succ f ih =>
    intro i x hf hiH hun hx
    rw [upChainF]
    rw [List.getElem?_eq_getElem hiH]
    simp only [List.map_cons, List.mem_cons]
    rcases hx with rfl | ⟨hxa, hxm⟩
    · exact Or.inl rfl
    · have hanc : ancChain H i = match fparent H i with
        | none => []
        | some p => p :: ancChain H p := ancChain_eq H hwf i
      cases hp : H[i].parent with
      | none =>
        rw [show fparent H i = none from by
          unfold fparent
          rw [List.getElem?_eq_getElem hiH]
          exact hp] at hanc
        rw [hanc] at hxa
        cases hxa
      | some p =>
        rw [show fparent H i = some p from by
          unfold fparent
          rw [List.getElem?_eq_getElem hiH]
          exact hp] at hanc
        rw [hanc] at hxa
        have hpi : p < i := by
          apply hwf i H[i] (List.getElem?_eq_getElem hiH) p hp
        -- `p` itself is not yet added, else `x` (at or below `p`) would be added
        have hpm : mapGet m p = none := by
          rcases List.mem_cons.mp hxa with rfl | hxa'
          · exact hxm
          · exact HC x p hxa' hxm
        dsimp only
        rw [if_pos (Option.isNone_iff_eq_none.mpr hpm)]
        right
        apply ih p x (by omega) (by omega) hpm
        rcases List.mem_cons.mp hxa with rfl | hxa'
        · exact Or.inl rfl
        · exact Or.inr ⟨hxa', hxm⟩

/-- The chain keys are distinct. -/
theorem upChainF_fst_nodup {T : Type} (H : List (Fiber T)) (hwf : WFparent H)
    (m : List (Nat × Nat)) :
    ∀ (fuel i : Nat), ((upChainF H m fuel i).map Prod.fst).Nodup := by
  intro fuel
  induction fuel with
  | zero => intro i; simp [upChainF]
  | succ f ih =>
    intro i
    rw [upChainF]
    cases hfb : H[i]? with
    | none => simp
    | some fb =>
      dsimp only
      rw [List.map_cons, List.nodup_cons]
      constructor
      · intro hmem
        obtain ⟨x, hx, hxi⟩ := List.mem_map.mp hmem
        have hlt : x.1 < i := by
          apply upChainF_tail_lt H hwf m (f + 1) i (i, fb) _ _ x hx
          rw [upChainF, hfb]
        omega
      · cases hp : fb.parent with
        | none => simp
        | some p =>
          dsimp only
          by_cases hadd : (mapGet m p).isNone
          · rw [if_pos hadd]
            exact ih p
          · rw [if_neg hadd]
            simp

/-- Adjacent chain elements are linked by `parent`. -/
theorem upChainF_consecutive {T : Type} (H : List (Fiber T)) :
    ∀ (fuel i j : Nat) (m : List (Nat × Nat)) (e e' : Nat × Fiber T),
      (upChainF H m fuel i)[j]? = some e →
      (upChainF H m fuel i)[j + 1]? = some e' →
      e.2.parent = some e'.1 := by
  intro fuel
  induction fuel with
  | zero =>
    intro i j m e e' he
    simp [upChainF] at he
  | succ f ih =>
    intro i j m e e' he he'
    rw [upChainF] at he he'
    cases hfb : H[i]? with
    | none => rw [hfb] at he; simp at he
    | some fb =>
      rw [hfb] at he he'
      dsimp only at he he'
      cases hp : fb.parent with
      | none =>
        rw [hp] at he he'
        cases j with
        | zero => rw [List.getElem?_cons_succ] at he'; simp at he'
        | succ j' => rw [List.getElem?_cons_succ] at he; simp at he
      | some p =>
        rw [hp] at he he'
        dsimp only at he he'
        by_cases hadd : (mapGet m p).isNone
        · rw [if_pos hadd] at he he'
          cases j with
          | zero =>
            rw [List.getElem?_cons_zero] at he
            injection he with he
            subst he
            rw [List.getElem?_cons_succ] at he'
            -- the head of the chain of `p` is `p`
            dsimp only
            rw [hp]
            cases hf0 : f with
            | zero => rw [hf0] at he'; simp [upChainF] at he'
            | succ f' =>
              rw [hf0] at he'
              rw [upChainF] at he'
              cases hfbp : H[p]? with
              | none => rw [hfbp] at he'; simp at he'
              | some fbp =>
                rw [hfbp] at he'
                rw [List.getElem?_cons_zero] at he'
                injection he' with he'
                rw [← he']
          | succ j' =>
            rw [List.getElem?_cons_succ] at he he'
            exact ih p j' m e e' he he'
        · rw [if_neg hadd] at he he'
          cases j with
          | zero => rw [List.getElem?_cons_succ] at he'; simp at he'
          | succ j' => rw [List.getElem?_cons_succ] at he; simp at he

/-- When the recorded last parent exists, it is already in the map. -/
theorem upChainF_lastp_added {T : Type} (H : List (Fiber T)) (hwf : WFparent H)
    (m : List (Nat × Nat)) :
    ∀ (fuel i P : Nat), i < fuel → i < H.length →
      ((upChainF H m fuel i).map (fun e => e.2.parent)).getLastD none = some P →
      (mapGet m P).isSome := by
  intro fuel
  induction fuel with
  | zero => intro i P hf; omega
  | succ f ih =>
    intro i P hf hiH hlast
    rw [upChainF, List.getElem?_eq_getElem hiH] at hlast
    dsimp only at hlast
    cases hp : H[i].parent with
    | none =>
      rw [hp] at hlast
      simp [hp] at hlast
    | some p =>
      rw [hp] at hlast
      have hpi : p < i := hwf i H[i] (List.getElem?_eq_getElem hiH) p hp
      dsimp only at hlast
      by_cases hadd : (mapGet m p).isNone
      · rw [if_pos hadd] at hlast
        have hne : upChainF H m f p ≠ [] := by
          obtain ⟨f', rfl⟩ : ∃ f', f = f' + 1 := ⟨f - 1, by omega⟩
          rw [upChainF, List.getElem?_eq_getElem (show p < H.length from by omega)]
          simp
        have hmapne : (upChainF H m f p).map (fun e => e.2.parent) ≠ [] := by
          intro hcon
          exact hne (List.map_eq_nil_iff.mp hcon)
        rw [List.map_cons, getLastD_cons_of_ne_nil _ _ hmapne] at hlast
        exact ih p P (by omega) (by omega) hlast
      · rw [if_neg hadd] at hlast
        simp only [List.map_cons, List.map_nil, List.getLastD_cons,
          List.getLastD_nil] at hlast
        rw [hp] at hlast
        injection hlast with hlast
        subst hlast
        simp only [Option.isNone_iff_eq_none] at hadd
        cases hg : mapGet m p with
        | none => exact absurd hg hadd
        | some o => simp

theorem list_any_congr {α : Type} (l : List α) (p q : α → Bool)
    (h : ∀ a ∈ l, p a = q a) : l.any p = l.any q := by
  induction l with
  | nil => rfl
  | cons a as ih =>
    simp only [List.any_cons]
    rw [h a (List.mem_cons_self ..), ih (fun a ha => h a (List.mem_cons_of_mem _ ha))]

theorem range_filter_empty (n : Nat) (q : Nat → Bool)
    (h : ∀ x, x < n → q x = false) : (List.range n).filter q = [] := by
  rw [List.filter_eq_nil_iff]
  intro a ha
  rw [List.mem_range] at ha
  rw [h a ha]
  simp

theorem range_filter_unique (n : Nat) (q : Nat → Bool) :
    ∀ c0, c0 < n → (∀ x, x < n → (q x = true ↔ x = c0)) →
      (List.range n).filter q = [c0] := by
  induction n with
  | zero => intro c0 hc; omega
  | succ n ih =>
    intro c0 hc h
    rw [List.range_succ, List.filter_append]
    by_cases hcn : c0 = n
    · subst hcn
      rw [range_filter_empty c0 q (by
        intro x hx
        cases hq : q x with
        | false => rfl
        | true =>
          have := (h x (by omega)).mp hq
          omega)]
      have hqn : q c0 = true := (h c0 (by omega)).mpr rfl
      simp [hqn]
    · have hqn : q n = false := by
        cases hq : q n with
        | false => rfl
        | true =>
          have := (h n (by omega)).mp hq
          omega
      rw [ih c0 (by omega) (fun x hx => h x (by omega))]
      simp [hqn]

theorem range_filter_append_last (n : Nat) (q q' : Nat → Bool) :
    ∀ c0, c0 < n →
      (∀ x, q' x = (q x || decide (x = c0))) →
      q c0 = false →
      (∀ x, q x = true → x < c0) →
      (List.range n).filter q' = (List.range n).filter q ++ [c0] := by
  induction n with
  | zero => intro c0 hc; omega
  | succ n ih =>
    intro c0 hc hq' hqc hlt
    rw [List.range_succ, List.filter_append, List.filter_append]
    by_cases hcn : c0 = n
    · subst hcn
      have e1 : (List.range c0).filter q' = (List.range c0).filter q := by
        apply List.filter_congr
        intro x hx
        rw [List.mem_range] at hx
        rw [hq' x]
        have : decide (x = c0) = false := by
          rw [decide_eq_false_iff_not]
          omega
        rw [this]
        simp
      rw [e1]
      have hq'n : q' c0 = true := by
        rw [hq' c0, hqc]
        simp
      simp [hq'n, hqc]
    · have hqn : q n = false := by
        cases hq : q n with
        | false => rfl
        | true =>
          have := hlt n hq
          omega
      have hq'n : q' n = false := by
        rw [hq' n, hqn]
        simp
        omega
      rw [ih c0 (by omega) hq' hqc hlt]
      simp [hqn, hq'n, List.append_assoc]

/-- Within the first `k + 1` visits, the accumulated `trueFibers` decide
ancestor matching exactly. -/
theorem parentIsTrue_filter {T : Type} (H : List (Fiber T)) (hwf : WFparent H)
    (cb : T → Bool) (k x : Nat) (hx : x < H.length) (hxk : x ≤ k) :
    parentIsTrue H ((List.range (k + 1)).filter (matB H cb)) x = ancMatB H cb x := by
  rw [parentIsTrue_eq_any H _ x hx]
  unfold ancMatB
  apply list_any_congr
  intro a ha
  have halt : a < x := ancChain_mem_lt H hwf x a ha
  cases hm : matB H cb a with
  | true =>
    have hmem : a ∈ (List.range (k + 1)).filter (matB H cb) := by
      rw [List.mem_filter, List.mem_range]
      exact ⟨by omega, hm⟩
    simp [hmem]
  | false =>
    have hmem : a ∉ (List.range (k + 1)).filter (matB H cb) := by
      rw [List.mem_filter]
      rintro ⟨_, hmm⟩
      rw [hm] at hmm
      cases hmm
    simp [hmem]

theorem pushChild_value {K : Type} (A : List (ONode K)) (po y o : Nat) :
    ((pushChild A po y)[o]?).map ONode.value = (A[o]?).map ONode.value := by
  unfold pushChild
  cases h : A[po]? with
  | none => rfl
  | some nd =>
    dsimp only
    by_cases hop : po = o
    · subst hop
      have hlt : po < A.length := (List.getElem?_eq_some.mp h).1
      rw [getElem?_set_lt _ _ _ hlt, h]
      rfl
    · rw [List.getElem?_set_ne hop]

theorem pushChild_getElem_self {K : Type} (A : List (ONode K)) (po y : Nat)
    (nd : ONode K) (h : A[po]? = some nd) :
    (pushChild A po y)[po]? = some ⟨nd.value, nd.children ++ [y]⟩ := by
  unfold pushChild
  rw [h]
  exact getElem?_set_lt _ _ _ (List.getElem?_eq_some.mp h).1

theorem pushChild_getElem_ne {K : Type} (A : List (ONode K)) (po y o : Nat)
    (h : o ≠ po) : (pushChild A po y)[o]? = A[o]? := by
  unfold pushChild
  cases hpo : A[po]? with
  | none => rfl
  | some nd => exact List.getElem?_set_ne (fun hc => h hc.symm)

theorem mapGet_isSome_iff (m : List (Nat × Nat)) (x : Nat) :
    (mapGet m x).isSome = true ↔ x ∈ m.map Prod.fst := by
  unfold mapGet
  rw [Option.isSome_map']
  rw [List.find?_isSome]
  constructor
  · rintro ⟨e, he, hp⟩
    rw [beq_iff_eq] at hp
    exact List.mem_map.mpr ⟨e, he, hp⟩
  · intro hx
    obtain ⟨e, he, hp⟩ := List.mem_map.mp hx
    refine ⟨e, he, ?_⟩
    rw [beq_iff_eq]
    exact hp

theorem mapGet_mem (m : List (Nat × Nat)) (x o : Nat) (h : mapGet m x = some o) :
    (x, o) ∈ m := by
  unfold mapGet at h
  cases hf : m.find? (fun e => e.1 == x) with
  | none => rw [hf] at h; cases h
  | some e =>
    rw [hf] at h
    have hmem := List.mem_of_find?_eq_some hf
    have hp := List.find?_some hf
    rw [beq_iff_eq] at hp
    simp only [Option.map_some'] at h
    injection h with h
    have : e = (x, o) := by
      cases e
      simp only at hp h
      rw [hp, h]
    rw [← this]
    exact hmem

theorem mapGet_of_mem_nodup (m : List (Nat × Nat)) (x o : Nat)
    (hnd : (m.map Prod.fst).Nodup) (h : (x, o) ∈ m) : mapGet m x = some o := by
  induction m with
  | nil => cases h
  | cons e m ih =>
    rw [List.map_cons, List.nodup_cons] at hnd
    rcases List.mem_cons.mp h with rfl | h
    · unfold mapGet
      rw [List.find?]
      rw [show ((x, o).1 == x) = true from by simp]
      rfl
    · have hx : x ≠ e.1 := by
        intro hc
        apply hnd.1
        apply List.mem_map.mpr
        exact ⟨(x, o), h, hc⟩
      unfold mapGet
      rw [List.find?]
      rw [show (e.1 == x) = false from by rw [beq_eq_false_iff_ne]; exact fun hc => hx hc.symm]
      exact ih hnd.2 h

/-- On a map whose values enumerate the store, equal values force equal
entries. -/
theorem map_snd_inj (m : List (Nat × Nat)) (L : Nat)
    (hsnd : m.map Prod.snd = (List.range L).reverse) :
    ∀ x y o, (x, o) ∈ m → (y, o) ∈ m → x = y := by
  have hnd : (m.map Prod.snd).Nodup := by
    rw [hsnd]
    exact List.nodup_reverse.mpr (List.nodup_range L)
  intro x y o hx hy
  obtain ⟨i, hiu, hieq⟩ := List.mem_iff_getElem.mp hx
  obtain ⟨j, hju, hjeq⟩ := List.mem_iff_getElem.mp hy
  have hij : i = j := by
    have hiu2 : i < (m.map Prod.snd).length := by simpa using hiu
    have hju2 : j < (m.map Prod.snd).length := by simpa using hju
    have h1 : (m.map Prod.snd)[i] = o := by
      rw [List.getElem_map]
      rw [hieq]
    have h2 : (m.map Prod.snd)[j] = o := by
      rw [List.getElem_map]
      rw [hjeq]
    exact (List.Nodup.getElem_inj_iff hnd).mp (h1.trans h2.symm)
  subst hij
  have hxy : (x, o) = (y, o) := hieq.symm.trans hjeq
  exact congrArg Prod.fst hxy

theorem getLastD_map_parent {T : Type} (CF : List (Nat × Fiber T)) (hne : CF ≠ []) :
    (CF.map (fun e => e.2.parent)).getLastD none = (CF.getLast hne).2.parent := by
  rw [List.getLastD_eq_getLast?, List.getLast?_map, List.getLast?_eq_getLast _ hne]
  rfl

mutual

theorem sizesT_pos {T : Type} : ∀ (t : TreeNode T), ∀ s ∈ sizesT t, 1 ≤ s
  | .mk d cs => by
    intro s hs
    rw [sizesT] at hs
    rcases List.mem_cons.mp hs with rfl | hs
    · simp only [sizeT]
      omega
    · exact sizesF_pos cs s hs

theorem sizesF_pos {T : Type} : ∀ (F : List (TreeNode T)), ∀ s ∈ sizesF F, 1 ≤ s
  | [] => by intro s hs; rw [sizesF] at hs; cases hs
  | t :: ts => by
    intro s hs
    rw [sizesF] at hs
    rcases List.mem_append.mp hs with hs | hs
    · exact sizesT_pos t s hs
    · exact sizesF_pos ts s hs

end

/-- Ancestor-or-self containment corresponds to pre-order intervals on a
flattened forest. -/
theorem ancOrSelf_interval {T : Type} (F : List (TreeNode T)) (c a : Nat)
    (ha : a < sizeF F)
    (h : ancOrSelf (flattenForest 0 none F) c a = true) :
    ∃ s, (sizesF F)[c]? = some s ∧ c ≤ a ∧ a < c + s := by
  unfold ancOrSelf at h
  rcases Bool.or_eq_true .. |>.mp h with h1 | h1
  · have hca : c = a := of_decide_eq_true h1
    subst hca
    have hc : c < (sizesF F).length := by rw [sizesF_length]; omega
    refine ⟨(sizesF F)[c], List.getElem?_eq_getElem hc, le_refl c, ?_⟩
    have := sizesF_pos F ((sizesF F)[c]) (List.getElem_mem hc)
    omega
  · have hmem : c ∈ ancChain (flattenForest 0 none F) a := of_decide_eq_true h1
    obtain ⟨s, hse, hlt, hub⟩ := (anc_iff_interval F c a ha).mp hmem
    exact ⟨s, hse, by omega, hub⟩

/-- Among fibers with the same parent link, pre-order position is determined
by the position of any descendant: sibling subtrees occupy disjoint index
intervals. -/
theorem sibling_order {T : Type} (F : List (TreeNode T)) (c c' a b : Nat)
    (hb : b < sizeF F)
    (hpar : fparent (flattenForest 0 none F) c = fparent (flattenForest 0 none F) c')
    (hne : c ≠ c')
    (ha : ancOrSelf (flattenForest 0 none F) c a = true)
    (hb' : ancOrSelf (flattenForest 0 none F) c' b = true)
    (hab : a < b) : c < c' := by
  set H := flattenForest 0 none F with hH
  have hwf : WFparent H := WFparent_flatten F
  have hha : a < sizeF F := by omega
  obtain ⟨s, hse, hca, hub⟩ := ancOrSelf_interval F c a hha ha
  obtain ⟨s', hse', hcb, hub'⟩ := ancOrSelf_interval F c' b hb hb'
  -- It suffices to exclude `c' < c`.
  rcases Nat.lt_trichotomy c c' with h | h | h
  · exact h
  · exact absurd h hne
  · exfalso
    -- If the interval of `c'` reached `c`, then `c'` would be a strict
    -- ancestor of `c`, impossible for distinct fibers with equal parents.
    have hcout : ¬ c < c' + s' := by
      intro hcin
      have hc : c < sizeF F := by omega
      have hanc : c' ∈ ancChain H c :=
        (anc_iff_interval F c' c hc).mpr ⟨s', hse', h, hcin⟩
      rw [ancChain_eq H hwf c] at hanc
      cases hfp : fparent H c with
      | none =>
        rw [hfp] at hanc
        cases hanc
      | some p =>
        rw [hfp] at hanc
        rw [hfp] at hpar
        rcases List.mem_cons.mp hanc with h2 | h2
        · subst h2
          have : c' < c' := fparent_lt H hwf hpar.symm
          omega
        · have hpm : p ∈ ancChain H c' := by
            rw [ancChain_eq H hwf c', ← hpar]
            exact List.mem_cons_self p _
          have h3 := ancChain_mem_lt H hwf c' p hpm
          have h4 := ancChain_mem_lt H hwf p c' h2
          omega
    -- Then the whole interval of `c'`, hence `b`, lies strictly below `a`.
    omega

theorem getElem_inj_of_nodup {α : Type} (l : List α) (hnd : l.Nodup) (i j : Nat)
    (a : α) (hi : l[i]? = some a) (hj : l[j]? = some a) : i = j := by
  obtain ⟨hi1, hi2⟩ := List.getElem?_eq_some.mp hi
  obtain ⟨hj1, hj2⟩ := List.getElem?_eq_some.mp hj
  exact (List.Nodup.getElem_inj_iff hnd).mp (hi2.trans hj2.symm)

theorem chainNodes_getElem {K : Type} (vals : List K) (b j : Nat) (v : K)
    (hj : vals[j]? = some v) :
    (chainNodes vals b)[j]? =
      some ⟨v, if j = 0 then [] else [b + j - 1]⟩ := by
  cases vals with
  | nil => cases j <;> cases hj
  | cons v0 vs =>
    cases j with
    | zero =>
      rw [List.getElem?_cons_zero] at hj
      injection hj with hj
      subst hj
      rw [chainNodes_getElem_zero]
      rfl
    | succ j' =>
      rw [List.getElem?_cons_succ] at hj
      rw [chainNodes_getElem_succ, chainNodesTail_getElem, hj]
      simp only [Option.map_some', if_neg (Nat.succ_ne_zero j')]
      have he : b + (j' + 1) - 1 = b + j' := by omega
      rw [he]

theorem mem_filter_range_decide (x n : Nat) (q : Nat → Bool) (hx : x < n) :
    decide (x ∈ (List.range n).filter q) = q x := by
  cases hq : q x with
  | true =>
    have : x ∈ (List.range n).filter q :=
      List.mem_filter.mpr ⟨List.mem_range.mpr hx, hq⟩
    simp [this]
  | false =>
    have : x ∉ (List.range n).filter q := by
      rw [List.mem_filter]
      rintro ⟨_, hc⟩
      rw [hq] at hc
      cases hc
    simp [this]

theorem range_reverse_append (b n : Nat) :
    (List.range (b + n)).reverse = (List.range' b n).reverse ++ (List.range b).reverse := by
  rw [← List.reverse_append]
  congr 1
  rw [List.range_eq_range', List.range_eq_range']
  have h := List.range'_append 0 b n 1
  simp only [Nat.zero_add, Nat.one_mul] at h
  rw [Nat.add_comm b n]
  exact h.symm

/-- The invariant of the search fold: after visiting the first `k` fibers,
`trueFibers` holds exactly the visited direct matches, the map keys are
exactly the added fibers with values enumerating the output store in
allocation order, every output node carries the transformed payload of its
fiber, and children/roots list exactly the added children of each fiber (and
the added roots), in index order, as output indices. -/
structure SearchInv {T K : Type} (H : List (Fiber T)) (cb : T → Bool)
    (tfm : T → Bool → Bool → K) (k : Nat) (st : SearchTreeResult K) : Prop where
  tf : st.trueFibers = (List.range k).filter (matB H cb)
  added : ∀ x, (mapGet st.addedFiberMap x).isSome = addedB H cb k x
  snd : st.addedFiberMap.map Prod.snd = (List.range st.oheap.length).reverse
  fstnd : (st.addedFiberMap.map Prod.fst).Nodup
  val : ∀ x o, (x, o) ∈ st.addedFiberMap → ∃ fb nd, H[x]? = some fb ∧
    st.oheap[o]? = some nd ∧ nd.value = tfm fb.data (matB H cb x) (ancMatB H cb x)
  child : ∀ x o nd, (x, o) ∈ st.addedFiberMap → st.oheap[o]? = some nd →
    nd.children = ((List.range H.length).filter
      (fun c => decide (fparent H c = some x) && addedB H cb k c)).map
      (fun c => (mapGet st.addedFiberMap c).getD 0)
  roots : st.searchTree = ((List.range H.length).filter
      (fun r => (fparent H r).isNone && addedB H cb k r)).map
      (fun r => (mapGet st.addedFiberMap r).getD 0)

theorem searchStep_inv {T K : Type} (H : List (Fiber T)) (cb : T → Bool)
    (tfm : T → Bool → Bool → K) (hwf : WFparent H)
    (hsib : ∀ c c' a b, b < H.length →
      fparent H c = fparent H c' → c ≠ c' →
      ancOrSelf H c a = true → ancOrSelf H c' b = true → a < b → c < c')
    (k : Nat) (st : SearchTreeResult K) (hk : k < H.length)
    (hInv : SearchInv H cb tfm k st) :
    SearchInv H cb tfm (k + 1) (searchStep H cb tfm st k) := by
  obtain ⟨so, ss, sm, stf⟩ := st
  obtain ⟨IT, IK, ISd, IN, IV, IC, IR⟩ := hInv
  dsimp only at IT IK ISd IN IV IC IR
  have hmatk : matB H cb k = cb H[k].data := by
    unfold matB
    rw [List.getElem?_eq_getElem hk]
  have hknot : k ∉ stf := by
    rw [IT]
    intro hmem
    have := (List.mem_filter.mp hmem).1
    rw [List.mem_range] at this
    omega
  unfold searchStep
  rw [List.getElem?_eq_getElem hk]
  dsimp only
  have hst1 : (if cb H[k].data = true then
        (⟨so, ss, sm, setAdd stf k⟩ : SearchTreeResult K)
      else ⟨so, ss, sm, stf⟩) =
      ⟨so, ss, sm, (List.range (k + 1)).filter (matB H cb)⟩ := by
    rw [List.range_succ, List.filter_append]
    by_cases hc : cb H[k].data = true
    · rw [if_pos hc]
      refine congrArg (SearchTreeResult.mk so ss sm) ?_
      unfold setAdd
      rw [if_neg hknot, IT]
      congr 1
      have hmk : matB H cb k = true := by rw [hmatk]; exact hc
      simp [List.filter_cons, hmk]
    · rw [if_neg hc]
      refine congrArg (SearchTreeResult.mk so ss sm) ?_
      rw [IT]
      have hmk : matB H cb k = false := by
        rw [hmatk]
        cases h2 : cb H[k].data with
        | false => rfl
        | true => exact absurd h2 hc
      simp [List.filter_cons, hmk]
  rw [hst1]
  dsimp only
  rw [show (cb H[k].data || parentIsTrue H ((List.range (k + 1)).filter (matB H cb)) k)
      = qualB H cb k from by
    rw [parentIsTrue_filter H hwf cb k k hk (Nat.le_refl k), ← hmatk]
    rfl]
  by_cases hq : qualB H cb k = true
  · rw [if_pos hq]
    have hunk : mapGet sm k = none := by
      have h1 := IK k
      rw [addedB_self_false H hwf cb k k (Nat.le_refl k)] at h1
      cases hg : mapGet sm k with
      | none => rfl
      | some o => rw [hg] at h1; simp at h1
    have hbound : ∀ e ∈ sm, e.2 < so.length := by
      intro e he
      have h1 : e.2 ∈ sm.map Prod.snd := List.mem_map_of_mem _ he
      rw [ISd, List.mem_reverse, List.mem_range] at h1
      exact h1
    rw [addFiberToTree_spec H tfm hwf H.length k ⟨so, ss, sm,
      (List.range (k + 1)).filter (matB H cb)⟩ hk hk hunk hbound]
    dsimp only
    have HC : ∀ a c, a ∈ ancChain H c → mapGet sm a = none → mapGet sm c = none := by
      intro a c hac ha
      cases hgc : mapGet sm c with
      | none => rfl
      | some o =>
        exfalso
        have h1 : addedB H cb k c = true := by rw [← IK c, hgc]; rfl
        have h2 := addedB_anc H hwf cb k c a hac h1
        rw [← IK a, ha] at h2
        simp at h2
    have hchain_iff : ∀ x, x ∈ (upChainF H sm H.length k).map Prod.fst ↔
        (ancOrSelf H x k = true ∧ addedB H cb k x = false) := by
      intro x
      constructor
      · intro hx
        rcases upChainF_mem_sound H hwf sm H.length k x hunk hx with rfl | ⟨ha, hmn⟩
        · exact ⟨by unfold ancOrSelf; simp,
            addedB_self_false H hwf cb x x (Nat.le_refl x)⟩
        · refine ⟨by unfold ancOrSelf; simp [ha], ?_⟩
          rw [← IK x, hmn]
          rfl
      · rintro ⟨ha, hadd⟩
        apply upChainF_mem_complete H hwf sm HC H.length k x hk hk hunk
        unfold ancOrSelf at ha
        rcases Bool.or_eq_true .. |>.mp ha with h1 | h1
        · exact Or.inl (of_decide_eq_true h1)
        · refine Or.inr ⟨of_decide_eq_true h1, ?_⟩
          have h2 := IK x
          rw [hadd] at h2
          cases hg : mapGet sm x with
          | none => rfl
          | some o => rw [hg] at h2; simp at h2
    have hCnd : ((upChainF H sm H.length k).map Prod.fst).Nodup :=
      upChainF_fst_nodup H hwf sm H.length k
    have hkC : k ∈ (upChainF H sm H.length k).map Prod.fst :=
      (hchain_iff k).mpr ⟨by unfold ancOrSelf; simp,
        addedB_self_false H hwf cb k k (Nat.le_refl k)⟩
    have hC0 : ((upChainF H sm H.length k).map Prod.fst)[0]? = some k := by
      obtain ⟨f, hf⟩ : ∃ f, H.length = f + 1 := ⟨H.length - 1, by omega⟩
      rw [hf, upChainF, List.getElem?_eq_getElem hk]
      dsimp only
      rw [List.map_cons, List.getElem?_cons_zero]
    have hCne : (upChainF H sm H.length k).map Prod.fst ≠ [] := by
      intro h
      rw [h] at hkC
      cases hkC
    have hClen : 1 ≤ ((upChainF H sm H.length k).map Prod.fst).length :=
      List.length_pos.mpr hCne
    have hCle : ∀ c ∈ (upChainF H sm H.length k).map Prod.fst, c ≤ k := by
      intro c hc
      obtain ⟨e, he, rfl⟩ := List.mem_map.mp hc
      exact (upChainF_le H hwf sm H.length k e he).1
    have hCH : ∀ c ∈ (upChainF H sm H.length k).map Prod.fst, c < H.length := by
      intro c hc
      have := hCle c hc
      omega
    have hfparC : ∀ j c c', ((upChainF H sm H.length k).map Prod.fst)[j]? = some c →
        ((upChainF H sm H.length k).map Prod.fst)[j + 1]? = some c' →
        fparent H c = some c' := by
      intro j c c' hc hc'
      rw [List.getElem?_map] at hc hc'
      cases he : (upChainF H sm H.length k)[j]? with
      | none => rw [he] at hc; cases hc
      | some e =>
        rw [he] at hc
        cases he' : (upChainF H sm H.length k)[j + 1]? with
        | none => rw [he'] at hc'; cases hc'
        | some e2 =>
          rw [he'] at hc'
          simp only [Option.map_some'] at hc hc'
          injection hc with hc
          injection hc' with hc'
          have hpar := upChainF_consecutive H H.length k j sm e e2 he he'
          have hmem : e ∈ upChainF H sm H.length k := by
            obtain ⟨hlt, heq⟩ := List.getElem?_eq_some.mp he
            rw [← heq]
            exact List.getElem_mem hlt
          have hHe := (upChainF_le H hwf sm H.length k e hmem).2
          unfold fparent
          rw [← hc, hHe]
          dsimp only [Option.bind]
          rw [hpar, hc']
    obtain ⟨cm, hcm⟩ : ∃ cm,
        ((upChainF H sm H.length k).map Prod.fst).getLast? = some cm :=
      ⟨_, List.getLast?_eq_getLast _ hCne⟩
    have hcmC : cm ∈ (upChainF H sm H.length k).map Prod.fst := by
      have h1 := List.getLast?_eq_getLast _ hCne
      have h2 := hcm.symm.trans h1
      injection h2 with h2
      rw [h2]
      exact List.getLast_mem hCne
    have hcmpos : ((upChainF H sm H.length k).map Prod.fst)[
        ((upChainF H sm H.length k).map Prod.fst).length - 1]? = some cm := by
      rw [← List.getLast?_eq_getElem?]
      exact hcm
    have hcmk : cm ≤ k := hCle cm hcmC
    have hcmH : cm < H.length := by omega
    have hcmadd : addedB H cb k cm = false := ((hchain_iff cm).mp hcmC).2
    have hcmaos : ancOrSelf H cm k = true := ((hchain_iff cm).mp hcmC).1
    have hCFne : upChainF H sm H.length k ≠ [] := by
      intro h
      rw [h] at hCne
      simp at hCne
    have hfcm : fparent H cm =
        ((upChainF H sm H.length k).map (fun e => e.2.parent)).getLastD none := by
      rw [getLastD_map_parent _ hCFne]
      have h1 : ((upChainF H sm H.length k).map Prod.fst).getLast? =
          some (((upChainF H sm H.length k).getLast hCFne).1) := by
        rw [List.getLast?_map, List.getLast?_eq_getLast _ hCFne]
        rfl
      rw [hcm] at h1
      injection h1 with h1
      have hmem := List.getLast_mem hCFne
      have hHcm := (upChainF_le H hwf sm H.length k _ hmem).2
      unfold fparent
      rw [h1, hHcm]
      rfl
    have hget_chain : ∀ j x, ((upChainF H sm H.length k).map Prod.fst)[j]? = some x →
        mapGet (chainPairs so.length ((upChainF H sm H.length k).map Prod.fst) ++ sm) x
          = some (so.length + j) := by
      intro j x hj
      rw [mapGet_append, mapGet_chainPairs_pos _ so.length x j hCnd hj]
    have hget_old : ∀ x, x ∉ (upChainF H sm H.length k).map Prod.fst →
        mapGet (chainPairs so.length ((upChainF H sm H.length k).map Prod.fst) ++ sm) x
          = mapGet sm x := by
      intro x hx
      rw [mapGet_append,
        mapGet_chainPairs_not_mem so.length x _ (fun c hc hcx => hx (hcx ▸ hc))]
    have hAddSucc : ∀ x, addedB H cb (k + 1) x =
        (addedB H cb k x || decide (x ∈ (upChainF H sm H.length k).map Prod.fst)) := by
      intro x
      rw [addedB_succ, hq, Bool.true_and]
      cases ha : addedB H cb k x with
      | true => simp
      | false =>
        rw [Bool.false_or, Bool.false_or]
        cases haos : ancOrSelf H x k with
        | true =>
          have hx : x ∈ (upChainF H sm H.length k).map Prod.fst :=
            (hchain_iff x).mpr ⟨haos, ha⟩
          simp [hx]
        | false =>
          have hx : x ∉ (upChainF H sm H.length k).map Prod.fst := by
            intro hmem
            rw [((hchain_iff x).mp hmem).1] at haos
            cases haos
          simp [hx]
    have hfinlen : ∀ (lastp : Option Nat) (w : Nat),
        (attachFinish ⟨so, ss, sm, (List.range (k + 1)).filter (matB H cb)⟩
          lastp w).1.length = so.length := fun lastp w =>
      attachFinish_fst_length _ lastp w
    have hfinval : ∀ (lastp : Option Nat) (w o : Nat),
        (((attachFinish ⟨so, ss, sm, (List.range (k + 1)).filter (matB H cb)⟩
          lastp w).1[o]?).map ONode.value) = (so[o]?).map ONode.value := by
      intro lastp w o
      unfold attachFinish
      cases lastp with
      | none => rfl
      | some P =>
        dsimp only
        cases hg : mapGet sm P with
        | none => rfl
        | some oP =>
          dsimp only
          exact pushChild_value so oP w o
    have hmemC_par : ∀ c, c ∈ (upChainF H sm H.length k).map Prod.fst →
        c = cm ∨ ∃ c', fparent H c = some c' ∧
          c' ∈ (upChainF H sm H.length k).map Prod.fst := by
      intro c hc
      obtain ⟨jc, hjc⟩ := List.mem_iff_getElem?.mp hc
      have hjlt : jc < ((upChainF H sm H.length k).map Prod.fst).length :=
        (List.getElem?_eq_some.mp hjc).1
      by_cases hlast : jc = ((upChainF H sm H.length k).map Prod.fst).length - 1
      · left
        rw [hlast] at hjc
        have h2 := hjc.symm.trans hcmpos
        exact Option.some.inj h2
      · right
        have hjc1 : jc + 1 < ((upChainF H sm H.length k).map Prod.fst).length := by
          omega
        exact ⟨((upChainF H sm H.length k).map Prod.fst)[jc + 1],
          hfparC jc c _ hjc (List.getElem?_eq_getElem hjc1), List.getElem_mem hjc1⟩
    refine ⟨rfl, ?_, ?_, ?_, ?_, ?_, ?_⟩
    · -- added
      intro x
      dsimp only
      rw [hAddSucc x]
      by_cases hxC : x ∈ (upChainF H sm H.length k).map Prod.fst
      · obtain ⟨j, hj⟩ := List.mem_iff_getElem?.mp hxC
        rw [hget_chain j x hj]
        simp [hxC]
      · rw [hget_old x hxC, IK x]
        simp [hxC]
    · -- snd
      dsimp only
      rw [List.map_append, chainPairs_snd, ISd, List.length_append, hfinlen,
        chainNodes_length]
      simp only [List.length_map]
      exact (range_reverse_append so.length (upChainF H sm H.length k).length).symm
    · -- fstnd
      dsimp only
      rw [List.map_append, chainPairs_fst]
      refine List.Nodup.append (List.nodup_reverse.mpr hCnd) IN ?_
      intro a haC haM
      rw [List.mem_reverse] at haC
      have h1 : addedB H cb k a = false := ((hchain_iff a).mp haC).2
      have h2 : (mapGet sm a).isSome = true := (mapGet_isSome_iff sm a).mpr haM
      rw [IK a, h1] at h2
      cases h2
    · -- val
      intro x o hmem
      dsimp only at hmem ⊢
      rcases List.mem_append.mp hmem with hmc | hmo
      · obtain ⟨j, hj, ho⟩ := (chainPairs_mem _ so.length x o).mp hmc
        subst ho
        have hxC : x ∈ (upChainF H sm H.length k).map Prod.fst := by
          obtain ⟨hlt, heq⟩ := List.getElem?_eq_some.mp hj
          rw [← heq]
          exact List.getElem_mem hlt
        have hxk : x ≤ k := hCle x hxC
        rw [List.getElem?_map] at hj
        cases he : (upChainF H sm H.length k)[j]? with
        | none => rw [he] at hj; cases hj
        | some e =>
          rw [he] at hj
          simp only [Option.map_some'] at hj
          injection hj with hj
          have hmemCF : e ∈ upChainF H sm H.length k := by
            obtain ⟨hlt, heq⟩ := List.getElem?_eq_some.mp he
            rw [← heq]
            exact List.getElem_mem hlt
          have hHe := (upChainF_le H hwf sm H.length k e hmemCF).2
          have hv : ((upChainF H sm H.length k).map (fun e => tfm e.2.data
              (decide (e.1 ∈ (List.range (k + 1)).filter (matB H cb)))
              (parentIsTrue H ((List.range (k + 1)).filter (matB H cb)) e.1)))[j]?
              = some (tfm e.2.data
                (decide (e.1 ∈ (List.range (k + 1)).filter (matB H cb)))
                (parentIsTrue H ((List.range (k + 1)).filter (matB H cb)) e.1)) := by
            rw [List.getElem?_map, he]
            rfl
          rw [List.getElem?_append_right (by rw [hfinlen]; omega), hfinlen,
            show so.length + j - so.length = j from by omega]
          refine ⟨e.2, ⟨tfm e.2.data
              (decide (e.1 ∈ (List.range (k + 1)).filter (matB H cb)))
              (parentIsTrue H ((List.range (k + 1)).filter (matB H cb)) e.1),
            if j = 0 then [] else [so.length + j - 1]⟩,
            by rw [← hj]; exact hHe, ?_, ?_⟩
          · exact chainNodes_getElem _ so.length j _ hv
          · dsimp only
            rw [hj, mem_filter_range_decide x (k + 1) (matB H cb) (by omega),
              parentIsTrue_filter H hwf cb k x (by omega) hxk]
      · obtain ⟨fb, ndo, hHfb, hndo, hvalo⟩ := IV x o hmo
        have hob : o < so.length := (List.getElem?_eq_some.mp hndo).1
        rw [List.getElem?_append_left (by rw [hfinlen]; omega)]
        have hsome := hfinval (((upChainF H sm H.length k).map
            (fun e => e.2.parent)).getLastD none)
          (so.length + (upChainF H sm H.length k).length - 1) o
        rw [hndo] at hsome
        obtain ⟨nd2, hnd2, hvv⟩ := Option.map_eq_some'.mp hsome
        refine ⟨fb, nd2, hHfb, hnd2, ?_⟩
        rw [hvv]
        exact hvalo
    · -- child
      intro x o nd hmem hnd
      dsimp only at hmem hnd ⊢
      rcases List.mem_append.mp hmem with hmc | hmo
      · -- a freshly materialized chain node
        obtain ⟨j, hj, ho⟩ := (chainPairs_mem _ so.length x o).mp hmc
        subst ho
        have hxC : x ∈ (upChainF H sm H.length k).map Prod.fst := by
          obtain ⟨hlt, heq⟩ := List.getElem?_eq_some.mp hj
          rw [← heq]
          exact List.getElem_mem hlt
        have hxadd : addedB H cb k x = false := ((hchain_iff x).mp hxC).2
        have hjlt : j < ((upChainF H sm H.length k).map Prod.fst).length :=
          (List.getElem?_eq_some.mp hj).1
        obtain ⟨v, hv⟩ : ∃ v, ((upChainF H sm H.length k).map (fun e => tfm e.2.data
            (decide (e.1 ∈ (List.range (k + 1)).filter (matB H cb)))
            (parentIsTrue H ((List.range (k + 1)).filter (matB H cb)) e.1)))[j]?
            = some v := by
          refine ⟨_, List.getElem?_eq_getElem ?_⟩
          rw [List.length_map]
          rw [List.length_map] at hjlt
          exact hjlt
        rw [List.getElem?_append_right (by rw [hfinlen]; omega), hfinlen,
          show so.length + j - so.length = j from by omega,
          chainNodes_getElem _ so.length j v hv] at hnd
        injection hnd with hnd
        subst hnd
        dsimp only
        cases j with
        | zero =>
          rw [if_pos rfl]
          have hxk2 : x = k := by
            have h2 := hj.symm.trans hC0
            exact Option.some.inj h2
          subst hxk2
          rw [range_filter_empty H.length _ (by
            intro c hcH
            by_cases hfpc : fparent H c = some x
            · have hck : x < c := fparent_lt H hwf hfpc
              have h2 : addedB H cb (x + 1) c = false := by
                cases hac : addedB H cb (x + 1) c with
                | false => rfl
                | true =>
                  have := addedB_mem_lt H hwf cb (x + 1) c hac
                  omega
              rw [h2, Bool.and_false]
            · have h2 : decide (fparent H c = some x) = false := decide_eq_false hfpc
              rw [h2, Bool.false_and])]
          rfl
        | succ j2 =>
          rw [if_neg (Nat.succ_ne_zero j2)]
          have hj2lt : j2 < ((upChainF H sm H.length k).map Prod.fst).length := by
            omega
          obtain ⟨c0, hc0⟩ : ∃ c0,
              ((upChainF H sm H.length k).map Prod.fst)[j2]? = some c0 :=
            ⟨_, List.getElem?_eq_getElem hj2lt⟩
          have hfc0 : fparent H c0 = some x := hfparC j2 c0 x hc0 hj
          have hc0C : c0 ∈ (upChainF H sm H.length k).map Prod.fst := by
            obtain ⟨hlt, heq⟩ := List.getElem?_eq_some.mp hc0
            rw [← heq]
            exact List.getElem_mem hlt
          have hc0H : c0 < H.length := hCH c0 hc0C
          rw [range_filter_unique H.length _ c0 hc0H (by
            intro c hcH
            constructor
            · intro hcond
              rw [Bool.and_eq_true] at hcond
              have hfpc : fparent H c = some x := of_decide_eq_true hcond.1
              have hxanc : x ∈ ancChain H c := by
                rw [ancChain_eq H hwf c, hfpc]
                exact List.mem_cons_self _ _
              have hkc : addedB H cb k c = false := by
                cases h2 : addedB H cb k c with
                | false => rfl
                | true =>
                  have h3 := addedB_anc H hwf cb k c x hxanc h2
                  rw [hxadd] at h3
                  cases h3
              have hcC : c ∈ (upChainF H sm H.length k).map Prod.fst := by
                have h4 := hcond.2
                rw [hAddSucc c, hkc, Bool.false_or] at h4
                exact of_decide_eq_true h4
              obtain ⟨jc, hjc⟩ := List.mem_iff_getElem?.mp hcC
              by_cases hlastc : jc = ((upChainF H sm H.length k).map Prod.fst).length - 1
              · exfalso
                rw [hlastc] at hjc
                have hccm : c = cm := Option.some.inj (hjc.symm.trans hcmpos)
                have h5 : ((upChainF H sm H.length k).map
                    (fun e => e.2.parent)).getLastD none = some x := by
                  rw [← hfcm, ← hccm]
                  exact hfpc
                have h6 := upChainF_lastp_added H hwf sm H.length k x hk hk h5
                rw [IK x, hxadd] at h6
                cases h6
              · have hjclt : jc < ((upChainF H sm H.length k).map Prod.fst).length :=
                  (List.getElem?_eq_some.mp hjc).1
                have hjc1 : jc + 1 < ((upChainF H sm H.length k).map Prod.fst).length := by
                  omega
                have hfpc2 : fparent H c =
                    some (((upChainF H sm H.length k).map Prod.fst)[jc + 1]) :=
                  hfparC jc c _ hjc (List.getElem?_eq_getElem hjc1)
                have hx2 : ((upChainF H sm H.length k).map Prod.fst)[jc + 1]? = some x := by
                  rw [List.getElem?_eq_getElem hjc1]
                  have h2 := Option.some.inj (hfpc.symm.trans hfpc2)
                  rw [h2]
                have hpos := getElem_inj_of_nodup _ hCnd (jc + 1) (j2 + 1) x hx2 hj
                have hjcj : jc = j2 := by omega
                rw [hjcj] at hjc
                exact Option.some.inj (hjc.symm.trans hc0)
            · intro hceq
              rw [hceq, Bool.and_eq_true]
              refine ⟨decide_eq_true hfc0, ?_⟩
              rw [hAddSucc c0]
              have h2 : decide (c0 ∈ (upChainF H sm H.length k).map Prod.fst) = true :=
                decide_eq_true hc0C
              rw [h2, Bool.or_true])]
          simp only [List.map_cons, List.map_nil]
          rw [hget_chain j2 c0 hc0]
          simp only [Option.getD_some]
          have harith : so.length + (j2 + 1) - 1 = so.length + j2 := by omega
          rw [harith]
      · -- a node added in an earlier step
        have hgx : mapGet sm x = some o := mapGet_of_mem_nodup sm x o IN hmo
        have hxadd : addedB H cb k x = true := by rw [← IK x, hgx]; rfl
        have hxC : x ∉ (upChainF H sm H.length k).map Prod.fst := fun h => by
          rw [((hchain_iff x).mp h).2] at hxadd
          cases hxadd
        obtain ⟨fb, ndo, hHfb, hndo, hvalo⟩ := IV x o hmo
        have hob : o < so.length := (List.getElem?_eq_some.mp hndo).1
        rw [List.getElem?_append_left (by rw [hfinlen]; omega)] at hnd
        cases hlp : ((upChainF H sm H.length k).map (fun e => e.2.parent)).getLastD none with
        | none =>
          rw [hlp] at hnd hfcm
          unfold attachFinish at hnd
          dsimp only at hnd
          rw [hndo] at hnd
          have hnd2 := Option.some.inj hnd
          subst hnd2
          have hnoC : ∀ c, fparent H c = some x →
              c ∉ (upChainF H sm H.length k).map Prod.fst := by
            intro c hfpc hcC
            rcases hmemC_par c hcC with rfl | ⟨c2, hfc2, hc2C⟩
            · rw [hfcm] at hfpc
              cases hfpc
            · rw [hfpc] at hfc2
              have h2 := Option.some.inj hfc2
              rw [← h2] at hc2C
              exact hxC hc2C
          have hfilters : (List.range H.length).filter
              (fun c => decide (fparent H c = some x) && addedB H cb (k + 1) c) =
              (List.range H.length).filter
              (fun c => decide (fparent H c = some x) && addedB H cb k c) := by
            apply List.filter_congr
            intro c _
            by_cases hfpc : fparent H c = some x
            · have hcC := hnoC c hfpc
              rw [hAddSucc c]
              have h2 : decide (c ∈ (upChainF H sm H.length k).map Prod.fst) = false :=
                decide_eq_false hcC
              rw [h2, Bool.or_false]
            · have h2 : decide (fparent H c = some x) = false := decide_eq_false hfpc
              rw [h2, Bool.false_and, Bool.false_and]
          rw [hfilters, IC x o ndo hmo hndo]
          apply List.map_congr_left
          intro c hc
          rw [List.mem_filter] at hc
          have hcadd : addedB H cb k c = true := (Bool.and_eq_true .. |>.mp hc.2).2
          have hcC : c ∉ (upChainF H sm H.length k).map Prod.fst := fun h => by
            rw [((hchain_iff c).mp h).2] at hcadd
            cases hcadd
          rw [hget_old c hcC]
        | some P =>
          rw [hlp] at hnd hfcm
          have hPs := upChainF_lastp_added H hwf sm H.length k P hk hk hlp
          obtain ⟨oP, hoP⟩ := Option.isSome_iff_exists.mp hPs
          have hPadd : addedB H cb k P = true := by rw [← IK P, hoP]; rfl
          unfold attachFinish at hnd
          dsimp only at hnd
          rw [hoP] at hnd
          dsimp only at hnd
          by_cases hxP : x = P
          · rw [← hxP] at hfcm
            have hooP : o = oP := by
              rw [← hxP] at hoP
              exact Option.some.inj (hgx.symm.trans hoP)
            rw [← hooP] at hnd
            rw [pushChild_getElem_self so o _ ndo hndo] at hnd
            have hnd2 := Option.some.inj hnd
            subst hnd2
            dsimp only
            have hcinC : ∀ c, fparent H c = some x →
                c ∈ (upChainF H sm H.length k).map Prod.fst → c = cm := by
              intro c hfpc hcC
              rcases hmemC_par c hcC with h | ⟨c2, hfc2, hc2C⟩
              · exact h
              · exfalso
                rw [hfpc] at hfc2
                have h2 := Option.some.inj hfc2
                rw [← h2] at hc2C
                exact hxC hc2C
            have hsplit := range_filter_append_last H.length
              (fun c => decide (fparent H c = some x) && addedB H cb k c)
              (fun c => decide (fparent H c = some x) && addedB H cb (k + 1) c)
              cm hcmH
              (by
                intro c
                show (decide (fparent H c = some x) && addedB H cb (k + 1) c)
                  = (decide (fparent H c = some x) && addedB H cb k c
                    || decide (c = cm))
                by_cases hfpc : fparent H c = some x
                · have hd : decide (fparent H c = some x) = true := decide_eq_true hfpc
                  rw [hd, Bool.true_and, Bool.true_and, hAddSucc c]
                  congr 1
                  rw [decide_eq_decide]
                  constructor
                  · exact hcinC c hfpc
                  · rintro rfl
                    exact hcmC
                · have hd : decide (fparent H c = some x) = false := decide_eq_false hfpc
                  rw [hd, Bool.false_and, Bool.false_and, Bool.false_or]
                  symm
                  rw [decide_eq_false_iff_not]
                  intro h2
                  rw [h2] at hfpc
                  exact hfpc hfcm)
              (by
                show (decide (fparent H cm = some x) && addedB H cb k cm) = false
                rw [hcmadd, Bool.and_false])
              (by
                intro c hc
                replace hc : (decide (fparent H c = some x)
                  && addedB H cb k c) = true := hc
                rw [Bool.and_eq_true] at hc
                obtain ⟨hfp, hcadd⟩ := hc
                have hfpc : fparent H c = some x := of_decide_eq_true hfp
                have hcadd0 := hcadd
                unfold addedB at hcadd
                rw [List.any_eq_true] at hcadd
                obtain ⟨d, hdm, hdq⟩ := hcadd
                rw [List.mem_range] at hdm
                rw [Bool.and_eq_true] at hdq
                have hcne : c ≠ cm := by
                  intro h2
                  rw [h2, hcmadd] at hcadd0
                  exact Bool.false_ne_true hcadd0
                have hfeq : fparent H c = fparent H cm := by
                  rw [hfpc, hfcm]
                exact hsib c cm d k hk hfeq hcne hdq.2 hcmaos hdm)
            rw [hsplit, List.map_append]
            congr 1
            · rw [IC x o ndo hmo hndo]
              apply List.map_congr_left
              intro c hc
              rw [List.mem_filter] at hc
              have hcadd : addedB H cb k c = true := (Bool.and_eq_true .. |>.mp hc.2).2
              have hcC : c ∉ (upChainF H sm H.length k).map Prod.fst := fun h => by
                rw [((hchain_iff c).mp h).2] at hcadd
                cases hcadd
              rw [hget_old c hcC]
            · simp only [List.map_cons, List.map_nil]
              rw [hget_chain (((upChainF H sm H.length k).map Prod.fst).length - 1)
                cm hcmpos]
              simp only [Option.getD_some]
              have harith : so.length + (upChainF H sm H.length k).length - 1 =
                  so.length + (((upChainF H sm H.length k).map Prod.fst).length - 1) := by
                rw [List.length_map]
                have h2 := hClen
                rw [List.length_map] at h2
                omega
              rw [harith]
          · have hooP : o ≠ oP := by
              intro h2
              apply hxP
              have hPmem : (P, oP) ∈ sm := mapGet_mem sm P oP hoP
              rw [h2] at hmo
              exact map_snd_inj sm so.length ISd x P oP hmo hPmem
            rw [pushChild_getElem_ne so oP _ o hooP, hndo] at hnd
            have hnd2 := Option.some.inj hnd
            subst hnd2
            have hnoC : ∀ c, fparent H c = some x →
                c ∉ (upChainF H sm H.length k).map Prod.fst := by
              intro c hfpc hcC
              rcases hmemC_par c hcC with rfl | ⟨c2, hfc2, hc2C⟩
              · rw [hfcm] at hfpc
                exact hxP (Option.some.inj hfpc).symm
              · rw [hfpc] at hfc2
                have h2 := Option.some.inj hfc2
                rw [← h2] at hc2C
                exact hxC hc2C
            have hfilters : (List.range H.length).filter
                (fun c => decide (fparent H c = some x) && addedB H cb (k + 1) c) =
                (List.range H.length).filter
                (fun c => decide (fparent H c = some x) && addedB H cb k c) := by
              apply List.filter_congr
              intro c _
              by_cases hfpc : fparent H c = some x
              · have hcC := hnoC c hfpc
                rw [hAddSucc c]
                have h2 : decide (c ∈ (upChainF H sm H.length k).map Prod.fst) = false :=
                  decide_eq_false hcC
                rw [h2, Bool.or_false]
              · have h2 : decide (fparent H c = some x) = false := decide_eq_false hfpc
                rw [h2, Bool.false_and, Bool.false_and]
            rw [hfilters, IC x o ndo hmo hndo]
            apply List.map_congr_left
            intro c hc
            rw [List.mem_filter] at hc
            have hcadd : addedB H cb k c = true := (Bool.and_eq_true .. |>.mp hc.2).2
            have hcC : c ∉ (upChainF H sm H.length k).map Prod.fst := fun h => by
              rw [((hchain_iff c).mp h).2] at hcadd
              cases hcadd
            rw [hget_old c hcC]
    · -- roots
      dsimp only
      cases hlp : ((upChainF H sm H.length k).map (fun e => e.2.parent)).getLastD none with
      | none =>
        rw [hlp] at hfcm
        unfold attachFinish
        dsimp only
        have hsplit := range_filter_append_last H.length
          (fun r => (fparent H r).isNone && addedB H cb k r)
          (fun r => (fparent H r).isNone && addedB H cb (k + 1) r)
          cm hcmH
          (by
            intro r
            show ((fparent H r).isNone && addedB H cb (k + 1) r)
              = ((fparent H r).isNone && addedB H cb k r || decide (r = cm))
            cases hfr : fparent H r with
            | some p =>
              have hrcm : r ≠ cm := by
                intro h2
                rw [h2, hfcm] at hfr
                cases hfr
              simp [hrcm]
            | none =>
              simp only [Option.isNone_none, Bool.true_and]
              rw [hAddSucc r]
              congr 1
              rw [decide_eq_decide]
              constructor
              · intro hrC
                rcases hmemC_par r hrC with h | ⟨c2, hfc2, _⟩
                · exact h
                · rw [hfr] at hfc2
                  cases hfc2
              · rintro rfl
                exact hcmC)
          (by
            show ((fparent H cm).isNone && addedB H cb k cm) = false
            rw [hcmadd, Bool.and_false])
          (by
            intro r hr
            replace hr : ((fparent H r).isNone && addedB H cb k r) = true := hr
            rw [Bool.and_eq_true] at hr
            obtain ⟨hrn, hradd⟩ := hr
            have hradd0 := hradd
            unfold addedB at hradd
            rw [List.any_eq_true] at hradd
            obtain ⟨d, hdm, hdq⟩ := hradd
            rw [List.mem_range] at hdm
            rw [Bool.and_eq_true] at hdq
            have hrne : r ≠ cm := by
              intro h2
              rw [h2, hcmadd] at hradd0
              exact Bool.false_ne_true hradd0
            have hfeq : fparent H r = fparent H cm := by
              rw [hfcm]
              exact Option.isNone_iff_eq_none.mp hrn
            exact hsib r cm d k hk hfeq hrne hdq.2 hcmaos hdm)
        rw [hsplit, List.map_append]
        congr 1
        · rw [IR]
          apply List.map_congr_left
          intro r hr
          rw [List.mem_filter] at hr
          have hradd : addedB H cb k r = true := (Bool.and_eq_true .. |>.mp hr.2).2
          have hrC : r ∉ (upChainF H sm H.length k).map Prod.fst := fun h => by
            rw [((hchain_iff r).mp h).2] at hradd
            cases hradd
          rw [hget_old r hrC]
        · simp only [List.map_cons, List.map_nil]
          rw [hget_chain (((upChainF H sm H.length k).map Prod.fst).length - 1)
            cm hcmpos]
          simp only [Option.getD_some]
          have harith : so.length + (upChainF H sm H.length k).length - 1 =
              so.length + (((upChainF H sm H.length k).map Prod.fst).length - 1) := by
            rw [List.length_map]
            have h2 := hClen
            rw [List.length_map] at h2
            omega
          rw [harith]
      | some P =>
        rw [hlp] at hfcm
        unfold attachFinish
        dsimp only
        have hallsame : (List.range H.length).filter
            (fun r => (fparent H r).isNone && addedB H cb (k + 1) r) =
            (List.range H.length).filter
            (fun r => (fparent H r).isNone && addedB H cb k r) := by
          apply List.filter_congr
          intro r _
          show ((fparent H r).isNone && addedB H cb (k + 1) r)
            = ((fparent H r).isNone && addedB H cb k r)
          cases hfr : fparent H r with
          | some p => simp
          | none =>
            simp only [Option.isNone_none, Bool.true_and]
            rw [hAddSucc r]
            have hrC : r ∉ (upChainF H sm H.length k).map Prod.fst := by
              intro hrC
              rcases hmemC_par r hrC with rfl | ⟨c2, hfc2, _⟩
              · rw [hfcm] at hfr
                cases hfr
              · rw [hfc2] at hfr
                cases hfr
            have h2 : decide (r ∈ (upChainF H sm H.length k).map Prod.fst) = false :=
              decide_eq_false hrC
            rw [h2, Bool.or_false]
        cases hgP : mapGet sm P with
        | none =>
          dsimp only
          rw [hallsame, IR]
          apply List.map_congr_left
          intro r hr
          rw [List.mem_filter] at hr
          have hradd : addedB H cb k r = true := (Bool.and_eq_true .. |>.mp hr.2).2
          have hrC : r ∉ (upChainF H sm H.length k).map Prod.fst := fun h => by
            rw [((hchain_iff r).mp h).2] at hradd
            cases hradd
          rw [hget_old r hrC]
        | some oP =>
          dsimp only
          rw [hallsame, IR]
          apply List.map_congr_left
          intro r hr
          rw [List.mem_filter] at hr
          have hradd : addedB H cb k r = true := (Bool.and_eq_true .. |>.mp hr.2).2
          have hrC : r ∉ (upChainF H sm H.length k).map Prod.fst := fun h => by
            rw [((hchain_iff r).mp h).2] at hradd
            cases hradd
          rw [hget_old r hrC]
  · rw [if_neg hq]
    rw [Bool.not_eq_true] at hq
    have hA : ∀ x, addedB H cb (k + 1) x = addedB H cb k x := by
      intro x
      rw [addedB_succ, hq]
      simp
    refine ⟨rfl, ?_, ISd, IN, IV, ?_, ?_⟩
    · intro x
      dsimp only
      rw [hA x]
      exact IK x
    · intro x o nd h1 h2
      dsimp only at h1 h2 ⊢
      simp only [hA]
      exact IC x o nd h1 h2
    · dsimp only
      simp only [hA]
      exact IR

/-- The empty initial state satisfies the invariant at stage 0. -/
theorem searchInv_init {T K : Type} (H : List (Fiber T)) (cb : T → Bool)
    (tfm : T → Bool → Bool → K) : SearchInv H cb tfm 0 ⟨[], [], [], []⟩ := by
  refine ⟨rfl, fun x => rfl, rfl, List.nodup_nil, ?_, ?_, ?_⟩
  · intro x o hmem
    cases hmem
  · intro x o nd hmem hnd
    cases hmem
  · dsimp only
    rw [range_filter_empty H.length _ (by
      intro r hr
      show ((fparent H r).isNone && addedB H cb 0 r) = false
      rw [show addedB H cb 0 r = false from rfl, Bool.and_false])]
    rfl

/-- Folding the search step over the first `k` visits establishes the
invariant at stage `k`. -/
theorem searchFold_inv {T K : Type} (H : List (Fiber T)) (cb : T → Bool)
    (tfm : T → Bool → Bool → K) (hwf : WFparent H)
    (hsib : ∀ c c' a b, b < H.length →
      fparent H c = fparent H c' → c ≠ c' →
      ancOrSelf H c a = true → ancOrSelf H c' b = true → a < b → c < c') :
    ∀ k, k ≤ H.length →
      SearchInv H cb tfm k
        ((List.range k).foldl (searchStep H cb tfm) ⟨[], [], [], []⟩) := by
  intro k
  induction k with
  | zero => intro _; exact searchInv_init H cb tfm
  | succ k ih =>
    intro hk1
    rw [List.range_succ, List.foldl_append]
    simp only [List.foldl_cons, List.foldl_nil]
    exact searchStep_inv H cb tfm hwf hsib k _ (by omega) (ih (by omega))

/-- `useSearchTree` on a non-empty forest succeeds, and its result is the
fold of the search step over the pre-order visits of the flattened heap;
that state satisfies the search invariant at the final stage. -/
theorem useSearchTreeWith_inv {T K : Type} (F : List (TreeNode T)) (hF : F ≠ [])
    (cb : T → Bool) (tfm : T → Bool → Bool → K) :
    useSearchTreeWith F cb tfm = .ok (flattenForest 0 none F,
      (List.range (flattenForest 0 none F).length).foldl
        (searchStep (flattenForest 0 none F) cb tfm) ⟨[], [], [], []⟩) ∧
    SearchInv (flattenForest 0 none F) cb tfm (flattenForest 0 none F).length
      ((List.range (flattenForest 0 none F).length).foldl
        (searchStep (flattenForest 0 none F) cb tfm) ⟨[], [], [], []⟩) := by
  constructor
  · unfold useSearchTreeWith useSearchTreeCore
    rw [treeToFiber_eq_flatten F hF]
    dsimp only [Except.bind]
    rw [walk_flatten F hF]
    rfl
  · apply searchFold_inv _ cb tfm (WFparent_flatten F) ?_
      (flattenForest 0 none F).length (Nat.le_refl _)
    intro c c' a b hb hpar hne ha hb2 hab
    rw [flattenForest_length] at hb
    exact sibling_order F c c' a b hb hpar hne ha hb2 hab

/-- Reachability in the output graph: the node is a root of `searchTree`, or
a child (transitively) of a reachable node. -/
inductive ReachesOut {K : Type} (st : SearchTreeResult K) : Nat → Prop where
  | root (o : Nat) (h : o ∈ st.searchTree) : ReachesOut st o
  | step (po o : Nat) (nd : ONode K) (hpo : ReachesOut st po)
      (hnd : st.oheap[po]? = some nd) (h : o ∈ nd.children) : ReachesOut st o

/-- In an invariant state, every added fiber's output node is reachable from
`searchTree`. -/
theorem searchInv_reaches {T K : Type} (H : List (Fiber T)) (cb : T → Bool)
    (tfm : T → Bool → Bool → K) (hwf : WFparent H) (st : SearchTreeResult K)
    (hInv : SearchInv H cb tfm H.length st) :
    ∀ x, addedB H cb H.length x = true →
      ∃ o, mapGet st.addedFiberMap x = some o ∧ ReachesOut st o := by
  intro x
  induction x using Nat.strong_induction_on with
  | _ x ih =>
    intro hadd
    have h1 := hInv.added x
    rw [hadd] at h1
    obtain ⟨o, ho⟩ := Option.isSome_iff_exists.mp h1
    have hxn : x < H.length := addedB_mem_lt H hwf cb _ x hadd
    refine ⟨o, ho, ?_⟩
    cases hfp : fparent H x with
    | none =>
      apply ReachesOut.root
      rw [hInv.roots]
      apply List.mem_map.mpr
      refine ⟨x, ?_, by rw [ho]; rfl⟩
      rw [List.mem_filter, List.mem_range]
      refine ⟨hxn, ?_⟩
      rw [hfp, hadd]
      rfl
    | some p =>
      have hpx : p < x := fparent_lt H hwf hfp
      have hpanc : p ∈ ancChain H x := by
        rw [ancChain_eq H hwf x, hfp]
        exact List.mem_cons_self _ _
      have hpadd := addedB_anc H hwf cb _ x p hpanc hadd
      obtain ⟨op, hop, hreach⟩ := ih p hpx hpadd
      have hpmem : (p, op) ∈ st.addedFiberMap := mapGet_mem _ _ _ hop
      obtain ⟨fbp, ndp, _, hndp, _⟩ := hInv.val p op hpmem
      apply ReachesOut.step op o ndp hreach hndp
      rw [hInv.child p op ndp hpmem hndp]
      apply List.mem_map.mpr
      refine ⟨x, ?_, by rw [ho]; rfl⟩
      rw [List.mem_filter, List.mem_range]
      refine ⟨hxn, ?_⟩
      rw [hadd, decide_eq_true hfp]
      rfl

/-- Conversely, every node reachable from `searchTree` is the output node of
some key of the map. -/
theorem searchInv_reach_keyed {T K : Type} (H : List (Fiber T)) (cb : T → Bool)
    (tfm : T → Bool → Bool → K) (st : SearchTreeResult K)
    (hInv : SearchInv H cb tfm H.length st) :
    ∀ o, ReachesOut st o → ∃ x, mapGet st.addedFiberMap x = some o := by
  intro o hr
  induction hr with
  | root o h =>
    rw [hInv.roots] at h
    obtain ⟨r, hrf, hre⟩ := List.mem_map.mp h
    rw [List.mem_filter] at hrf
    have hradd : addedB H cb H.length r = true :=
      (Bool.and_eq_true .. |>.mp hrf.2).2
    have h2 := hInv.added r
    rw [hradd] at h2
    obtain ⟨orr, hor⟩ := Option.isSome_iff_exists.mp h2
    rw [hor] at hre
    exact ⟨r, by rw [hor]; rw [← hre]; rfl⟩
  | step po o nd hpo hnd hmem ih =>
    obtain ⟨x, hx⟩ := ih
    have hxmem := mapGet_mem _ _ _ hx
    rw [hInv.child x po nd hxmem hnd] at hmem
    obtain ⟨c, hcf, hce⟩ := List.mem_map.mp hmem
    rw [List.mem_filter] at hcf
    have hcadd : addedB H cb H.length c = true :=
      (Bool.and_eq_true .. |>.mp hcf.2).2
    have h2 := hInv.added c
    rw [hcadd] at h2
    obtain ⟨oc, hoc⟩ := Option.isSome_iff_exists.mp h2
    rw [hoc] at hce
    exact ⟨c, by rw [hoc]; rw [← hce]; rfl⟩

/-- Any two ancestors of the same fiber are comparable: one is an ancestor
of (or equal to) the other. -/
theorem ancChain_total {T : Type} (H : List (Fiber T)) (hwf : WFparent H) :
    ∀ d a b, a ∈ ancChain H d → b ∈ ancChain H d →
      a = b ∨ a ∈ ancChain H b ∨ b ∈ ancChain H a := by
  intro d
  induction d using Nat.strong_induction_on with
  | _ d ih =>
    intro a b ha hb
    rw [ancChain_eq H hwf d] at ha hb
    cases hfp : fparent H d with
    | none =>
      rw [hfp] at ha
      cases ha
    | some p =>
      rw [hfp] at ha hb
      have hpd : p < d := fparent_lt H hwf hfp
      rcases List.mem_cons.mp ha with rfl | ha2
      · rcases List.mem_cons.mp hb with rfl | hb2
        · exact Or.inl rfl
        · exact Or.inr (Or.inr hb2)
      · rcases List.mem_cons.mp hb with rfl | hb2
        · exact Or.inr (Or.inl ha2)
        · exact ih p hpd a b ha2 hb2

/-! ### Pre-order node lookup -/

/-- The payload of a tree node. -/
def TreeNode.label {T : Type} : TreeNode T → T
  | .mk d _ => d

/-- The node at pre-order position `j` of a forest. -/
def preNodeF {T : Type} : List (TreeNode T) → Nat → Option (TreeNode T)
  | [], _ => none
  | .mk d cs :: ts, j =>
    if j = 0 then some (.mk d cs)
    else if j < sizeT (.mk d cs) then preNodeF cs (j - 1)
    else preNodeF ts (j - sizeT (.mk d cs))
termination_by G _ => sizeF G
decreasing_by
  all_goals simp [sizeF, sizeT]
  all_goals omega

/-- The pre-order indices of the roots of a forest placed at `b`, each paired
with its tree. -/
def rootIdxT {T : Type} : Nat → List (TreeNode T) → List (Nat × TreeNode T)
  | _, [] => []
  | b, t :: ts => (b, t) :: rootIdxT (b + sizeT t) ts

theorem preNodeF_fits {T : Type} : ∀ (G : List (TreeNode T)) (j : Nat) (t : TreeNode T),
    preNodeF G j = some t → j + sizeT t ≤ sizeF G
  | [], j, t => by
    intro h
    rw [preNodeF] at h
    cases h
  | .mk d cs :: ts, j, t => by
    intro h
    rw [preNodeF] at h
    by_cases h0 : j = 0
    · rw [if_pos h0] at h
      injection h with h
      subst h0
      rw [← h]
      simp only [sizeF]
      omega
    · rw [if_neg h0] at h
      by_cases h1 : j < sizeT (.mk d cs)
      · rw [if_pos h1] at h
        have h2 := preNodeF_fits cs (j - 1) t h
        simp only [sizeF, sizeT] at h1 h2 ⊢
        omega
      · rw [if_neg h1] at h
        have h2 := preNodeF_fits ts (j - sizeT (.mk d cs)) t h
        simp only [sizeF, sizeT] at h1 h2 ⊢
        omega
termination_by G _ _ => sizeF G
decreasing_by
  all_goals simp [sizeF, sizeT]
  all_goals omega

theorem sizesF_preNode {T : Type} : ∀ (G : List (TreeNode T)) (j : Nat),
    (sizesF G)[j]? = (preNodeF G j).map sizeT
  | [], j => by
    rw [sizesF, preNodeF]
    simp
  | .mk d cs :: ts, j => by
    rw [sizesF, sizesT, preNodeF]
    by_cases h0 : j = 0
    · subst h0
      rw [if_pos rfl, List.cons_append, List.getElem?_cons_zero]
      rfl
    · rw [if_neg h0]
      obtain ⟨j2, rfl⟩ : ∃ j2, j = j2 + 1 := ⟨j - 1, by omega⟩
      rw [List.cons_append, List.getElem?_cons_succ]
      by_cases h1 : j2 + 1 < sizeT (.mk d cs)
      · rw [if_pos h1]
        rw [List.getElem?_append_left (by
          rw [sizesF_length]
          simp only [sizeT] at h1
          omega)]
        have h2 := sizesF_preNode cs j2
        rw [show j2 + 1 - 1 = j2 from by omega]
        exact h2
      · rw [if_neg h1]
        rw [List.getElem?_append_right (by
          rw [sizesF_length]
          simp only [sizeT] at h1
          omega)]
        have h2 := sizesF_preNode ts (j2 + 1 - sizeT (.mk d cs))
        rw [sizesF_length,
          show j2 - sizeF cs = j2 + 1 - sizeT (.mk d cs) from by
            simp only [sizeT]
            omega]
        exact h2
termination_by G _ => sizeF G
decreasing_by
  all_goals simp [sizeF, sizeT]
  all_goals omega

theorem preF_preNode {T : Type} : ∀ (G : List (TreeNode T)) (j : Nat),
    (preF G)[j]? = (preNodeF G j).map TreeNode.label
  | [], j => by
    rw [preF, preNodeF]
    simp
  | .mk d cs :: ts, j => by
    rw [preF, preT, preNodeF]
    by_cases h0 : j = 0
    · subst h0
      rw [if_pos rfl, List.cons_append, List.getElem?_cons_zero]
      rfl
    · rw [if_neg h0]
      obtain ⟨j2, rfl⟩ : ∃ j2, j = j2 + 1 := ⟨j - 1, by omega⟩
      rw [List.cons_append, List.getElem?_cons_succ]
      by_cases h1 : j2 + 1 < sizeT (.mk d cs)
      · rw [if_pos h1]
        rw [List.getElem?_append_left (by
          rw [preF_length cs ()]
          simp only [sizeT] at h1
          omega)]
        have h2 := preF_preNode cs j2
        rw [show j2 + 1 - 1 = j2 from by omega]
        exact h2
      · rw [if_neg h1]
        rw [List.getElem?_append_right (by
          rw [preF_length cs ()]
          simp only [sizeT] at h1
          omega)]
        have h2 := preF_preNode ts (j2 + 1 - sizeT (.mk d cs))
        rw [preF_length cs (),
          show j2 - sizeF cs = j2 + 1 - sizeT (.mk d cs) from by
            simp only [sizeT]
            omega]
        exact h2
termination_by G _ => sizeF G
decreasing_by
  all_goals simp [sizeF, sizeT]
  all_goals omega

/-- Positions inside a subtree, shifted past the subtree root, look up the
children forest. -/
theorem preNodeF_shift {T : Type} : ∀ (G : List (TreeNode T)) (j : Nat) (d : T)
    (cs : List (TreeNode T)), preNodeF G j = some (.mk d cs) →
    ∀ i, i < sizeF cs → preNodeF G (j + 1 + i) = preNodeF cs i
  | [], j, d, cs => by
    intro h
    rw [preNodeF] at h
    cases h
  | .mk d0 cs0 :: ts, j, d, cs => by
    intro h i hi
    rw [preNodeF] at h
    by_cases h0 : j = 0
    · rw [if_pos h0] at h
      injection h with h
      injection h with hd hc
      subst h0
      subst hc
      rw [preNodeF]
      rw [if_neg (by omega), if_pos (by simp only [sizeT]; omega)]
      rw [show 0 + 1 + i - 1 = i from by omega]
    · rw [if_neg h0] at h
      by_cases h1 : j < sizeT (.mk d0 cs0)
      · rw [if_pos h1] at h
        have hfit := preNodeF_fits cs0 (j - 1) _ h
        have hrec := preNodeF_shift cs0 (j - 1) d cs h i hi
        rw [preNodeF]
        have hlt : j + 1 + i < sizeT (.mk d0 cs0) := by
          simp only [sizeT] at hfit ⊢
          omega
        rw [if_neg (by omega), if_pos hlt,
          show j + 1 + i - 1 = j - 1 + 1 + i from by omega]
        exact hrec
      · rw [if_neg h1] at h
        have hrec := preNodeF_shift ts (j - sizeT (.mk d0 cs0)) d cs h i hi
        rw [preNodeF]
        rw [if_neg (by omega), if_neg (by omega),
          show j + 1 + i - sizeT (.mk d0 cs0)
            = j - sizeT (.mk d0 cs0) + 1 + i from by omega]
        exact hrec
termination_by G _ _ _ => sizeF G
decreasing_by
  all_goals simp [sizeF, sizeT]
  all_goals omega

theorem rootIdxT_mem {T : Type} : ∀ (G : List (TreeNode T)) (b p : Nat)
    (t : TreeNode T), (p, t) ∈ rootIdxT b G →
    b ≤ p ∧ preNodeF G (p - b) = some t := by
  intro G
  induction G with
  | nil =>
    intro b p t h
    rw [rootIdxT] at h
    cases h
  | cons t0 ts ih =>
    intro b p t h
    rw [rootIdxT] at h
    rcases List.mem_cons.mp h with heq | hmem
    · injection heq with h1 h2
      subst h1
      subst h2
      refine ⟨Nat.le_refl _, ?_⟩
      rw [Nat.sub_self]
      obtain ⟨d, cs⟩ := t
      rw [preNodeF, if_pos rfl]
    · obtain ⟨hle, hpre⟩ := ih (b + sizeT t0) p t hmem
      refine ⟨by omega, ?_⟩
      obtain ⟨d0, cs0⟩ := t0
      rw [preNodeF]
      have hst := sizeT_pos (TreeNode.mk d0 cs0)
      rw [if_neg (by omega), if_neg (by omega),
        show p - b - sizeT (.mk d0 cs0) = p - (b + sizeT (.mk d0 cs0)) from by omega]
      exact hpre

theorem rootIdxT_split {T : Type} : ∀ (G : List (TreeNode T)) (b c : Nat),
    b ≤ c → c < b + sizeF G →
    ∃ p t, (p, t) ∈ rootIdxT b G ∧ p ≤ c ∧ c < p + sizeT t := by
  intro G
  induction G with
  | nil =>
    intro b c h1 h2
    rw [sizeF] at h2
    omega
  | cons t0 ts ih =>
    intro b c h1 h2
    by_cases hc : c < b + sizeT t0
    · exact ⟨b, t0, by rw [rootIdxT]; exact List.mem_cons_self .., h1, hc⟩
    · rw [sizeF] at h2
      obtain ⟨p, t, hmem, hp1, hp2⟩ := ih (b + sizeT t0) c (by omega) (by omega)
      exact ⟨p, t, by rw [rootIdxT]; exact List.mem_cons_of_mem _ hmem, hp1, hp2⟩

theorem rootIdxT_parent {T : Type} : ∀ (G : List (TreeNode T))
    (Hh : List (Fiber T)) (b : Nat) (par : Option Nat), FiberRep Hh b par G →
    ∀ p t, (p, t) ∈ rootIdxT b G → ∃ fb, Hh[p]? = some fb ∧ fb.parent = par := by
  intro G
  induction G with
  | nil =>
    intro Hh b par _ p t h
    rw [rootIdxT] at h
    cases h
  | cons t0 ts ih =>
    intro Hh b par hrep p t h
    obtain ⟨d0, cs0⟩ := t0
    rw [FiberRep] at hrep
    obtain ⟨hhead, hcs, hrest⟩ := hrep
    rw [rootIdxT] at h
    rcases List.mem_cons.mp h with heq | hmem
    · injection heq with h1 h2
      subst h1
      exact ⟨_, hhead, rfl⟩
    · exact ih Hh (b + sizeT (.mk d0 cs0)) par hrest p t hmem

theorem rootIdxT_fst_bounds {T : Type} : ∀ (G : List (TreeNode T)) (b p : Nat)
    (t : TreeNode T), (p, t) ∈ rootIdxT b G →
    b ≤ p ∧ p + sizeT t ≤ b + sizeF G := by
  intro G
  induction G with
  | nil =>
    intro b p t h
    rw [rootIdxT] at h
    cases h
  | cons t0 ts ih =>
    intro b p t h
    rw [rootIdxT] at h
    rcases List.mem_cons.mp h with heq | hmem
    · injection heq with h1 h2
      subst h1
      subst h2
      simp only [sizeF]
      omega
    · have := ih (b + sizeT t0) p t hmem
      simp only [sizeF]
      omega

theorem rootIdxT_fst_sorted {T : Type} : ∀ (G : List (TreeNode T)) (b : Nat),
    ((rootIdxT b G).map Prod.fst).Pairwise (· < ·) := by
  intro G
  induction G with
  | nil =>
    intro b
    rw [rootIdxT]
    simp
  | cons t0 ts ih =>
    intro b
    rw [rootIdxT, List.map_cons, List.pairwise_cons]
    refine ⟨?_, ih (b + sizeT t0)⟩
    intro p hp
    obtain ⟨⟨p2, t2⟩, hm, hpe⟩ := List.mem_map.mp hp
    dsimp only at hpe
    subst hpe
    have h2 := (rootIdxT_fst_bounds ts (b + sizeT t0) p2 t2 hm).1
    have := sizeT_pos t0
    omega

/-- Navigating the structural invariant to the node at pre-order position
`j`: its fiber carries the node payload, and the invariant holds of its
children forest right after it, with it as parent. -/
theorem fiberRep_at {T : Type} : ∀ (G : List (TreeNode T)) (Hh : List (Fiber T))
    (b : Nat) (par : Option Nat), FiberRep Hh b par G →
    ∀ j d cs, preNodeF G j = some (.mk d cs) →
      (∃ fb, Hh[b + j]? = some fb ∧ fb.data = d) ∧
      FiberRep Hh (b + j + 1) (some (b + j)) cs
  | [], Hh, b, par => by
    intro _ j d cs h
    rw [preNodeF] at h
    cases h
  | .mk d0 cs0 :: ts, Hh, b, par => by
    intro hrep j d cs hpre
    rw [FiberRep] at hrep
    obtain ⟨hhead, hcs, hrest⟩ := hrep
    rw [preNodeF] at hpre
    by_cases h0 : j = 0
    · rw [if_pos h0] at hpre
      injection hpre with hpre
      injection hpre with hd hc
      subst h0
      subst hd
      subst hc
      simp only [Nat.add_zero]
      exact ⟨⟨_, hhead, rfl⟩, hcs⟩
    · rw [if_neg h0] at hpre
      by_cases h1 : j < sizeT (.mk d0 cs0)
      · rw [if_pos h1] at hpre
        have h2 := fiberRep_at cs0 Hh (b + 1) (some b) hcs (j - 1) d cs hpre
        rw [show b + 1 + (j - 1) = b + j from by omega] at h2
        exact h2
      · rw [if_neg h1] at hpre
        have h2 := fiberRep_at ts Hh (b + sizeT (.mk d0 cs0)) par hrest
          (j - sizeT (.mk d0 cs0)) d cs hpre
        rw [show b + sizeT (.mk d0 cs0) + (j - sizeT (.mk d0 cs0)) = b + j
          from by omega] at h2
        exact h2
termination_by G _ _ _ => sizeF G
decreasing_by
  all_goals simp [sizeF, sizeT]
  all_goals omega

/-- On the flattened heap, the fibers whose `parent` is the node at `j` are
exactly the roots of that node's children forest. -/
theorem children_iff {T : Type} (F : List (TreeNode T)) (j : Nat) (d : T)
    (cs : List (TreeNode T)) (hj : preNodeF F j = some (.mk d cs)) :
    ∀ c, c < sizeF F →
      (fparent (flattenForest 0 none F) c = some j ↔
        c ∈ (rootIdxT (j + 1) cs).map Prod.fst) := by
  have hwf := WFparent_flatten F
  have hrepF : FiberRep (flattenForest 0 none F) 0 none F :=
    seg_fiberRep F (flattenForest 0 none F) 0 none (flatten_seg F)
  have hnav := fiberRep_at F (flattenForest 0 none F) 0 none hrepF j d cs hj
  simp only [Nat.zero_add] at hnav
  obtain ⟨⟨fbj, hfbj, hfbd⟩, hrepcs⟩ := hnav
  intro c hc
  constructor
  · intro hfp
    have hjanc : j ∈ ancChain (flattenForest 0 none F) c := by
      rw [ancChain_eq _ hwf c, hfp]
      exact List.mem_cons_self _ _
    obtain ⟨s, hs, hjc, hcs2⟩ := (anc_iff_interval F j c hc).mp hjanc
    rw [sizesF_preNode, hj] at hs
    injection hs with hs
    obtain ⟨p, t, hmem, hp1, hp2⟩ := rootIdxT_split cs (j + 1) c (by omega)
      (by
        rw [← hs] at hcs2
        simp only [sizeT] at hcs2
        omega)
    by_cases hpc : p = c
    · subst hpc
      exact List.mem_map.mpr ⟨(p, t), hmem, rfl⟩
    · exfalso
      obtain ⟨hple, hppre⟩ := rootIdxT_mem cs (j + 1) p t hmem
      have hpreF : preNodeF F p = some t := by
        have h2 := preNodeF_shift F j d cs hj (p - (j + 1)) (by
          have h3 := preNodeF_fits cs (p - (j + 1)) t hppre
          have := sizeT_pos t
          omega)
        rw [show j + 1 + (p - (j + 1)) = p from by omega] at h2
        rw [h2]
        exact hppre
      have hpanc : p ∈ ancChain (flattenForest 0 none F) c := by
        apply (anc_iff_interval F p c hc).mpr
        refine ⟨sizeT t, ?_, by omega, hp2⟩
        rw [sizesF_preNode, hpreF]
        rfl
      rw [ancChain_eq _ hwf c, hfp] at hpanc
      rcases List.mem_cons.mp hpanc with h2 | h2
      · omega
      · have := ancChain_mem_lt _ hwf j p h2
        omega
  · intro hmemc
    obtain ⟨⟨p, t⟩, hmem, hpe⟩ := List.mem_map.mp hmemc
    dsimp only at hpe
    subst hpe
    obtain ⟨fb, hfb, hfbp⟩ := rootIdxT_parent cs _ (j + 1) (some j) hrepcs p t hmem
    unfold fparent
    rw [hfb]
    exact hfbp

/-- The fibers with no `parent` are exactly the top-level roots. -/
theorem roots_iff {T : Type} (F : List (TreeNode T)) :
    ∀ c, c < sizeF F →
      (fparent (flattenForest 0 none F) c = none ↔
        c ∈ (rootIdxT 0 F).map Prod.fst) := by
  have hwf := WFparent_flatten F
  have hrepF : FiberRep (flattenForest 0 none F) 0 none F :=
    seg_fiberRep F (flattenForest 0 none F) 0 none (flatten_seg F)
  intro c hc
  constructor
  · intro hfp
    obtain ⟨p, t, hmem, hp1, hp2⟩ := rootIdxT_split F 0 c (Nat.zero_le c)
      (by omega)
    by_cases hpc : p = c
    · subst hpc
      exact List.mem_map.mpr ⟨(p, t), hmem, rfl⟩
    · exfalso
      obtain ⟨_, hppre⟩ := rootIdxT_mem F 0 p t hmem
      rw [Nat.sub_zero] at hppre
      have hpanc : p ∈ ancChain (flattenForest 0 none F) c :=
        (anc_iff_interval F p c hc).mpr ⟨sizeT t,
          by rw [sizesF_preNode, hppre]; rfl, by omega, hp2⟩
      rw [ancChain_eq _ hwf c, hfp] at hpanc
      cases hpanc
  · intro hmemc
    obtain ⟨⟨p, t⟩, hmem, hpe⟩ := List.mem_map.mp hmemc
    dsimp only at hpe
    subst hpe
    obtain ⟨fb, hfb, hfbp⟩ := rootIdxT_parent F _ 0 none hrepF p t hmem
    unfold fparent
    rw [hfb]
    exact hfbp

/-- Filtering a range by membership in a sorted list of smaller numbers
recovers the list. -/
theorem range_filter_mem : ∀ (n : Nat) (L : List Nat), L.Pairwise (· < ·) →
    (∀ c ∈ L, c < n) → (List.range n).filter (fun c => decide (c ∈ L)) = L := by
  intro n
  induction n with
  | zero =>
    intro L hs hlt
    cases L with
    | nil => rfl
    | cons a as => exact absurd (hlt a (List.mem_cons_self ..)) (by omega)
  | succ n ih =>
    intro L hs hlt
    rw [List.range_succ, List.filter_append]
    by_cases hn : n ∈ L
    · obtain ⟨A, B, hAB⟩ := List.append_of_mem hn
      have hB : B = [] := by
        cases B with
        | nil => rfl
        | cons b bs =>
          exfalso
          have hsplit := List.pairwise_append.mp (hAB ▸ hs)
          have hnb : n < b :=
            (List.pairwise_cons.mp hsplit.2.1).1 b (List.mem_cons_self ..)
          have hbn : b < n + 1 := hlt b (by
            rw [hAB]
            exact List.mem_append_right _ (List.mem_cons_of_mem _
              (List.mem_cons_self ..)))
          omega
      subst hB
      have hsplit := List.pairwise_append.mp (hAB ▸ hs)
      have hA_s : A.Pairwise (· < ·) := hsplit.1
      have hA_lt : ∀ c ∈ A, c < n := by
        intro c hcA
        exact hsplit.2.2 c hcA n (List.mem_cons_self ..)
      have he1 : (List.range n).filter (fun c => decide (c ∈ L)) =
          (List.range n).filter (fun c => decide (c ∈ A)) := by
        apply List.filter_congr
        intro c hcr
        rw [List.mem_range] at hcr
        rw [decide_eq_decide, hAB]
        constructor
        · intro h
          rcases List.mem_append.mp h with h | h
          · exact h
          · rcases List.mem_cons.mp h with rfl | h
            · omega
            · cases h
        · intro h
          exact List.mem_append_left _ h
      rw [he1, ih A hA_s hA_lt]
      have he2 : List.filter (fun c => decide (c ∈ L)) [n] = [n] := by
        simp [List.filter_cons, hn]
      rw [he2, hAB]
    · have he2 : List.filter (fun c => decide (c ∈ L)) [n] = [] := by
        simp [List.filter_cons, hn]
      rw [he2, List.append_nil]
      apply ih L hs
      intro c hcL
      have h1 := hlt c hcL
      have h2 : c ≠ n := fun h => hn (h ▸ hcL)
      omega

/-! ### Resolving the reconstructed tree -/

mutual

/-- Re-labels a tree sitting at pre-order position `j` with values drawn
from a per-position value function. -/
def reValT {T K : Type} (vf : Nat → K) : TreeNode T → Nat → TreeNode K
  | .mk _ cs, j => .mk (vf j) (reValF vf cs (j + 1))

def reValF {T K : Type} (vf : Nat → K) : List (TreeNode T) → Nat → List (TreeNode K)
  | [], _ => []
  | t :: ts, b => reValT vf t b :: reValF vf ts (b + sizeT t)

end

mutual

/-- The shape of a tree: payloads erased. -/
def shapeT {T : Type} : TreeNode T → TreeNode Unit
  | .mk _ cs => .mk () (shapeF cs)

def shapeF {T : Type} : List (TreeNode T) → List (TreeNode Unit)
  | [] => []
  | t :: ts => shapeT t :: shapeF ts

end

mutual

theorem shape_reValT {T K : Type} (vf : Nat → K) :
    ∀ (t : TreeNode T) (j : Nat), shapeT (reValT vf t j) = shapeT t
  | .mk d cs, j => by
    rw [reValT, shapeT, shapeT]
    rw [shape_reValF vf cs (j + 1)]

theorem shape_reValF {T K : Type} (vf : Nat → K) :
    ∀ (G : List (TreeNode T)) (b : Nat), shapeF (reValF vf G b) = shapeF G
  | [], b => by
    rw [reValF]
    rfl
  | t :: ts, b => by
    rw [reValF, shapeF, shapeF]
    rw [shape_reValT vf t b, shape_reValF vf ts (b + sizeT t)]

end

mutual

/-- Re-labelling with the original payloads is the identity. -/
theorem reVal_selfT {T : Type} (F : List (TreeNode T)) (vf : Nat → T)
    (hvf : ∀ j t, preNodeF F j = some t → vf j = TreeNode.label t) :
    ∀ (t : TreeNode T) (j : Nat), preNodeF F j = some t → reValT vf t j = t
  | .mk d cs, j => by
    intro hpre
    rw [reValT]
    have hd : vf j = d := by
      have h2 := hvf j _ hpre
      rw [h2]
      rfl
    rw [hd]
    have hcs : reValF vf cs (j + 1) = cs := by
      apply reVal_selfF F vf hvf cs (j + 1)
      intro p t2 hm
      obtain ⟨hle, hpre2⟩ := rootIdxT_mem cs (j + 1) p t2 hm
      have h2 := preNodeF_shift F j d cs hpre (p - (j + 1)) (by
        have h3 := preNodeF_fits cs (p - (j + 1)) t2 hpre2
        have := sizeT_pos t2
        omega)
      rw [show j + 1 + (p - (j + 1)) = p from by omega] at h2
      rw [h2]
      exact hpre2
    rw [hcs]

theorem reVal_selfF {T : Type} (F : List (TreeNode T)) (vf : Nat → T)
    (hvf : ∀ j t, preNodeF F j = some t → vf j = TreeNode.label t) :
    ∀ (G : List (TreeNode T)) (b : Nat),
      (∀ p t2, (p, t2) ∈ rootIdxT b G → preNodeF F p = some t2) →
      reValF vf G b = G
  | [], b => by
    intro _
    rw [reValF]
  | t :: ts, b => by
    intro hroots
    rw [reValF]
    have h1 := reVal_selfT F vf hvf t b
      (hroots b t (by rw [rootIdxT]; exact List.mem_cons_self ..))
    have h2 := reVal_selfF F vf hvf ts (b + sizeT t)
      (fun p t2 hm => hroots p t2 (by
        rw [rootIdxT]
        exact List.mem_cons_of_mem _ hm))
    rw [h1, h2]

end

/-- Resolving the output node of the fiber at pre-order position `j`
recovers the node's subtree, re-labelled through the value function. -/
theorem resolve_reVal {T K : Type} (F : List (TreeNode T)) (cb : T → Bool)
    (tfm : T → Bool → Bool → K) (st : SearchTreeResult K)
    (hInv : SearchInv (flattenForest 0 none F) cb tfm
      (flattenForest 0 none F).length st)
    (hall : ∀ x, x < (flattenForest 0 none F).length →
      addedB (flattenForest 0 none F) cb (flattenForest 0 none F).length x = true)
    (vf : Nat → K)
    (hvf : ∀ x o nd, (x, o) ∈ st.addedFiberMap → st.oheap[o]? = some nd →
      nd.value = vf x) :
    ∀ (fuel : Nat) (t : TreeNode T) (j : Nat), sizeT t ≤ fuel →
      preNodeF F j = some t →
      resolveNode st.oheap fuel ((mapGet st.addedFiberMap j).getD 0) =
        some (reValT vf t j) := by
  intro fuel
  induction fuel with
  | zero =>
    intro t j hft
    have := sizeT_pos t
    omega
  | succ f ihf =>
    intro t j hft hpre
    obtain ⟨d, cs⟩ := t
    have hn : j < sizeF F := by
      have h1 := preNodeF_fits F j _ hpre
      have h2 := sizeT_pos (TreeNode.mk d cs)
      omega
    have hnH : j < (flattenForest 0 none F).length := by
      rw [flattenForest_length]
      exact hn
    have hadd := hall j hnH
    have h1 := hInv.added j
    rw [hadd] at h1
    obtain ⟨o, ho⟩ := Option.isSome_iff_exists.mp h1
    have hmem := mapGet_mem _ _ _ ho
    obtain ⟨fb, nd, hfb, hnd, _⟩ := hInv.val j o hmem
    rw [ho]
    simp only [Option.getD_some]
    rw [resolveNode, hnd]
    dsimp only
    have hch := hInv.child j o nd hmem hnd
    have hfilters : (List.range (flattenForest 0 none F).length).filter
        (fun c => decide (fparent (flattenForest 0 none F) c = some j)
          && addedB (flattenForest 0 none F) cb (flattenForest 0 none F).length c) =
        (rootIdxT (j + 1) cs).map Prod.fst := by
      have he1 : (List.range (flattenForest 0 none F).length).filter
          (fun c => decide (fparent (flattenForest 0 none F) c = some j)
            && addedB (flattenForest 0 none F) cb
              (flattenForest 0 none F).length c) =
          (List.range (flattenForest 0 none F).length).filter
          (fun c => decide (c ∈ (rootIdxT (j + 1) cs).map Prod.fst)) := by
        apply List.filter_congr
        intro c hcr
        rw [List.mem_range] at hcr
        show (decide (fparent (flattenForest 0 none F) c = some j)
          && addedB (flattenForest 0 none F) cb
            (flattenForest 0 none F).length c)
          = decide (c ∈ (rootIdxT (j + 1) cs).map Prod.fst)
        rw [hall c hcr, Bool.and_true, decide_eq_decide]
        exact children_iff F j d cs hpre c (by
          rw [flattenForest_length] at hcr
          exact hcr)
      rw [he1]
      apply range_filter_mem
      · exact rootIdxT_fst_sorted cs (j + 1)
      · intro c hcm
        obtain ⟨⟨p, t2⟩, hm, hpe⟩ := List.mem_map.mp hcm
        dsimp only at hpe
        subst hpe
        have h2 := rootIdxT_fst_bounds cs (j + 1) p t2 hm
        have hfit := preNodeF_fits F j _ hpre
        rw [flattenForest_length]
        have h3 := sizeT_pos t2
        simp only [sizeT] at hfit
        omega
    rw [hch, hfilters, List.map_map]
    have hforest : ∀ (G : List (TreeNode T)) (b : Nat),
        (∀ p t2, (p, t2) ∈ rootIdxT b G → preNodeF F p = some t2) →
        sizeF G ≤ f →
        ((rootIdxT b G).map ((fun c => (mapGet st.addedFiberMap c).getD 0)
            ∘ Prod.fst)).mapM (resolveNode st.oheap f) = some (reValF vf G b) := by
      intro G
      induction G with
      | nil =>
        intro b _ _
        rw [rootIdxT]
        rfl
      | cons t0 ts ihG =>
        intro b hroots hsz
        rw [rootIdxT, List.map_cons, List.mapM_cons]
        have hhead := ihf t0 b (by
            simp only [sizeF] at hsz
            have := sizeT_pos t0
            omega)
          (hroots b t0 (by rw [rootIdxT]; exact List.mem_cons_self ..))
        simp only [Function.comp_apply]
        rw [hhead]
        rw [ihG (b + sizeT t0)
          (fun p t2 hm => hroots p t2 (by
            rw [rootIdxT]
            exact List.mem_cons_of_mem _ hm))
          (by simp only [sizeF] at hsz; omega)]
        rw [reValF]
        rfl
    rw [hforest cs (j + 1)
      (by
        intro p t2 hm
        obtain ⟨hle, hpre2⟩ := rootIdxT_mem cs (j + 1) p t2 hm
        have h2 := preNodeF_shift F j d cs hpre (p - (j + 1)) (by
          have h3 := preNodeF_fits cs (p - (j + 1)) t2 hpre2
          have := sizeT_pos t2
          omega)
        rw [show j + 1 + (p - (j + 1)) = p from by omega] at h2
        rw [h2]
        exact hpre2)
      (by simp only [sizeT] at hft; omega)]
    rw [hvf j o nd hmem hnd]
    rw [reValT]
    rfl

theorem resolve_reVal_forest {T K : Type} (F : List (TreeNode T)) (cb : T → Bool)
    (tfm : T → Bool → Bool → K) (st : SearchTreeResult K)
    (hInv : SearchInv (flattenForest 0 none F) cb tfm
      (flattenForest 0 none F).length st)
    (hall : ∀ x, x < (flattenForest 0 none F).length →
      addedB (flattenForest 0 none F) cb (flattenForest 0 none F).length x = true)
    (vf : Nat → K)
    (hvf : ∀ x o nd, (x, o) ∈ st.addedFiberMap → st.oheap[o]? = some nd →
      nd.value = vf x) :
    ∀ (fuel : Nat) (G : List (TreeNode T)) (b : Nat),
      (∀ p t2, (p, t2) ∈ rootIdxT b G → preNodeF F p = some t2) →
      (∀ p t2, (p, t2) ∈ rootIdxT b G → sizeT t2 ≤ fuel) →
      ((rootIdxT b G).map ((fun c => (mapGet st.addedFiberMap c).getD 0)
          ∘ Prod.fst)).mapM (resolveNode st.oheap fuel) = some (reValF vf G b) := by
  intro fuel G
  induction G with
  | nil =>
    intro b _ _
    rw [rootIdxT]
    rfl
  | cons t0 ts ihG =>
    intro b hroots hsz
    rw [rootIdxT, List.map_cons, List.mapM_cons]
    have hmem0 : (b, t0) ∈ rootIdxT b (t0 :: ts) := by
      rw [rootIdxT]
      exact List.mem_cons_self ..
    have hhead := resolve_reVal F cb tfm st hInv hall vf hvf fuel t0 b
      (hsz b t0 hmem0) (hroots b t0 hmem0)
    simp only [Function.comp_apply]
    rw [hhead]
    rw [ihG (b + sizeT t0)
      (fun p t2 hm => hroots p t2 (by
        rw [rootIdxT]
        exact List.mem_cons_of_mem _ hm))
      (fun p t2 hm => hsz p t2 (by
        rw [rootIdxT]
        exact List.mem_cons_of_mem _ hm))]
    rw [reValF]
    rfl

/-- When every fiber is added, the output store has at least one node per
fiber. -/
theorem searchInv_oheap_length {T K : Type} (F : List (TreeNode T)) (cb : T → Bool)
    (tfm : T → Bool → Bool → K) (st : SearchTreeResult K)
    (hInv : SearchInv (flattenForest 0 none F) cb tfm
      (flattenForest 0 none F).length st)
    (hall : ∀ x, x < (flattenForest 0 none F).length →
      addedB (flattenForest 0 none F) cb (flattenForest 0 none F).length x = true) :
    sizeF F ≤ st.oheap.length := by
  have hcov : List.range (sizeF F) ⊆ st.addedFiberMap.map Prod.fst := by
    intro x hx
    rw [List.mem_range] at hx
    have h1 := hInv.added x
    rw [hall x (by rw [flattenForest_length]; exact hx)] at h1
    rw [← mapGet_isSome_iff]
    exact h1
  have hsub := List.subperm_of_subset (List.nodup_range _) hcov
  have hlen := List.Subperm.length_le hsub
  rw [List.length_range, List.length_map] at hlen
  have h2 : st.addedFiberMap.length = st.oheap.length := by
    have h3 := congrArg List.length hInv.snd
    rw [List.length_map, List.length_reverse, List.length_range] at h3
    exact h3
  omega

/-- Resolving the final `searchTree` yields the whole input forest,
re-labelled through the value function. -/
theorem resolveRoots_reVal {T K : Type} (F : List (TreeNode T)) (cb : T → Bool)
    (tfm : T → Bool → Bool → K) (st : SearchTreeResult K)
    (hInv : SearchInv (flattenForest 0 none F) cb tfm
      (flattenForest 0 none F).length st)
    (hall : ∀ x, x < (flattenForest 0 none F).length →
      addedB (flattenForest 0 none F) cb (flattenForest 0 none F).length x = true)
    (vf : Nat → K)
    (hvf : ∀ x o nd, (x, o) ∈ st.addedFiberMap → st.oheap[o]? = some nd →
      nd.value = vf x) :
    resolveRoots st = some (reValF vf F 0) := by
  unfold resolveRoots
  have hst : st.searchTree = ((rootIdxT 0 F).map Prod.fst).map
      (fun c => (mapGet st.addedFiberMap c).getD 0) := by
    rw [hInv.roots]
    congr 1
    have he1 : (List.range (flattenForest 0 none F).length).filter
        (fun r => (fparent (flattenForest 0 none F) r).isNone
          && addedB (flattenForest 0 none F) cb
            (flattenForest 0 none F).length r) =
        (List.range (flattenForest 0 none F).length).filter
        (fun r => decide (r ∈ (rootIdxT 0 F).map Prod.fst)) := by
      apply List.filter_congr
      intro r hrr
      rw [List.mem_range] at hrr
      show ((fparent (flattenForest 0 none F) r).isNone
          && addedB (flattenForest 0 none F) cb
            (flattenForest 0 none F).length r)
        = decide (r ∈ (rootIdxT 0 F).map Prod.fst)
      rw [hall r hrr, Bool.and_true]
      rw [show (fparent (flattenForest 0 none F) r).isNone
          = decide (fparent (flattenForest 0 none F) r = none) from by
        cases h : fparent (flattenForest 0 none F) r <;> simp [h]]
      rw [decide_eq_decide]
      exact roots_iff F r (by rw [flattenForest_length] at hrr; exact hrr)
    rw [he1]
    apply range_filter_mem
    · exact rootIdxT_fst_sorted F 0
    · intro c hcm
      obtain ⟨⟨p, t2⟩, hm, hpe⟩ := List.mem_map.mp hcm
      dsimp only at hpe
      subst hpe
      have h2 := rootIdxT_fst_bounds F 0 p t2 hm
      have h3 := sizeT_pos t2
      rw [flattenForest_length]
      omega
  rw [hst, List.map_map]
  apply resolve_reVal_forest F cb tfm st hInv hall vf hvf
  · intro p t2 hm
    have h2 := (rootIdxT_mem F 0 p t2 hm).2
    rw [Nat.sub_zero] at h2
    exact h2
  · intro p t2 hm
    have h2 := rootIdxT_fst_bounds F 0 p t2 hm
    have h3 := searchInv_oheap_length F cb tfm st hInv hall
    omega

/-- In an invariant state, every output node is referenced exactly once:
the concatenation of `searchTree` and all `children` arrays repeats no
index. -/
theorem searchInv_attach_nodup {T K : Type} (H : List (Fiber T)) (cb : T → Bool)
    (tfm : T → Bool → Bool → K) (st : SearchTreeResult K)
    (hInv : SearchInv H cb tfm H.length st) :
    (st.searchTree ++ (st.oheap.map ONode.children).flatten).Nodup := by
  -- distinct added fibers have distinct output indices
  have hVInj : ∀ c c2, addedB H cb H.length c = true →
      addedB H cb H.length c2 = true →
      (mapGet st.addedFiberMap c).getD 0 = (mapGet st.addedFiberMap c2).getD 0 →
      c = c2 := by
    intro c c2 hc hc2 he
    have h1 := hInv.added c
    rw [hc] at h1
    obtain ⟨oc, hoc⟩ := Option.isSome_iff_exists.mp h1
    have h2 := hInv.added c2
    rw [hc2] at h2
    obtain ⟨oc2, hoc2⟩ := Option.isSome_iff_exists.mp h2
    rw [hoc, hoc2] at he
    simp only [Option.getD_some] at he
    subst he
    exact map_snd_inj st.addedFiberMap st.oheap.length hInv.snd c c2 oc
      (mapGet_mem _ _ _ hoc) (mapGet_mem _ _ _ hoc2)
  -- every output index is the image of a key
  have hkeyed : ∀ o, o < st.oheap.length → ∃ x, (x, o) ∈ st.addedFiberMap := by
    intro o ho
    have h1 : o ∈ st.addedFiberMap.map Prod.snd := by
      rw [hInv.snd, List.mem_reverse, List.mem_range]
      exact ho
    obtain ⟨e, he, hee⟩ := List.mem_map.mp h1
    exact ⟨e.1, by rw [show (e.1, o) = e from by rw [← hee]]; exact he⟩
  -- members of the root/child filters are added
  have hfiltadd : ∀ (q : Nat → Bool) (c : Nat),
      c ∈ (List.range H.length).filter
        (fun c => q c && addedB H cb H.length c) →
      addedB H cb H.length c = true := by
    intro q c hc
    rw [List.mem_filter] at hc
    exact (Bool.and_eq_true .. |>.mp hc.2).2
  -- `searchTree` has no duplicates
  have hST : st.searchTree.Nodup := by
    rw [hInv.roots]
    apply List.Nodup.map_on
    · intro c hc c2 hc2 he
      exact hVInj c c2 (hfiltadd _ c hc) (hfiltadd _ c2 hc2) he
    · exact (List.nodup_range _).filter _
  -- each children array has no duplicates
  have hCH : ∀ L ∈ st.oheap.map ONode.children, L.Nodup := by
    intro L hL
    obtain ⟨nd, hnd, hLe⟩ := List.mem_map.mp hL
    obtain ⟨o, ho, hoe⟩ := List.mem_iff_getElem.mp hnd
    obtain ⟨x, hx⟩ := hkeyed o ho
    have hnd2 : st.oheap[o]? = some nd := by
      rw [List.getElem?_eq_getElem ho, hoe]
    have hch := hInv.child x o nd hx hnd2
    rw [← hLe, hch]
    apply List.Nodup.map_on
    · intro c hc c2 hc2 he
      exact hVInj c c2 (hfiltadd _ c hc) (hfiltadd _ c2 hc2) he
    · exact (List.nodup_range _).filter _
  -- distinct nodes have disjoint children arrays
  have hpair : List.Pairwise List.Disjoint (st.oheap.map ONode.children) := by
    rw [List.pairwise_iff_getElem]
    intro i j hi hj hij
    rw [List.length_map] at hi hj
    obtain ⟨x, hx⟩ := hkeyed i hi
    obtain ⟨y, hy⟩ := hkeyed j hj
    have hndi : st.oheap[i]? = some st.oheap[i] := List.getElem?_eq_getElem hi
    have hndj : st.oheap[j]? = some st.oheap[j] := List.getElem?_eq_getElem hj
    have hchi := hInv.child x i _ hx hndi
    have hchj := hInv.child y j _ hy hndj
    intro v hvi hvj
    rw [List.getElem_map] at hvi hvj
    rw [hchi] at hvi
    rw [hchj] at hvj
    obtain ⟨c, hc, hce⟩ := List.mem_map.mp hvi
    obtain ⟨c2, hc2, hce2⟩ := List.mem_map.mp hvj
    have hcc : c = c2 := by
      apply hVInj c c2 (hfiltadd _ c hc) (hfiltadd _ c2 hc2)
      rw [hce, hce2]
    subst hcc
    rw [List.mem_filter] at hc hc2
    have h1 : fparent H c = some x :=
      of_decide_eq_true (Bool.and_eq_true .. |>.mp hc.2).1
    have h2 : fparent H c = some y :=
      of_decide_eq_true (Bool.and_eq_true .. |>.mp hc2.2).1
    rw [h1] at h2
    injection h2 with h2
    subst h2
    have h3 := mapGet_of_mem_nodup _ _ _ hInv.fstnd hx
    have h4 := mapGet_of_mem_nodup _ _ _ hInv.fstnd hy
    rw [h3] at h4
    injection h4 with h4
    omega
  refine List.Nodup.append hST (List.nodup_flatten.mpr ⟨hCH, hpair⟩) ?_
  -- a root index never occurs in a children array
  intro v hvS hvJ
  rw [hInv.roots] at hvS
  obtain ⟨r, hr, hre⟩ := List.mem_map.mp hvS
  obtain ⟨L, hL, hvL⟩ := List.mem_flatten.mp hvJ
  obtain ⟨nd, hnd, hLe⟩ := List.mem_map.mp hL
  obtain ⟨o, ho, hoe⟩ := List.mem_iff_getElem.mp hnd
  obtain ⟨x, hx⟩ := hkeyed o ho
  have hnd2 : st.oheap[o]? = some nd := by
    rw [List.getElem?_eq_getElem ho, hoe]
  have hch := hInv.child x o nd hx hnd2
  rw [← hLe, hch] at hvL
  obtain ⟨c, hc, hce⟩ := List.mem_map.mp hvL
  have hrc : r = c := by
    apply hVInj r c (hfiltadd _ r hr) (hfiltadd _ c hc)
    rw [hre, hce]
  subst hrc
  rw [List.mem_filter] at hr hc
  have h1 : (fparent H r).isNone = true := (Bool.and_eq_true .. |>.mp hr.2).1
  have h2 : fparent H r = some x :=
    of_decide_eq_true (Bool.and_eq_true .. |>.mp hc.2).1
  rw [h2] at h1
  cases h1


end SodaHooks

namespace SodaHooks

/-! ### Decidable equality of trees -/

mutual

def TreeNode.beq {T : Type} [DecidableEq T] : TreeNode T → TreeNode T → Bool
  | .mk d1 cs1, .mk d2 cs2 => decide (d1 = d2) && TreeNode.beqL cs1 cs2

def TreeNode.beqL {T : Type} [DecidableEq T] : List (TreeNode T) → List (TreeNode T) → Bool
  | [], [] => true
  | a :: as, b :: bs => TreeNode.beq a b && TreeNode.beqL as bs
  | _, _ => false

end

mutual

theorem TreeNode.beq_iff {T : Type} [DecidableEq T] :
    ∀ (a b : TreeNode T), (TreeNode.beq a b = true) ↔ a = b
  | .mk d1 cs1, .mk d2 cs2 => by
    rw [TreeNode.beq]
    simp only [Bool.and_eq_true, decide_eq_true_eq]
    rw [TreeNode.beqL_iff cs1 cs2]
    constructor
    · rintro ⟨h1, h2⟩
      rw [h1, h2]
    · intro h
      injection h with h1 h2
      exact ⟨h1, h2⟩

theorem TreeNode.beqL_iff {T : Type} [DecidableEq T] :
    ∀ (as bs : List (TreeNode T)), (TreeNode.beqL as bs = true) ↔ as = bs
  | [], [] => by simp [TreeNode.beqL]
  | [], _ :: _ => by simp [TreeNode.beqL]
  | _ :: _, [] => by simp [TreeNode.beqL]
  | a :: as, b :: bs => by
    rw [TreeNode.beqL]
    simp only [Bool.and_eq_true]
    rw [TreeNode.beq_iff a b, TreeNode.beqL_iff as bs]
    constructor
    · rintro ⟨h1, h2⟩
      rw [h1, h2]
    · intro h
      injection h with h1 h2
      exact ⟨h1, h2⟩

end

instance {T : Type} [DecidableEq T] : DecidableEq (TreeNode T) :=
  fun a b => decidable_of_iff _ (TreeNode.beq_iff a b)

theorem isSome_false_eq_none {α : Type} (o : Option α) (h : o.isSome = false) :
    o = none := by
  cases o with
  | none => rfl
  | some a => simp at h

/-! ### The claims -/

/-- C1: walking the fiber built by `treeToFiber` from a non-empty forest
visits exactly the nodes of the forest, each exactly once, in depth-first
pre-order: the visit list is the index range of the heap, and the heap's
fibers carry the pre-order payload listing of the forest. -/
theorem claimC1 {T : Type} (F : List (TreeNode T)) (hF : F ≠ []) :
    ∃ H : List (Fiber T),
      treeToFiber F = .ok (H, 0) ∧
      walkThroughFiber H 0 = .ok (List.range (sizeF F)) ∧
      H.length = sizeF F ∧
      H.map Fiber.data = preF F := by
  refine ⟨flattenForest 0 none F, treeToFiber_eq_flatten F hF, ?_,
    flattenForest_length F 0 none, flattenForest_map_data F 0 none⟩
  have h := walk_flatten F hF
  rw [flattenForest_length] at h
  exact h

theorem claimC1_witness :
    ∃ H : List (Fiber Nat),
      treeToFiber [TreeNode.mk 0 [TreeNode.mk 1 []], TreeNode.mk 2 []] = .ok (H, 0) ∧
      walkThroughFiber H 0 =
        .ok (List.range (sizeF [TreeNode.mk 0 [TreeNode.mk 1 []], TreeNode.mk 2 []])) ∧
      H.length = sizeF [TreeNode.mk 0 [TreeNode.mk 1 []], TreeNode.mk 2 []] ∧
      H.map Fiber.data = preF [TreeNode.mk 0 [TreeNode.mk 1 []], TreeNode.mk 2 []] :=
  claimC1 [TreeNode.mk 0 [TreeNode.mk 1 []], TreeNode.mk 2 []] (by decide)

/-- C2: ancestor-inclusion law.  If fiber `x` matches and `y` is a strict
descendant of `x`, then `y` is keyed in the final map, its output node is
reachable from `searchTree`, and its value is the transform applied with
`hasParentIsTrue = true`. -/
theorem claimC2 {T K : Type} (F : List (TreeNode T)) (hF : F ≠ [])
    (cb : T → Bool) (tfm : T → Bool → Bool → K) (x y : Nat)
    (hy : y < (flattenForest 0 none F).length)
    (hmat : matB (flattenForest 0 none F) cb x = true)
    (hdesc : x ∈ ancChain (flattenForest 0 none F) y) :
    ∃ st, useSearchTreeWith F cb tfm = .ok (flattenForest 0 none F, st) ∧
      ∃ fb o nd, (flattenForest 0 none F)[y]? = some fb ∧
        mapGet st.addedFiberMap y = some o ∧
        ReachesOut st o ∧
        st.oheap[o]? = some nd ∧
        nd.value = tfm fb.data (matB (flattenForest 0 none F) cb y) true := by
  obtain ⟨hok, hInv⟩ := useSearchTreeWith_inv F hF cb tfm
  have hwf := WFparent_flatten F
  refine ⟨_, hok, ?_⟩
  have hanc : ancMatB (flattenForest 0 none F) cb y = true := by
    unfold ancMatB
    rw [List.any_eq_true]
    exact ⟨x, hdesc, hmat⟩
  have hadd : addedB (flattenForest 0 none F) cb
      (flattenForest 0 none F).length y = true := by
    unfold addedB
    rw [List.any_eq_true]
    refine ⟨y, List.mem_range.mpr hy, ?_⟩
    rw [Bool.and_eq_true]
    refine ⟨?_, by unfold ancOrSelf; simp⟩
    unfold qualB
    rw [hanc, Bool.or_true]
  obtain ⟨o, ho, hreach⟩ := searchInv_reaches _ cb tfm hwf _ hInv y hadd
  obtain ⟨fb, nd, hfb, hnd, hval⟩ := hInv.val y o (mapGet_mem _ _ _ ho)
  refine ⟨fb, o, nd, hfb, ho, hreach, hnd, ?_⟩
  rw [hval, hanc]

theorem claimC2_witness :
    ∃ st, useSearchTreeWith [TreeNode.mk 0 [TreeNode.mk 1 []]] (fun d => d == 0)
        (fun (d : Nat) (b1 b2 : Bool) => (d, b1, b2)) =
        .ok (flattenForest 0 none [TreeNode.mk 0 [TreeNode.mk 1 []]], st) ∧
      ∃ fb o nd, (flattenForest 0 none [TreeNode.mk 0 [TreeNode.mk 1 []]])[1]? = some fb ∧
        mapGet st.addedFiberMap 1 = some o ∧
        ReachesOut st o ∧
        st.oheap[o]? = some nd ∧
        nd.value = (fb.data,
          matB (flattenForest 0 none [TreeNode.mk 0 [TreeNode.mk 1 []]])
            (fun d => d == 0) 1, true) := by
  have hH : flattenForest 0 none [TreeNode.mk 0 [TreeNode.mk 1 []]] =
      ([⟨0, none, some 1, none⟩, ⟨1, some 0, none, none⟩] : List (Fiber Nat)) := by
    simp [flattenForest, sizeT, sizeF]
  exact claimC2 [TreeNode.mk 0 [TreeNode.mk 1 []]] (by decide) (fun d => d == 0)
    (fun d b1 b2 => (d, b1, b2)) 0 1
    (by rw [flattenForest_length]; decide)
    (by rw [hH]; decide)
    (by rw [hH]; decide)

/-- C3 (amended): the sibling-exclusion law requires that no ancestor of the
sibling matches.  If a sibling subtree of a matching node contains no match
and no strict ancestor of the sibling matches either, then that subtree is
entirely absent from the reconstruction: none of its fibers is keyed in
`addedFiberMap` or recorded in `trueFibers`.  (Without the ancestor
condition the law fails: see the counterexample.) -/
theorem claimC3 {T : Type} (F : List (TreeNode T)) (hF : F ≠ []) (cb : T → Bool)
    (x s : Nat)
    (hmat : matB (flattenForest 0 none F) cb x = true)
    (hsib2 : fparent (flattenForest 0 none F) s = fparent (flattenForest 0 none F) x)
    (hne : s ≠ x)
    (hnomatch : ∀ y, y < (flattenForest 0 none F).length →
      ancOrSelf (flattenForest 0 none F) s y = true →
      matB (flattenForest 0 none F) cb y = false)
    (hnoanc : ancMatB (flattenForest 0 none F) cb s = false) :
    ∃ st, useSearchTree F cb = .ok (flattenForest 0 none F, st) ∧
      ∀ y, ancOrSelf (flattenForest 0 none F) s y = true →
        mapGet st.addedFiberMap y = none ∧ y ∉ st.trueFibers := by
  obtain ⟨hok, hInv⟩ := useSearchTreeWith_inv F hF cb (fun d _ _ => d)
  have hwf := WFparent_flatten F
  refine ⟨_, hok, ?_⟩
  intro y hy
  have hyadd : addedB (flattenForest 0 none F) cb
      (flattenForest 0 none F).length y = false := by
    cases hadd : addedB (flattenForest 0 none F) cb
        (flattenForest 0 none F).length y with
    | false => rfl
    | true =>
      exfalso
      unfold addedB at hadd
      rw [List.any_eq_true] at hadd
      obtain ⟨d2, hd2, hq⟩ := hadd
      rw [List.mem_range] at hd2
      rw [Bool.and_eq_true] at hq
      obtain ⟨hqd, haosyd⟩ := hq
      have haossd : ancOrSelf (flattenForest 0 none F) s d2 = true := by
        unfold ancOrSelf at hy haosyd ⊢
        rcases Bool.or_eq_true .. |>.mp hy with h1 | h1
        · rw [of_decide_eq_true h1]
          exact haosyd
        · have hsy := of_decide_eq_true h1
          rcases Bool.or_eq_true .. |>.mp haosyd with h2 | h2
          · have h3 := of_decide_eq_true h2
            rw [← h3]
            simp [hsy]
          · have h3 := ancChain_trans _ hwf d2 y s (of_decide_eq_true h2) hsy
            simp [h3]
      unfold qualB at hqd
      rw [Bool.or_eq_true] at hqd
      rcases hqd with hmd | hand
      · rw [hnomatch d2 hd2 haossd] at hmd
        cases hmd
      · unfold ancMatB at hand
        rw [List.any_eq_true] at hand
        obtain ⟨a, ha, hma⟩ := hand
        have hcases : ancOrSelf (flattenForest 0 none F) s a = true ∨
            a ∈ ancChain (flattenForest 0 none F) s := by
          unfold ancOrSelf at haossd
          rcases Bool.or_eq_true .. |>.mp haossd with h1 | h1
          · right
            rw [of_decide_eq_true h1]
            exact ha
          · have hsd := of_decide_eq_true h1
            rcases ancChain_total _ hwf d2 a s ha hsd with h2 | h2 | h2
            · left
              unfold ancOrSelf
              rw [h2]
              simp
            · right
              exact h2
            · left
              unfold ancOrSelf
              simp [h2]
        rcases hcases with h2 | h2
        · have haH : a < (flattenForest 0 none F).length := by
            have := ancChain_mem_lt _ hwf d2 a ha
            omega
          rw [hnomatch a haH h2] at hma
          cases hma
        · have h3 : ancMatB (flattenForest 0 none F) cb s = true := by
            unfold ancMatB
            rw [List.any_eq_true]
            exact ⟨a, h2, hma⟩
          rw [hnoanc] at h3
          cases h3
  constructor
  · apply isSome_false_eq_none
    rw [hInv.added y]
    exact hyadd
  · intro hmem
    rw [hInv.tf, List.mem_filter, List.mem_range] at hmem
    have h2 := hmem.2
    rw [hnomatch y hmem.1 hy] at h2
    cases h2

theorem claimC3_witness :
    ∃ st, useSearchTree [TreeNode.mk 1 [TreeNode.mk 2 [], TreeNode.mk 3 []]]
        (fun d => d == 2) =
        .ok (flattenForest 0 none [TreeNode.mk 1 [TreeNode.mk 2 [], TreeNode.mk 3 []]],
          st) ∧
      ∀ y, ancOrSelf (flattenForest 0 none
          [TreeNode.mk 1 [TreeNode.mk 2 [], TreeNode.mk 3 []]]) 2 y = true →
        mapGet st.addedFiberMap y = none ∧ y ∉ st.trueFibers := by
  have hH : flattenForest 0 none [TreeNode.mk 1 [TreeNode.mk 2 [], TreeNode.mk 3 []]] =
      ([⟨1, none, some 1, none⟩, ⟨2, some 0, none, some 2⟩,
        ⟨3, some 0, none, none⟩] : List (Fiber Nat)) := by
    simp [flattenForest, sizeT, sizeF]
  exact claimC3 [TreeNode.mk 1 [TreeNode.mk 2 [], TreeNode.mk 3 []]] (by decide)
    (fun d => d == 2) 1 2
    (by rw [hH]; decide)
    (by rw [hH]; decide)
    (by decide)
    (by rw [hH]; decide)
    (by rw [hH]; decide)

/-- C3 counterexample to the spec's literal sibling-exclusion law: in the
forest 1[2, 3] with a predicate matching the payloads 1 and 2, node 2
matches and the sibling subtree {3} contains no match, yet fiber 2 (node 3)
is keyed and the resolved tree retains it: the matching common ancestor 1
pulls the sibling in. -/
theorem claimC3_counterexample :
    ∃ H st, useSearchTree [TreeNode.mk 1 [TreeNode.mk 2 [], TreeNode.mk 3 []]]
        (fun d => d == 1 || d == 2) = .ok (H, st) ∧
      matB H (fun d => d == 1 || d == 2) 1 = true ∧
      fparent H 2 = fparent H 1 ∧
      (∀ y, y < H.length → ancOrSelf H 2 y = true →
        matB H (fun d => d == 1 || d == 2) y = false) ∧
      (mapGet st.addedFiberMap 2).isSome = true ∧
      resolveRoots st = some [TreeNode.mk 1 [TreeNode.mk 2 [], TreeNode.mk 3 []]] := by
  refine ⟨[⟨1, none, some 1, none⟩, ⟨2, some 0, none, some 2⟩,
      ⟨3, some 0, none, none⟩],
    ⟨[⟨1, [1, 2]⟩, ⟨2, []⟩, ⟨3, []⟩], [0], [(2, 2), (1, 1), (0, 0)], [0, 1]⟩,
    ?_, by decide, by decide, by decide, by decide, by decide⟩
  unfold useSearchTree
  rw [treeToFiber_eq_flatten _ (by decide)]
  have hH : flattenForest 0 none [TreeNode.mk 1 [TreeNode.mk 2 [], TreeNode.mk 3 []]] =
      ([⟨1, none, some 1, none⟩, ⟨2, some 0, none, some 2⟩,
        ⟨3, some 0, none, none⟩] : List (Fiber Nat)) := by
    simp [flattenForest, sizeT, sizeF]
  rw [hH]
  rfl

/-- C4: on the concrete forest 1[2, 3[4]] with the predicate `id == 3`, the
reconstructed tree is 1[3[4]]: node 2 is pruned, node 4 is retained under
its matching ancestor 3, node 1 is materialized only as an ancestor of 3,
and fiber 2 (node 3) is the only direct match. -/
theorem claimC4 :
    ∃ H st, useSearchTree
        [TreeNode.mk 1 [TreeNode.mk 2 [], TreeNode.mk 3 [TreeNode.mk 4 []]]]
        (fun d => d == 3) = .ok (H, st) ∧
      resolveRoots st = some [TreeNode.mk 1 [TreeNode.mk 3 [TreeNode.mk 4 []]]] ∧
      st.trueFibers = [2] ∧
      mapGet st.addedFiberMap 1 = none ∧
      (mapGet st.addedFiberMap 0).isSome = true := by
  refine ⟨[⟨1, none, some 1, none⟩, ⟨2, some 0, none, some 2⟩,
      ⟨3, some 0, some 3, none⟩, ⟨4, some 2, none, none⟩],
    ⟨[⟨3, [2]⟩, ⟨1, [0]⟩, ⟨4, []⟩], [1], [(3, 2), (0, 1), (2, 0)], [2]⟩,
    ?_, by decide, by decide, by decide, by decide⟩
  unfold useSearchTree
  rw [treeToFiber_eq_flatten _ (by decide)]
  have hH : flattenForest 0 none
      [TreeNode.mk 1 [TreeNode.mk 2 [], TreeNode.mk 3 [TreeNode.mk 4 []]]] =
      ([⟨1, none, some 1, none⟩, ⟨2, some 0, none, some 2⟩,
        ⟨3, some 0, some 3, none⟩, ⟨4, some 2, none, none⟩] : List (Fiber Nat)) := by
    simp [flattenForest, sizeT, sizeF]
  rw [hH]
  rfl

/-- C5: `treeToFiber` errors exactly on the empty forest, with the
InvalidInput message; `walkThroughFiber` errors exactly on a fiber whose
`parent` is set, returning the error in place of any visit list; and on a
non-empty forest the conversion and the search built on it complete without
error. -/
theorem claimC5 {T : Type} :
    (∀ F : List (TreeNode T), (∃ e, treeToFiber F = .error e) ↔ F = []) ∧
    treeToFiber ([] : List (TreeNode T)) = .error "树不能为空" ∧
    (∀ (H : List (Fiber T)) (i : Nat) (fb : Fiber T), H[i]? = some fb →
      ((∃ e, walkThroughFiber H i = .error e) ↔ fb.parent ≠ none)) ∧
    (∀ (F : List (TreeNode T)) (cb : T → Bool), F ≠ [] →
      ∃ H st, useSearchTree F cb = .ok (H, st)) := by
  refine ⟨?_, rfl, ?_, ?_⟩
  · intro F
    constructor
    · rintro ⟨e, he⟩
      by_contra hne
      rw [treeToFiber_eq_flatten F hne] at he
      cases he
    · rintro rfl
      exact ⟨"树不能为空", rfl⟩
  · intro H i fb hfb
    obtain ⟨d, fp, fc, fs⟩ := fb
    cases fp with
    | none =>
      have hw : walkThroughFiber H i = .ok (walkList H H.length i) := by
        unfold walkThroughFiber
        rw [hfb]
      constructor
      · rintro ⟨e, he⟩
        rw [hw] at he
        cases he
      · intro h
        exact absurd rfl h
    | some p =>
      have hw : walkThroughFiber H i = .error "根节点的 parent 必须为空" := by
        unfold walkThroughFiber
        rw [hfb]
      constructor
      · intro _
        simp
      · intro _
        exact ⟨_, hw⟩
  · intro F cb hF
    exact ⟨flattenForest 0 none F, _,
      (useSearchTreeWith_inv F hF cb (fun d _ _ => d)).1⟩

theorem claimC5_witness :
    treeToFiber ([] : List (TreeNode Nat)) = .error "树不能为空" :=
  (@claimC5 Nat).2.1

/-- C6: with a predicate accepting every payload, the search reconstructs
the whole forest: `trueFibers` lists every fiber, resolving `searchTree`
returns the input forest itself when no transform is given, and with any
transform the resolved forest has the same shape as the input. -/
theorem claimC6 {T : Type} (F : List (TreeNode T)) (hF : F ≠ []) (cb : T → Bool)
    (hall : ∀ d, cb d = true) :
    (∃ st, useSearchTree F cb = .ok (flattenForest 0 none F, st) ∧
      st.trueFibers = List.range (flattenForest 0 none F).length ∧
      resolveRoots st = some F) ∧
    (∀ (K : Type) (tfm : T → Bool → Bool → K), ∃ st2 G,
      useSearchTreeWith F cb tfm = .ok (flattenForest 0 none F, st2) ∧
      resolveRoots st2 = some G ∧ shapeF G = shapeF F) := by
  have hmatall : ∀ z, z < (flattenForest 0 none F).length →
      matB (flattenForest 0 none F) cb z = true := by
    intro z hz
    unfold matB
    rw [List.getElem?_eq_getElem hz]
    exact hall _
  have halladd : ∀ z, z < (flattenForest 0 none F).length →
      addedB (flattenForest 0 none F) cb (flattenForest 0 none F).length z = true := by
    intro z hz
    unfold addedB
    rw [List.any_eq_true]
    refine ⟨z, List.mem_range.mpr hz, ?_⟩
    rw [Bool.and_eq_true]
    refine ⟨?_, by unfold ancOrSelf; simp⟩
    unfold qualB
    rw [hmatall z hz]
    rfl
  have hlabel : ∀ j t, preNodeF F j = some t →
      ((((flattenForest 0 none F)[j]?).map Fiber.data).getD
        (TreeNode.label (F.head hF))) = TreeNode.label t := by
    intro j t hj
    have h1 : ((flattenForest 0 none F).map Fiber.data)[j]? = (preF F)[j]? := by
      rw [flattenForest_map_data]
    rw [List.getElem?_map] at h1
    rw [h1, preF_preNode, hj]
    rfl
  constructor
  · obtain ⟨hok, hInv⟩ := useSearchTreeWith_inv F hF cb (fun d _ _ => d)
    refine ⟨_, hok, ?_, ?_⟩
    · rw [hInv.tf]
      apply List.filter_eq_self.mpr
      intro a ha
      rw [List.mem_range] at ha
      exact hmatall a ha
    · have hres := resolveRoots_reVal F cb (fun d _ _ => d) _ hInv halladd
        (fun z => (((flattenForest 0 none F)[z]?).map Fiber.data).getD
          (TreeNode.label (F.head hF)))
        (by
          intro z o nd hm hnd
          show nd.value = (((flattenForest 0 none F)[z]?).map Fiber.data).getD
            (TreeNode.label (F.head hF))
          obtain ⟨fb, nd2, hfb, hnd2, hval⟩ := hInv.val z o hm
          rw [hnd] at hnd2
          injection hnd2 with h2
          rw [← h2] at hval
          rw [hval, hfb]
          rfl)
      rw [hres]
      congr 1
      apply reVal_selfF F _ hlabel F 0
      intro p t2 hm
      have h2 := (rootIdxT_mem F 0 p t2 hm).2
      rw [Nat.sub_zero] at h2
      exact h2
  · intro K tfm
    obtain ⟨hok, hInv⟩ := useSearchTreeWith_inv F hF cb tfm
    refine ⟨_, reValF (fun z => tfm
        ((((flattenForest 0 none F)[z]?).map Fiber.data).getD
          (TreeNode.label (F.head hF)))
        (matB (flattenForest 0 none F) cb z)
        (ancMatB (flattenForest 0 none F) cb z)) F 0, hok, ?_, ?_⟩
    · apply resolveRoots_reVal F cb tfm _ hInv halladd
      intro z o nd hm hnd
      show nd.value = tfm
        ((((flattenForest 0 none F)[z]?).map Fiber.data).getD
          (TreeNode.label (F.head hF)))
        (matB (flattenForest 0 none F) cb z)
        (ancMatB (flattenForest 0 none F) cb z)
      obtain ⟨fb, nd2, hfb, hnd2, hval⟩ := hInv.val z o hm
      rw [hnd] at hnd2
      injection hnd2 with h2
      rw [← h2] at hval
      rw [hval, hfb]
      rfl
    · exact shape_reValF _ F 0

theorem claimC6_witness :
    (∃ st, useSearchTree [TreeNode.mk 0 [TreeNode.mk 1 []]] (fun _ => true) =
        .ok (flattenForest 0 none [TreeNode.mk 0 [TreeNode.mk 1 []]], st) ∧
      st.trueFibers = List.range
        (flattenForest 0 none [TreeNode.mk 0 [TreeNode.mk 1 []]]).length ∧
      resolveRoots st = some [TreeNode.mk 0 [TreeNode.mk 1 []]]) ∧
    (∀ (K : Type) (tfm : Nat → Bool → Bool → K), ∃ st2 G,
      useSearchTreeWith [TreeNode.mk 0 [TreeNode.mk 1 []]] (fun _ => true) tfm =
        .ok (flattenForest 0 none [TreeNode.mk 0 [TreeNode.mk 1 []]], st2) ∧
      resolveRoots st2 = some G ∧
      shapeF G = shapeF [TreeNode.mk 0 [TreeNode.mk 1 []]]) :=
  claimC6 [TreeNode.mk 0 [TreeNode.mk 1 []]] (by decide) (fun _ => true)
    (fun d => rfl)

/-- C7: each included fiber is materialized at most once: the final map's
keys are distinct, its values enumerate the output store bijectively (one
output node per key and every node keyed), and the concatenation of
`searchTree` with all `children` arrays repeats no output index, so every
node is attached exactly once. -/
theorem claimC7 {T K : Type} (F : List (TreeNode T)) (hF : F ≠ [])
    (cb : T → Bool) (tfm : T → Bool → Bool → K) :
    ∃ st, useSearchTreeWith F cb tfm = .ok (flattenForest 0 none F, st) ∧
      (st.addedFiberMap.map Prod.fst).Nodup ∧
      st.addedFiberMap.map Prod.snd = (List.range st.oheap.length).reverse ∧
      (st.searchTree ++ (st.oheap.map ONode.children).flatten).Nodup := by
  obtain ⟨hok, hInv⟩ := useSearchTreeWith_inv F hF cb tfm
  exact ⟨_, hok, hInv.fstnd, hInv.snd, searchInv_attach_nodup _ cb tfm _ hInv⟩

theorem claimC7_witness :
    ∃ st, useSearchTreeWith [TreeNode.mk 0 [TreeNode.mk 1 []]] (fun d => d == 0)
        (fun (d : Nat) (b1 b2 : Bool) => (d, b1, b2)) =
        .ok (flattenForest 0 none [TreeNode.mk 0 [TreeNode.mk 1 []]], st) ∧
      (st.addedFiberMap.map Prod.fst).Nodup ∧
      st.addedFiberMap.map Prod.snd = (List.range st.oheap.length).reverse ∧
      (st.searchTree ++ (st.oheap.map ONode.children).flatten).Nodup :=
  claimC7 [TreeNode.mk 0 [TreeNode.mk 1 []]] (by decide) (fun d => d == 0)
    (fun d b1 b2 => (d, b1, b2))

/-- C8: output ordering matches input sibling order at every level: the
top-level roots of `searchTree`, and the `children` array of every output
node, are the images of strictly increasing lists of fiber indices (fiber
indices are allocated in pre-order, so increasing index among siblings is
input sibling order). -/
theorem claimC8 {T K : Type} (F : List (TreeNode T)) (hF : F ≠ [])
    (cb : T → Bool) (tfm : T → Bool → Bool → K) :
    ∃ st, useSearchTreeWith F cb tfm = .ok (flattenForest 0 none F, st) ∧
      (∃ roots : List Nat, List.Pairwise (· < ·) roots ∧
        (∀ r ∈ roots, fparent (flattenForest 0 none F) r = none) ∧
        st.searchTree = roots.map (fun r => (mapGet st.addedFiberMap r).getD 0)) ∧
      (∀ x o nd, (x, o) ∈ st.addedFiberMap → st.oheap[o]? = some nd →
        ∃ cs : List Nat, List.Pairwise (· < ·) cs ∧
          (∀ c ∈ cs, fparent (flattenForest 0 none F) c = some x) ∧
          nd.children = cs.map (fun c => (mapGet st.addedFiberMap c).getD 0)) := by
  obtain ⟨hok, hInv⟩ := useSearchTreeWith_inv F hF cb tfm
  refine ⟨_, hok, ?_, ?_⟩
  · refine ⟨(List.range (flattenForest 0 none F).length).filter
      (fun r => (fparent (flattenForest 0 none F) r).isNone
        && addedB (flattenForest 0 none F) cb (flattenForest 0 none F).length r),
      List.Pairwise.filter _ (List.pairwise_lt_range _), ?_, hInv.roots⟩
    intro r hr
    rw [List.mem_filter] at hr
    exact Option.isNone_iff_eq_none.mp (Bool.and_eq_true .. |>.mp hr.2).1
  · intro x o nd hm hnd
    refine ⟨(List.range (flattenForest 0 none F).length).filter
      (fun c => decide (fparent (flattenForest 0 none F) c = some x)
        && addedB (flattenForest 0 none F) cb (flattenForest 0 none F).length c),
      List.Pairwise.filter _ (List.pairwise_lt_range _), ?_,
      hInv.child x o nd hm hnd⟩
    intro c hc
    rw [List.mem_filter] at hc
    exact of_decide_eq_true (Bool.and_eq_true .. |>.mp hc.2).1

theorem claimC8_witness :
    ∃ st, useSearchTreeWith [TreeNode.mk 0 [TreeNode.mk 1 []]] (fun d => d == 0)
        (fun (d : Nat) (b1 b2 : Bool) => (d, b1, b2)) =
        .ok (flattenForest 0 none [TreeNode.mk 0 [TreeNode.mk 1 []]], st) ∧
      (∃ roots : List Nat, List.Pairwise (· < ·) roots ∧
        (∀ r ∈ roots,
          fparent (flattenForest 0 none [TreeNode.mk 0 [TreeNode.mk 1 []]]) r = none) ∧
        st.searchTree = roots.map (fun r => (mapGet st.addedFiberMap r).getD 0)) ∧
      (∀ x o nd, (x, o) ∈ st.addedFiberMap → st.oheap[o]? = some nd →
        ∃ cs : List Nat, List.Pairwise (· < ·) cs ∧
          (∀ c ∈ cs, fparent (flattenForest 0 none
            [TreeNode.mk 0 [TreeNode.mk 1 []]]) c = some x) ∧
          nd.children = cs.map (fun c => (mapGet st.addedFiberMap c).getD 0)) :=
  claimC8 [TreeNode.mk 0 [TreeNode.mk 1 []]] (by decide) (fun d => d == 0)
    (fun d b1 b2 => (d, b1, b2))

/-- C9: the heap `treeToFiber` returns satisfies the structural invariant
`FiberRep`: its root index 0 is the fiber of the first top-level node, every
fiber carries its node's payload, points to its tree parent (absent exactly
for the top-level roots, which are chained through `sibling` in input
order), to its first child, and to its next sibling. -/
theorem claimC9 {T : Type} (F : List (TreeNode T)) (hF : F ≠ []) :
    ∃ H : List (Fiber T), treeToFiber F = .ok (H, 0) ∧ FiberRep H 0 none F :=
  ⟨flattenForest 0 none F, treeToFiber_eq_flatten F hF,
    seg_fiberRep F _ 0 none (flatten_seg F)⟩

theorem claimC9_witness :
    ∃ H : List (Fiber Nat),
      treeToFiber [TreeNode.mk 0 [TreeNode.mk 1 []], TreeNode.mk 2 []] = .ok (H, 0) ∧
      FiberRep H 0 none [TreeNode.mk 0 [TreeNode.mk 1 []], TreeNode.mk 2 []] :=
  claimC9 [TreeNode.mk 0 [TreeNode.mk 1 []], TreeNode.mk 2 []] (by decide)

/-- C10: result consistency of `useSearchTree` without a transform: every
fiber of `trueFibers` is a key of `addedFiberMap`; a fiber is a key exactly
when its output node is reachable from `searchTree`; every reachable output
node is the image of a key; distinct keys map to distinct output nodes; and
each output node is a fresh record carrying just the fiber's payload (no
parent, child or sibling fields), the fiber heap being returned unchanged. -/
theorem claimC10 {T : Type} (F : List (TreeNode T)) (hF : F ≠ []) (cb : T → Bool) :
    ∃ st, useSearchTree F cb = .ok (flattenForest 0 none F, st) ∧
      (∀ t ∈ st.trueFibers, (mapGet st.addedFiberMap t).isSome = true) ∧
      (∀ x, (mapGet st.addedFiberMap x).isSome = true ↔
        ∃ o, mapGet st.addedFiberMap x = some o ∧ ReachesOut st o) ∧
      (∀ o, ReachesOut st o → ∃ x, mapGet st.addedFiberMap x = some o) ∧
      (∀ x y o, mapGet st.addedFiberMap x = some o →
        mapGet st.addedFiberMap y = some o → x = y) ∧
      (∀ x o, mapGet st.addedFiberMap x = some o →
        ∃ fb nd, (flattenForest 0 none F)[x]? = some fb ∧
          st.oheap[o]? = some nd ∧ nd.value = fb.data) := by
  obtain ⟨hok, hInv⟩ := useSearchTreeWith_inv F hF cb (fun d _ _ => d)
  have hwf := WFparent_flatten F
  refine ⟨_, hok, ?_, ?_, ?_, ?_, ?_⟩
  · intro t ht
    rw [hInv.tf, List.mem_filter, List.mem_range] at ht
    rw [hInv.added t]
    unfold addedB
    rw [List.any_eq_true]
    refine ⟨t, List.mem_range.mpr ht.1, ?_⟩
    rw [Bool.and_eq_true]
    refine ⟨?_, by unfold ancOrSelf; simp⟩
    unfold qualB
    rw [ht.2]
    rfl
  · intro x
    constructor
    · intro hx
      have hadd : addedB (flattenForest 0 none F) cb
          (flattenForest 0 none F).length x = true := by
        rw [← hInv.added x]
        exact hx
      exact searchInv_reaches _ cb _ hwf _ hInv x hadd
    · rintro ⟨o, ho, _⟩
      rw [ho]
      rfl
  · exact searchInv_reach_keyed _ cb _ _ hInv
  · intro x y o hx hy
    exact map_snd_inj _ _ hInv.snd x y o (mapGet_mem _ _ _ hx) (mapGet_mem _ _ _ hy)
  · intro x o hx
    obtain ⟨fb, nd, hfb, hnd, hval⟩ := hInv.val x o (mapGet_mem _ _ _ hx)
    refine ⟨fb, nd, hfb, hnd, ?_⟩
    rw [hval]

theorem claimC10_witness :
    ∃ st, useSearchTree [TreeNode.mk 0 [TreeNode.mk 1 []]] (fun d => d == 0) =
        .ok (flattenForest 0 none [TreeNode.mk 0 [TreeNode.mk 1 []]], st) ∧
      (∀ t ∈ st.trueFibers, (mapGet st.addedFiberMap t).isSome = true) ∧
      (∀ x, (mapGet st.addedFiberMap x).isSome = true ↔
        ∃ o, mapGet st.addedFiberMap x = some o ∧ ReachesOut st o) ∧
      (∀ o, ReachesOut st o → ∃ x, mapGet st.addedFiberMap x = some o) ∧
      (∀ x y o, mapGet st.addedFiberMap x = some o →
        mapGet st.addedFiberMap y = some o → x = y) ∧
      (∀ x o, mapGet st.addedFiberMap x = some o →
        ∃ fb nd, (flattenForest 0 none [TreeNode.mk 0 [TreeNode.mk 1 []]])[x]? = some fb ∧
          st.oheap[o]? = some nd ∧ nd.value = fb.data) :=
  claimC10 [TreeNode.mk 0 [TreeNode.mk 1 []]] (by decide) (fun d => d == 0)

end SodaHooks
